import Mathlib

/-!
# Verification of fast-circular-dependency-plugin

A shallow embedding, in Lean 4, of the cycle-detection core of
`fast-circular-dependency-plugin` (`src/index.js`, with the refactored copy in
`src/index.d.ts`), together with proofs and refutations of the specification's
claims about it.

Modelling conventions:
* JS module objects are identified by `Nat` handles (object identity = handle
  equality).  `null`/`undefined` values are `Option.none`.
* JS arrays indexed by module index (`idx`, `low`, `onSt`, `sccId`) are modelled
  as total functions `Nat → _`; `-1` sentinels become `Option.none`.
* JS string comparison (`<` on strings, used by the module sort) is modelled by
  code-point lexicographic comparison `jsLt` on `String.data`.
* `Array.prototype.sort` with a comparator is, per the ECMAScript spec, a
  stable comparator sort; it is modelled by a stable insertion sort
  (`sortByKey`).
* The recursive JS functions `strongconnect` and `dfs` are modelled with an
  explicit fuel parameter; `none` signals fuel exhaustion, and we prove the
  fuel used by the embedding is always sufficient, so the `none` branch is
  unreachable and the model agrees with the JS source everywhere.
-/

/-! ## JS string comparison -/

/-- Lexicographic comparison of character lists by code point, modelling the
JS `<` operator on strings (used by the module-sort comparator). -/
def strLtB : List Char → List Char → Bool
  | [], [] => false
  | [], _ :: _ => true
  | _ :: _, [] => false
  | c :: cs, d :: ds =>
    if c.toNat < d.toNat then true
    else if d.toNat < c.toNat then false
    else strLtB cs ds

/-- JS `a < b` on strings. -/
def jsLt (a b : String) : Bool := strLtB a.data b.data

theorem strLtB_irrefl : ∀ l, strLtB l l = false
  | [] => rfl
  | _ :: cs => by simp [strLtB, strLtB_irrefl cs]

theorem strLtB_asymm : ∀ {l₁ l₂}, strLtB l₁ l₂ = true → strLtB l₂ l₁ = false
  | [], [], h => by simp [strLtB] at h
  | [], _ :: _, _ => rfl
  | _ :: _, [], h => by simp [strLtB] at h
  | c :: cs, d :: ds, h => by
    simp only [strLtB] at h ⊢
    rcases Nat.lt_trichotomy c.toNat d.toNat with hlt | heq | hgt
    · simp [hlt, Nat.not_lt.2 (Nat.le_of_lt hlt), Nat.lt_irrefl]
    · simp only [heq, Nat.lt_irrefl, if_false] at h ⊢
      exact strLtB_asymm h
    · simp [hgt, Nat.not_lt.2 (Nat.le_of_lt hgt), Nat.lt_irrefl] at h

theorem strLtB_trans : ∀ {l₁ l₂ l₃},
    strLtB l₁ l₂ = true → strLtB l₂ l₃ = true → strLtB l₁ l₃ = true
  | [], [], _, h, _ => by simp [strLtB] at h
  | [], _ :: _, [], _, h => by simp [strLtB] at h
  | [], _ :: _, _ :: _, _, _ => rfl
  | _ :: _, [], _, h, _ => by simp [strLtB] at h
  | _ :: _, _ :: _, [], _, h => by simp [strLtB] at h
  | c :: cs, d :: ds, e :: es, h₁, h₂ => by
    simp only [strLtB] at h₁ h₂ ⊢
    rcases Nat.lt_trichotomy c.toNat d.toNat with hcd | hcd | hcd
    · rcases Nat.lt_trichotomy d.toNat e.toNat with hde | hde | hde
      · simp [Nat.lt_trans hcd hde]
      · simp [hde ▸ hcd]
      · simp [hde, Nat.not_lt.2 (Nat.le_of_lt hde), Nat.lt_irrefl] at h₂
    · rcases Nat.lt_trichotomy d.toNat e.toNat with hde | hde | hde
      · simp [hcd ▸ hde]
      · simp only [hcd, hde, Nat.lt_irrefl, if_false] at h₁ h₂ ⊢
        exact strLtB_trans h₁ h₂
      · simp [hde, Nat.not_lt.2 (Nat.le_of_lt hde), Nat.lt_irrefl] at h₂
    · simp [hcd, Nat.not_lt.2 (Nat.le_of_lt hcd), Nat.lt_irrefl] at h₁

theorem strLtB_total : ∀ l₁ l₂, strLtB l₁ l₂ = false → strLtB l₂ l₁ = false → l₁ = l₂
  | [], [], _, _ => rfl
  | [], _ :: _, h, _ => by simp [strLtB] at h
  | _ :: _, [], _, h => by simp [strLtB] at h
  | c :: cs, d :: ds, h₁, h₂ => by
    simp only [strLtB] at h₁ h₂
    rcases Nat.lt_trichotomy c.toNat d.toNat with hcd | hcd | hcd
    · simp [hcd] at h₁
    · simp only [hcd, Nat.lt_irrefl, if_false] at h₁ h₂
      have hc : c = d := Char.ext (UInt32.ext hcd)
      rw [hc, strLtB_total cs ds h₁ h₂]
    · simp [hcd] at h₂

/-! ## Stable comparator sort (models `Array.prototype.sort`)

`modList.sort((a, b) => ra < rb ? -1 : ra > rb ? 1 : 0)` in the source is a
stable sort by the string key `ra = getResource(a) || ''`.  We model it by a
stable insertion sort on an arbitrary key function. -/

/-- Insert `a` into `l`, keeping every element whose key is strictly below
`key a` in front of `a`; among equal keys the previously-present elements of
`l` stay behind `a` only if strictly greater, so arrival order is preserved. -/
def sortInsert (key : α → String) (a : α) : List α → List α
  | [] => [a]
  | b :: l => if jsLt (key b) (key a) then b :: sortInsert key a l else a :: b :: l

/-- Stable sort by a string key (model of the JS comparator sort). -/
def sortByKey (key : α → String) : List α → List α
  | [] => []
  | a :: l => sortInsert key a (sortByKey key l)

theorem sortInsert_perm (key : α → String) (a : α) :
    ∀ l : List α, List.Perm (sortInsert key a l) (a :: l)
  | [] => List.Perm.refl _
  | b :: l => by
    unfold sortInsert
    cases h : jsLt (key b) (key a) <;> simp only [if_true, if_false, Bool.false_eq_true]
    · exact List.Perm.refl _
    · exact ((sortInsert_perm key a l).cons b).trans (List.Perm.swap a b l)

theorem sortByKey_perm (key : α → String) :
    ∀ l : List α, List.Perm (sortByKey key l) l
  | [] => List.Perm.refl _
  | a :: l => (sortInsert_perm key a _).trans ((sortByKey_perm key l).cons a)

theorem jsLt_trichotomy (a b : String) :
    jsLt a b = true ∨ jsLt b a = true ∨ a = b := by
  cases h₁ : jsLt a b
  · cases h₂ : jsLt b a
    · exact Or.inr (Or.inr (String.ext (strLtB_total a.data b.data h₁ h₂)))
    · exact Or.inr (Or.inl rfl)
  · exact Or.inl rfl

theorem jsLt_asymm {a b : String} (h : jsLt a b = true) : jsLt b a = false :=
  strLtB_asymm h

theorem jsLt_trans {a b c : String} (h₁ : jsLt a b = true) (h₂ : jsLt b c = true) :
    jsLt a c = true := strLtB_trans h₁ h₂

/-- The order produced by the sort: `x` may precede `y` iff `key y` is not
strictly below `key x`. -/
def keyLe (key : α → String) (x y : α) : Prop := jsLt (key y) (key x) = false

theorem keyLe_trans {key : α → String} {a b c : α}
    (h₁ : keyLe key a b) (h₂ : keyLe key b c) : keyLe key a c := by
  unfold keyLe at *
  cases hca : jsLt (key c) (key a)
  · rfl
  · exfalso
    rcases jsLt_trichotomy (key a) (key b) with hab | hab | hab
    · exact absurd (jsLt_trans hca hab) (by simp [h₂])
    · exact absurd hab (by simp [h₁])
    · rw [hab] at hca
      exact absurd hca (by simp [h₂])

theorem sortInsert_sorted (key : α → String) (a : α) {l : List α}
    (h : l.Pairwise (keyLe key)) : (sortInsert key a l).Pairwise (keyLe key) := by
  induction l with
  | nil => simp [sortInsert, keyLe, List.Pairwise]
  | cons b l ih =>
    rcases h with _ | ⟨hb, hl⟩
    unfold sortInsert
    cases hba : jsLt (key b) (key a) <;> simp only [if_true, if_false, Bool.false_eq_true]
    · refine List.Pairwise.cons ?_ (List.Pairwise.cons hb hl)
      intro x hx
      rcases List.mem_cons.mp hx with rfl | hx
      · exact hba
      · exact keyLe_trans hba (hb x hx)
    · refine List.Pairwise.cons ?_ (ih hl)
      intro x hx
      rcases List.mem_cons.mp ((sortInsert_perm key a l).mem_iff.mp hx) with rfl | hx
      · exact jsLt_asymm hba
      · exact hb x hx

theorem sortByKey_sorted (key : α → String) :
    ∀ l : List α, (sortByKey key l).Pairwise (keyLe key)
  | [] => List.Pairwise.nil
  | a :: l => sortInsert_sorted key a (sortByKey_sorted key l)


/-! ## Indexed graphs

The adjacency structure built by the plugin: for each index `i < N`, an ordered
list of neighbor indices (`adj[i]` in the source). -/

/-- `adj[v]` (out of range reads, which never occur, give `[]`). -/
def adjOf (adj : List (List Nat)) (v : Nat) : List Nat := adj.getD v []

/-- All adjacency entries are themselves valid indices. -/
def WFAdj (adj : List (List Nat)) : Prop :=
  ∀ v < adj.length, ∀ w ∈ adjOf adj v, w < adj.length

/-- Reachability along directed edges, with every node on the path (endpoints
included) satisfying `P`. -/
inductive ReachP (adj : List (List Nat)) (P : Nat → Prop) : Nat → Nat → Prop where
  | refl (u : Nat) (hu : P u) : ReachP adj P u u
  | head (u v w : Nat) (hu : P u) (huv : v ∈ adjOf adj u) (h : ReachP adj P v w) :
      ReachP adj P u w

/-- Plain reachability (no restriction on path nodes). -/
def Reach (adj : List (List Nat)) : Nat → Nat → Prop := ReachP adj (fun _ => True)

theorem ReachP.mono {adj : List (List Nat)} {P Q : Nat → Prop}
    (hPQ : ∀ x, P x → Q x) {u v : Nat} (h : ReachP adj P u v) : ReachP adj Q u v := by
  induction h with
  | refl u hu => exact ReachP.refl u (hPQ u hu)
  | head u v w hu huv _ ih => exact ReachP.head u v w (hPQ u hu) huv ih

theorem ReachP.toReach {adj : List (List Nat)} {P : Nat → Prop} {u v : Nat}
    (h : ReachP adj P u v) : Reach adj u v := h.mono (fun _ _ => trivial)

theorem ReachP.trans {adj : List (List Nat)} {P : Nat → Prop} {u v w : Nat}
    (h₁ : ReachP adj P u v) (h₂ : ReachP adj P v w) : ReachP adj P u w := by
  induction h₁ with
  | refl => exact h₂
  | head a b c ha hab _ ih => exact ReachP.head a b w ha hab (ih h₂)

theorem ReachP.fst {adj : List (List Nat)} {P : Nat → Prop} {u v : Nat}
    (h : ReachP adj P u v) : P u := by
  cases h with
  | refl _ hu => exact hu
  | head _ _ _ hu _ _ => exact hu

theorem ReachP.snd {adj : List (List Nat)} {P : Nat → Prop} {u v : Nat}
    (h : ReachP adj P u v) : P v := by
  induction h with
  | refl _ hu => exact hu
  | head _ _ _ _ _ _ ih => exact ih

theorem Reach.single {adj : List (List Nat)} {u v : Nat} (huv : v ∈ adjOf adj u) :
    Reach adj u v :=
  ReachP.head u v v trivial huv (ReachP.refl v trivial)

/-- Mutual reachability: the relation whose equivalence classes are the strongly
connected components of the graph. -/
def SCCRel (adj : List (List Nat)) (u v : Nat) : Prop :=
  Reach adj u v ∧ Reach adj v u

/-- A set of nodes (given by a predicate) closed under out-edges. -/
def EdgeClosed (adj : List (List Nat)) (P : Nat → Prop) : Prop :=
  ∀ u, P u → ∀ w ∈ adjOf adj u, P w

theorem Reach.stays {adj : List (List Nat)} {P : Nat → Prop}
    (hP : EdgeClosed adj P) {u v : Nat} (h : Reach adj u v) (hu : P u) : P v := by
  induction h with
  | refl => exact hu
  | head a b c _ hab _ ih => exact ih (hP a hu b hab)

/-- Inside an edge-closed set, plain reachability refines to reachability whose
whole path lies in the set. -/
theorem Reach.toReachP {adj : List (List Nat)} {P : Nat → Prop}
    (hP : EdgeClosed adj P) {u v : Nat} (h : Reach adj u v) (hu : P u) :
    ReachP adj P u v := by
  induction h with
  | refl w _ => exact ReachP.refl w hu
  | head a b c _ hab _ ih => exact ReachP.head a b c hu hab (ih (hP a hu b hab))

/-! ## Tarjan SCC (model of `strongconnect` in `src/index.js` lines 112-147 and
`computeStronglyConnectedComponents` in `src/index.d.ts`)

The two copies differ only syntactically (ternary-`<` versus `Math.min`;
`do/while` versus `while` with `break`): both recursive functions are modelled
by `strongconnect` below.  JS recursion carries no fuel; the fuel argument and
the `Option` layer exist only so that Lean accepts the recursion, and
`strongconnect_spec` below proves the fuel provided by `tarjanRun` is always
sufficient, so the model computes exactly what the JS does. -/

/-- The mutable state of the Tarjan pass: discovery counter `index`, per-node
discovery index `idx` (`none` models `-1`), low-link `low`, on-stack marker
`onSt`, component id `sccId` (`none` models `-1`), the explicit stack `st`
(head = top), and the list of finished components `sccs`. -/
structure TS where
  counter : Nat
  idx : Nat → Option Nat
  low : Nat → Nat
  onSt : Nat → Bool
  sccId : Nat → Option Nat
  st : List Nat
  sccs : List (List Nat)

/-- State at the start of the pass (`idx[i] = -1`, `low[i] = 0`, etc.). -/
def initTS : TS :=
  { counter := 0, idx := fun _ => none, low := fun _ => 0, onSt := fun _ => false,
    sccId := fun _ => none, st := [], sccs := [] }

/-- The component-popping loop `do { w = st.pop(); ... } while (w !== v)`:
returns the popped nodes (in pop order) and the remaining stack. -/
def popUntil (v : Nat) : List Nat → List Nat × List Nat
  | [] => ([], [])
  | w :: rest =>
    if w = v then ([w], rest)
    else
      let p := popUntil v rest
      (w :: p.1, p.2)

/-- The `for` loop over `adj[v]` inside `strongconnect(v)`, with the recursive
call `strongconnect(w)` abstracted as the parameter `sc` (this lets the
recursion be structural on fuel, which keeps the model computable by the
kernel). -/
def visitEdges (sc : Nat → TS → Option TS) (v : Nat) (edges : List Nat) (s : TS) :
    Option TS :=
  match edges with
  | [] => some s
  | w :: rest =>
    if s.idx w = none then
      match sc w s with
      | none => none
      | some s' =>
        visitEdges sc v rest
          { s' with low := fun u => if u = v then min (s'.low v) (s'.low w) else s'.low u }
    else if s.onSt w then
      visitEdges sc v rest
        { s with low := fun u => if u = v then min (s.low v) ((s.idx w).getD 0) else s.low u }
    else
      visitEdges sc v rest s

/-- `strongconnect(v)` from the source, with fuel. -/
def strongconnect (adj : List (List Nat)) : Nat → Nat → TS → Option TS
  | 0, _, _ => none
  | fuel + 1, v, s =>
    let s1 : TS :=
      { counter := s.counter + 1,
        idx := fun u => if u = v then some s.counter else s.idx u,
        low := fun u => if u = v then s.counter else s.low u,
        onSt := fun u => if u = v then true else s.onSt u,
        sccId := s.sccId,
        st := v :: s.st,
        sccs := s.sccs }
    match visitEdges (strongconnect adj fuel) v (adjOf adj v) s1 with
    | none => none
    | some s2 =>
      if s2.idx v = some (s2.low v) then
        let p := popUntil v s2.st
        some { s2 with
          st := p.2,
          onSt := fun u => if p.1.contains u then false else s2.onSt u,
          sccId := fun u => if p.1.contains u then some s2.sccs.length else s2.sccId u,
          sccs := s2.sccs ++ [p.1] }
      else some s2

/-- The driver loop `for (let v = 0; v < N; v++) if (idx[v] === -1) strongconnect(v)`. -/
def tarjanLoop (adj : List (List Nat)) : List Nat → TS → Option TS
  | [], s => some s
  | v :: vs, s =>
    if s.idx v = none then
      match strongconnect adj adj.length v s with
      | none => none
      | some s' => tarjanLoop adj vs s'
    else tarjanLoop adj vs s

/-- The whole SCC pass over a graph. -/
def tarjanRun (adj : List (List Nat)) : Option TS :=
  tarjanLoop adj (List.range adj.length) initTS

/-! ## Simple-cycle DFS (model of `findCycleFrom` in `src/index.js` lines
163-187 = `findSimpleCycleFrom` in `src/index.d.ts`)

The JS path stack grows at the array end; here `stk`'s head is the most
recently pushed node, so the JS stack reads `stk.reverse`. -/

/-- The `seen` set and path `stack` of the DFS. -/
structure DfsSt where
  seen : List Nat
  stk : List Nat

/-- The `for` loop over `adj[u]` inside `dfs(u)`, with the recursive call
abstracted as `df`. -/
def dfsEdges (df : Nat → DfsSt → Option (Bool × DfsSt)) (start : Nat)
    (compSet : List Nat) (edges : List Nat) (s : DfsSt) : Option (Bool × DfsSt) :=
  match edges with
  | [] => some (false, s)
  | w :: rest =>
    if ¬ compSet.contains w then dfsEdges df start compSet rest s
    else if w = start ∧ s.stk.length > 1 then some (true, s)
    else if ¬ s.seen.contains w then
      match df w s with
      | none => none
      | some (true, s') => some (true, s')
      | some (false, s') => dfsEdges df start compSet rest s'
    else dfsEdges df start compSet rest s

/-- `dfs(u)` from the source, with fuel. -/
def dfs (adj : List (List Nat)) (start : Nat) (compSet : List Nat) :
    Nat → Nat → DfsSt → Option (Bool × DfsSt)
  | 0, _, _ => none
  | fuel + 1, u, s =>
    if s.seen.contains u then some (false, s)
    else
      let s1 : DfsSt := ⟨u :: s.seen, u :: s.stk⟩
      match dfsEdges (dfs adj start compSet fuel) start compSet (adjOf adj u) s1 with
      | none => none
      | some (true, s2) => some (true, s2)
      | some (false, s2) => some (false, ⟨s2.seen, s2.stk.tail⟩)

/-- `findCycleFrom(start, compSet)`.  Outer `none` is fuel exhaustion (proved
unreachable for the calls the pass makes); inner `none` is the JS `return null`. -/
def findCycleFrom (adj : List (List Nat)) (start : Nat) (compSet : List Nat) :
    Option (Option (List Nat)) :=
  match dfs adj start compSet (compSet.length + 2) start ⟨[], []⟩ with
  | none => none
  | some (true, s) => some (some (s.stk.reverse ++ [start]))
  | some (false, _) => some none

/-! ## The host world

Module objects are `Nat` handles; the world records, per handle, the fields the
plugin reads: `resource` / `rootModule.resource` / `originalModule.resource`
and the raw dependency records.  A dependency record carries the
`CommonJsSelfReferenceDependency` marker, the `weak` flag and the resolved
target module (`moduleGraph.getModule(dep)` on webpack 5, `dep.module` on
webpack 4 — both are just an optional module here). -/

structure Dep where
  selfRef : Bool
  weak : Bool
  target : Option Nat

structure World where
  modules : List (Option Nat)
  resource : Nat → Option String
  rootResource : Nat → Option String
  origResource : Nat → Option String
  deps : Nat → List (Option Dep)

/-- JS truthiness of an optional string (`null`, `undefined` and `''` are falsy). -/
def truthy : Option String → Bool
  | none => false
  | some s => !s.data.isEmpty

/-- `getResource(m)` (`getModuleResource` in `src/index.d.ts`). -/
def getResource (w : World) (m : Nat) : Option String :=
  if truthy (w.resource m) then w.resource m
  else if truthy (w.rootResource m) then w.rootResource m
  else if truthy (w.origResource m) then w.origResource m
  else none

/-- `getDeps(m)` (`collectModuleDependencies` in `src/index.d.ts`): the
surviving resolved dependency modules of `m`, in order. -/
def getDeps (w : World) (allowAsync : Bool) (m : Nat) : List Nat :=
  (w.deps m).filterMap fun d =>
    match d with
    | none => none
    | some dep =>
      if dep.selfRef then none
      else if allowAsync && dep.weak then none
      else
        match dep.target with
        | none => none
        | some t =>
          if !truthy (getResource w t) then none
          else if t = m then none
          else some t

/-- The comparator key `getResource(a) || ''`. -/
def resKey (w : World) (m : Nat) : String := (getResource w m).getD ""

/-- The deterministic module list (`modList` in `src/index.js`,
`createSortedModuleList` in `src/index.d.ts`). -/
def modListOf (w : World) : List Nat := sortByKey (resKey w) (w.modules.filterMap id)

/-- `idOf.get(m)`: the JS `Map` is filled left to right with overwrites, so a
lookup returns the **last** position of `m` in `modList`. -/
def lastIdx : List Nat → Nat → Option Nat
  | [], _ => none
  | x :: xs, m =>
    match lastIdx xs m with
    | some k => some (k + 1)
    | none => if x = m then some 0 else none

/-- The adjacency build (`src/index.js` lines 97-110, `buildAdjacencyList` in
`src/index.d.ts`). -/
def buildAdj (w : World) (allowAsync : Bool) (modList : List Nat) : List (List Nat) :=
  (List.range modList.length).map fun i =>
    (getDeps w allowAsync (modList.getD i 0)).filterMap (lastIdx modList)

/-- The invalid-component marking (`src/index.js` lines 149-161,
`flagInvalidComponents` in `src/index.d.ts`). -/
def sccInvalidOf (w : World) (modList : List Nat) (sccs : List (List Nat)) : List Bool :=
  sccs.map fun comp =>
    decide (comp.length ≤ 1) || comp.any fun i => !truthy (getResource w (modList.getD i 0))

/-! ## Options, reports and output -/

/-- The plugin options that reach the reporting loop.  `excl`/`incl` model
`exclude.test`/`include.test` (regex engines are abstracted as string
predicates); `rel` models `path.relative(baseDir, ·)` on a truthy argument;
`onDetected` is `some cb` when a callback is installed, and `cb args = some e`
models the callback throwing `e`. -/
structure Options where
  excl : String → Bool
  incl : String → Bool
  failOnError : Bool
  allowAsyncCycles : Bool
  onDetected : Option (Nat × List String → Option String)
  rel : String → String

/-- `rel(abs)` from the source: `abs ? path.relative(baseDir, abs) : ''`. -/
def jsRel (o : Options) (x : String) : String := if x.data.isEmpty then "" else o.rel x

/-- What the pass pushes into the compilation: `onDetected` invocations (module
handle and relative path cycle), `compilation.errors`, `compilation.warnings`. -/
structure Output where
  detected : List (Nat × List String)
  errors : List String
  warnings : List String
deriving DecidableEq

/-- The relative-path rendering of an index cycle (`relPaths` in the source). -/
def relPathsOf (w : World) (o : Options) (modList : List Nat) (c : List Nat) :
    List String :=
  c.map fun q => jsRel o ((getResource w (modList.getD q 0)).getD "")

/-- One iteration of the `src/index.js` reporting loop (lines 190-237) for the
module `m`, up to the point where a report (start index, index cycle) is
emitted or the module is skipped.  Outer `none` = fuel exhaustion inside
`findCycleFrom` (proved unreachable); `some none` = the module is skipped. -/
def jsModuleReport (w : World) (o : Options) (modList : List Nat)
    (adj : List (List Nat)) (ts : TS) (inval : List Bool) (m : Nat) :
    Option (Option (Nat × List Nat)) :=
  match lastIdx modList m with
  | none => some none
  | some i =>
    match ts.sccId i with
    | none => some none
    | some k =>
      if inval.getD k true then some none
      else if !truthy (getResource w m) then some none
      else if o.excl ((getResource w m).getD "") then some none
      else if !o.incl ((getResource w m).getD "") then some none
      else
        match findCycleFrom adj i (ts.sccs.getD k []) with
        | none => none
        | some (some c) => some (some (i, c))
        | some none =>
          match (adjOf adj i).find? (fun x => (ts.sccs.getD k []).contains x) with
          | some nb => some (some (i, [i, nb, i]))
          | none => some none

/-- The `src/index.js` reporting loop over the (sorted) module list. -/
def jsReportLoop (w : World) (o : Options) (modList : List Nat)
    (adj : List (List Nat)) (ts : TS) (inval : List Bool) :
    List Nat → Option (List (Nat × List Nat))
  | [] => some []
  | m :: ms =>
    match jsModuleReport w o modList adj ts inval m with
    | none => none
    | some none => jsReportLoop w o modList adj ts inval ms
    | some (some r) =>
      match jsReportLoop w o modList adj ts inval ms with
      | none => none
      | some rs => some (r :: rs)

/-- The reports of the `src/index.js` pass: pairs of the start index and the
index cycle, in emission order. -/
def reportsJS (w : World) (o : Options) : Option (List (Nat × List Nat)) :=
  let modList := modListOf w
  let adj := buildAdj w o.allowAsyncCycles modList
  match tarjanRun adj with
  | none => none
  | some ts =>
    jsReportLoop w o modList adj ts (sccInvalidOf w modList ts.sccs) modList

/-- Rendering and delivery of the reports (the tail of the loop body, lines
216-236 of `src/index.js` and lines 327-345 of `src/index.d.ts`, identical in
both): build `relPaths`, invoke `onDetected` inside `try/catch` (a thrown
error is pushed onto `compilation.errors`), otherwise push the default message
as an error or warning according to `failOnError`. -/
def emitStep (w : World) (o : Options) (modList : List Nat)
    (acc : Output) (r : Nat × List Nat) : Output :=
  let relPaths := relPathsOf w o modList r.2
  match o.onDetected with
  | some cb =>
    let args := (modList.getD r.1 0, relPaths)
    match cb args with
    | some err =>
      { acc with detected := acc.detected ++ [args], errors := acc.errors ++ [err] }
    | none => { acc with detected := acc.detected ++ [args] }
  | none =>
    let msg := "Circular dependency detected:" ++ "\r\n" ++
      String.intercalate " -> " relPaths
    if o.failOnError then { acc with errors := acc.errors ++ [msg] }
    else { acc with warnings := acc.warnings ++ [msg] }

def emitReports (w : World) (o : Options) (modList : List Nat)
    (reports : List (Nat × List Nat)) : Output :=
  reports.foldl (emitStep w o modList)
    { detected := [], errors := [], warnings := [] }

/-- The whole `src/index.js` pass. -/
def runJS (w : World) (o : Options) : Option Output :=
  (reportsJS w o).map (emitReports w o (modListOf w))

/-! ### The refactored copy in `src/index.d.ts`

It differs from `src/index.js` only in the reporting loop (lines 300-347):
it walks the components in the order the SCC pass produced them, sorting each
component's members by resource (`sortIndicesByResource`), instead of walking
all modules in globally sorted order. -/

/-- `resOf[node] || ''` as a sort key on indices. -/
def idxKey (w : World) (modList : List Nat) (i : Nat) : String :=
  (getResource w (modList.getD i 0)).getD ""

/-- One iteration of the `src/index.d.ts` inner loop for the in-component
node `node`. -/
def dtsNodeReport (w : World) (o : Options) (modList : List Nat)
    (adj : List (List Nat)) (comp : List Nat) (node : Nat) :
    Option (Option (Nat × List Nat)) :=
  if !truthy (getResource w (modList.getD node 0)) then some none
  else if o.excl ((getResource w (modList.getD node 0)).getD "") then some none
  else if !o.incl ((getResource w (modList.getD node 0)).getD "") then some none
  else
    match findCycleFrom adj node comp with
    | none => none
    | some (some c) => some (some (node, c))
    | some none =>
      match (adjOf adj node).find? (fun x => comp.contains x) with
      | some nb => some (some (node, [node, nb, node]))
      | none => some none

/-- The `src/index.d.ts` inner loop over a sorted component. -/
def dtsCompLoop (w : World) (o : Options) (modList : List Nat)
    (adj : List (List Nat)) (comp : List Nat) :
    List Nat → Option (List (Nat × List Nat))
  | [] => some []
  | node :: ns =>
    match dtsNodeReport w o modList adj comp node with
    | none => none
    | some none => dtsCompLoop w o modList adj comp ns
    | some (some r) =>
      match dtsCompLoop w o modList adj comp ns with
      | none => none
      | some rs => some (r :: rs)

/-- The `src/index.d.ts` outer loop over components (`k` is the running
component id, used to consult `sccInvalid[k]`).  Each valid component's
members are visited in resource order (`sortIndicesByResource`); the
membership set passed to the DFS is the component itself. -/
def dtsReportLoop (w : World) (o : Options) (modList : List Nat)
    (adj : List (List Nat)) (inval : List Bool) :
    Nat → List (List Nat) → Option (List (Nat × List Nat))
  | _, [] => some []
  | k, comp :: comps =>
    if inval.getD k true then dtsReportLoop w o modList adj inval (k + 1) comps
    else
      match dtsCompLoop w o modList adj comp (sortByKey (idxKey w modList) comp) with
      | none => none
      | some rs =>
        match dtsReportLoop w o modList adj inval (k + 1) comps with
        | none => none
        | some rest => some (rs ++ rest)

/-- The reports of the `src/index.d.ts` pass. -/
def reportsDTS (w : World) (o : Options) : Option (List (Nat × List Nat)) :=
  let modList := modListOf w
  let adj := buildAdj w o.allowAsyncCycles modList
  match tarjanRun adj with
  | none => none
  | some ts =>
    dtsReportLoop w o modList adj (sccInvalidOf w modList ts.sccs) 0 ts.sccs

/-- The whole `src/index.d.ts` pass. -/
def runDTS (w : World) (o : Options) : Option Output :=
  (reportsDTS w o).map (emitReports w o (modListOf w))

/-! ## Basic lemmas about the graph build -/

theorem lastIdx_spec : ∀ (l : List Nat) (m i : Nat), lastIdx l m = some i →
    i < l.length ∧ l.getD i 0 = m
  | [], m, i, h => by simp [lastIdx] at h
  | x :: xs, m, i, h => by
    unfold lastIdx at h
    cases hxs : lastIdx xs m with
    | some k =>
      rw [hxs] at h
      cases h
      have := lastIdx_spec xs m k hxs
      exact ⟨Nat.succ_lt_succ this.1, by simpa using this.2⟩
    | none =>
      rw [hxs] at h
      by_cases hx : x = m
      · simp only [hx, if_pos rfl] at h
        cases h
        exact ⟨Nat.succ_pos _, by simp [hx]⟩
      · simp [hx] at h

theorem lastIdx_mem : ∀ (l : List Nat) (m : Nat), m ∈ l → ∃ i, lastIdx l m = some i
  | [], m, h => by simp at h
  | x :: xs, m, h => by
    unfold lastIdx
    cases hxs : lastIdx xs m with
    | some k => exact ⟨k + 1, rfl⟩
    | none =>
      rcases List.mem_cons.mp h with rfl | hmem
      · exact ⟨0, by simp⟩
      · rcases lastIdx_mem xs m hmem with ⟨i, hi⟩
        rw [hi] at hxs
        cases hxs

theorem getD_mem {l : List Nat} {i : Nat} (hi : i < l.length) : l.getD i 0 ∈ l := by
  rw [List.getD_eq_getElem?_getD, List.getElem?_eq_getElem hi]
  exact List.getElem_mem hi

/-- On a duplicate-free list, `idOf` inverts positions. -/
theorem lastIdx_of_nodup : ∀ {l : List Nat}, l.Nodup → ∀ i, i < l.length →
    lastIdx l (l.getD i 0) = some i := by
  intro l hl
  induction l with
  | nil => intro i hi; simp at hi
  | cons x xs ih =>
    intro i hi
    rcases hl with _ | ⟨hx, hxs⟩
    cases i with
    | zero =>
      simp only [List.getD_cons_zero]
      unfold lastIdx
      cases hxs' : lastIdx xs x with
      | some k =>
        have hk := lastIdx_spec xs x k hxs'
        exact absurd (hk.2 ▸ getD_mem hk.1) (fun h => hx x h rfl)
      | none => simp
    | succ j =>
      have hj : j < xs.length := Nat.lt_of_succ_lt_succ hi
      simp only [List.getD_cons_succ]
      unfold lastIdx
      rw [ih hxs j hj]

theorem adjOf_buildAdj (w : World) (a : Bool) (modList : List Nat) (i : Nat)
    (hi : i < modList.length) :
    adjOf (buildAdj w a modList) i =
      (getDeps w a (modList.getD i 0)).filterMap (lastIdx modList) := by
  unfold adjOf buildAdj
  rw [List.getD_eq_getElem?_getD]
  rw [List.getElem?_map, List.getElem?_range hi]
  rfl

theorem adjOf_buildAdj_oob (w : World) (a : Bool) (modList : List Nat) (i : Nat)
    (hi : modList.length ≤ i) : adjOf (buildAdj w a modList) i = [] := by
  unfold adjOf buildAdj
  rw [List.getD_eq_getElem?_getD, List.getElem?_map,
    List.getElem?_eq_none (by simpa using hi)]
  rfl

theorem buildAdj_length (w : World) (a : Bool) (modList : List Nat) :
    (buildAdj w a modList).length = modList.length := by
  simp [buildAdj]

theorem buildAdj_wf (w : World) (a : Bool) (modList : List Nat) :
    WFAdj (buildAdj w a modList) := by
  intro v hv x hx
  rw [buildAdj_length] at hv ⊢
  rw [adjOf_buildAdj w a modList v hv] at hx
  rcases List.mem_filterMap.mp hx with ⟨t, _, ht⟩
  exact (lastIdx_spec modList t x ht).1

/-- `getDeps` never returns its own module (the `depModule === m` filter). -/
theorem getDeps_ne_self (w : World) (a : Bool) (m : Nat) :
    ∀ t ∈ getDeps w a m, t ≠ m := by
  intro t ht
  unfold getDeps at ht
  rcases List.mem_filterMap.mp ht with ⟨d, _, hd⟩
  rcases d with _ | dep
  · cases hd
  · simp only at hd
    by_cases h1 : dep.selfRef
    · simp [h1] at hd
    · simp only [h1, if_false] at hd
      by_cases h2 : a && dep.weak
      · simp [h2] at hd
      · simp only [h2, if_false] at hd
        rcases htg : dep.target with _ | t'
        · rw [htg] at hd; cases hd
        · rw [htg] at hd
          by_cases h3 : truthy (getResource w t')
          · simp only [h3, Bool.not_true, if_false] at hd
            by_cases h4 : t' = m
            · simp [h4] at hd
            · simp only [h4, if_false] at hd
              cases hd
              exact h4
          · simp [h3] at hd

/-- C3, second half: the built graph never has a self-edge. -/
theorem no_self_edge (w : World) (a : Bool) (modList : List Nat) (i : Nat) :
    i ∉ adjOf (buildAdj w a modList) i := by
  intro hmem
  by_cases hi : i < modList.length
  · rw [adjOf_buildAdj w a modList i hi] at hmem
    rcases List.mem_filterMap.mp hmem with ⟨t, htdep, hlast⟩
    have := (lastIdx_spec modList t i hlast).2
    exact getDeps_ne_self w a (modList.getD i 0) t htdep this.symm
  · rw [adjOf_buildAdj_oob w a modList i (Nat.le_of_not_lt hi)] at hmem
    simp at hmem

/-! ## Tarjan: invariants

The correctness proof for `strongconnect`.  `popped s` is the set of nodes
already assigned to a finished component; `idxN` reads the discovery index of a
visited node; `Done adj s x` records what holds of a node whose frame has
finished; `StackOK` describes the shape of the stack relative to the chain of
active (ancestor) calls: above each active node sits a block of finished
nodes whose low-links dominate the active node's low-link. -/

/-- Nodes already assigned to components. -/
def popped (s : TS) : List Nat := s.sccs.flatten

/-- Discovery index of a (visited) node. -/
def idxN (s : TS) (v : Nat) : Nat := (s.idx v).getD 0

/-- Facts available for a node whose `strongconnect` frame has completed:
every out-neighbor is visited, and an out-neighbor still on the stack either
bounds the node's low-link from below or was discovered later. -/
def Done (adj : List (List Nat)) (s : TS) (x : Nat) : Prop :=
  ∀ w ∈ adjOf adj x, s.idx w ≠ none ∧
    (w ∈ s.st → s.low x ≤ idxN s w ∨ idxN s x < idxN s w)

/-- Stack shape relative to the active-call chain `anc` (innermost first):
`st = D₁ ++ a₁ :: D₂ ++ a₂ :: ⋯` where each `Dᵢ` holds finished nodes `x` with
`low x < idx x` and `low aᵢ ≤ low x`. -/
inductive StackOK (lowf ixf : Nat → Nat) : List Nat → List Nat → Prop where
  | nil : StackOK lowf ixf [] []
  | block (D : List Nat) (a : Nat) (st' anc' : List Nat)
      (hD : ∀ x ∈ D, lowf x < ixf x ∧ lowf a ≤ lowf x)
      (h' : StackOK lowf ixf st' anc') :
      StackOK lowf ixf (D ++ a :: st') (a :: anc')

/-- Number of unvisited indices. -/
def unvisitedCount (N : Nat) (s : TS) : Nat :=
  ((Finset.range N).filter (fun v => s.idx v = none)).card

/-- The global state invariant of the Tarjan pass. -/
structure TInv (adj : List (List Nat)) (s : TS) : Prop where
  stVisited : ∀ v ∈ s.st, s.idx v ≠ none
  stLtN : ∀ v ∈ s.st, v < adj.length
  stNodup : s.st.Nodup
  onStIff : ∀ v, s.onSt v = true ↔ v ∈ s.st
  poppedNodup : (popped s).Nodup
  poppedNotSt : ∀ v ∈ popped s, v ∉ s.st
  poppedVisited : ∀ v ∈ popped s, s.idx v ≠ none
  poppedLtN : ∀ v ∈ popped s, v < adj.length
  visitedLtN : ∀ v, s.idx v ≠ none → v < adj.length
  visitedSplit : ∀ v, s.idx v ≠ none → v ∈ s.st ∨ v ∈ popped s
  idxLtCounter : ∀ v k, s.idx v = some k → k < s.counter
  idxInj : ∀ u v j, s.idx u = some j → s.idx v = some j → u = v
  lowLeIdx : ∀ v k, s.idx v = some k → s.low v ≤ k
  stSorted : s.st.Pairwise (fun a b => idxN s b < idxN s a)
  stReachUp : s.st.Pairwise (fun a b => Reach adj b a)
  lowWitness : ∀ v ∈ s.st, ∃ y ∈ s.st, Reach adj v y ∧ idxN s y ≤ s.low v
  prefixClosed : ∀ j, EdgeClosed adj (fun x => x ∈ (s.sccs.take j).flatten)
  compMutual : ∀ c ∈ s.sccs, ∀ x ∈ c, ∀ y ∈ c, Reach adj x y
  sccIdNone : ∀ x, x ∉ popped s → s.sccId x = none
  sccIdSome : ∀ x k, s.sccId x = some k →
    ∃ h : k < s.sccs.length, x ∈ s.sccs.get ⟨k, h⟩
  memSccId : ∀ x k (h : k < s.sccs.length), x ∈ s.sccs.get ⟨k, h⟩ → s.sccId x = some k

/-- Precondition of `strongconnect adj fuel v s` under active chain `anc`. -/
structure SCPre (adj : List (List Nat)) (fuel v : Nat) (s : TS) (anc : List Nat) :
    Prop where
  inv : TInv adj s
  stackOK : StackOK s.low (idxN s) s.st anc
  doneStack : ∀ x ∈ s.st, x ∉ anc → Done adj s x
  vLt : v < adj.length
  vFresh : s.idx v = none
  fuelOK : unvisitedCount adj.length s ≤ fuel
  stReachV : ∀ x ∈ s.st, Reach adj x v

/-- Postcondition of `strongconnect adj fuel v s = some s'`. -/
structure SCPost (adj : List (List Nat)) (v : Nat) (s s' : TS) (anc : List Nat) :
    Prop where
  idxV : s'.idx v = some s.counter
  counterGt : s.counter < s'.counter
  frameIdx : ∀ u, s.idx u ≠ none → s'.idx u = s.idx u
  frameLow : ∀ u, s.idx u ≠ none → s'.low u = s.low u
  idxNew : ∀ u k, s'.idx u = some k →
    s.idx u = some k ∨ (s.idx u = none ∧ s.counter ≤ k)
  sccsExt : ∃ newC, s'.sccs = s.sccs ++ newC
  poppedNew : ∀ x, x ∈ popped s' → x ∉ popped s → s.idx x = none
  inv : TInv adj s'
  doneStack : ∀ x ∈ s'.st, x ∉ anc → Done adj s' x
  lowVLB : ∀ b, b ≤ s.counter → (∀ u ∈ s.st, ∀ k, s.idx u = some k → b ≤ k) →
    b ≤ s'.low v
  uLt : unvisitedCount adj.length s' < unvisitedCount adj.length s
  split : (s'.st = s.st ∧ s'.low v = s.counter ∧ v ∈ popped s') ∨
    (∃ D, s'.st = D ++ v :: s.st ∧ (∀ x ∈ D, s.idx x = none) ∧
      s'.low v < s.counter ∧ StackOK s'.low (idxN s') s'.st (v :: anc) ∧
      v ∉ popped s')

/-- Precondition of `visitEdges (strongconnect adj fuel) v edges s` mid-frame. -/
structure VEPre (adj : List (List Nat)) (fuel v : Nat) (edges : List Nat) (s : TS)
    (anc : List Nat) : Prop where
  inv : TInv adj s
  stackOK : StackOK s.low (idxN s) s.st (v :: anc)
  doneStack : ∀ x ∈ s.st, x ∉ v :: anc → Done adj s x
  vVisited : s.idx v ≠ none
  edgesSub : ∀ w ∈ edges, w ∈ adjOf adj v
  fuelOK : unvisitedCount adj.length s ≤ fuel

/-- Postcondition of `visitEdges (strongconnect adj fuel) v edges s = some s'`. -/
structure VEPost (adj : List (List Nat)) (v : Nat) (edges : List Nat) (s s' : TS)
    (anc : List Nat) : Prop where
  frameIdx : ∀ u, s.idx u ≠ none → s'.idx u = s.idx u
  frameLow : ∀ u, u ≠ v → s.idx u ≠ none → s'.low u = s.low u
  lowVle : s'.low v ≤ s.low v
  idxNew : ∀ u k, s'.idx u = some k →
    s.idx u = some k ∨ (s.idx u = none ∧ s.counter ≤ k)
  counterMono : s.counter ≤ s'.counter
  sccsExt : ∃ newC, s'.sccs = s.sccs ++ newC
  poppedNew : ∀ x, x ∈ popped s' → x ∉ popped s → s.idx x = none
  stExt : ∃ D, s'.st = D ++ s.st ∧ ∀ x ∈ D, s.idx x = none
  inv : TInv adj s'
  stackOK : StackOK s'.low (idxN s') s'.st (v :: anc)
  doneStack : ∀ x ∈ s'.st, x ∉ v :: anc → Done adj s' x
  uLe : unvisitedCount adj.length s' ≤ unvisitedCount adj.length s
  lowVLB : ∀ b, b ≤ s.counter → (∀ u ∈ s.st, ∀ k, s.idx u = some k → b ≤ k) →
    b ≤ s.low v → b ≤ s'.low v
  edgesDone : ∀ w ∈ edges, s'.idx w ≠ none ∧
    (w ∈ s'.st → s'.low v ≤ idxN s' w ∨ idxN s' v < idxN s' w)

/-! ### Helper lemmas for the Tarjan proof -/

theorem popUntil_append {v : Nat} : ∀ {D : List Nat}, v ∉ D → ∀ rest,
    popUntil v (D ++ v :: rest) = (D ++ [v], rest) := by
  intro D
  induction D with
  | nil => intro _ rest; simp [popUntil]
  | cons x D ih =>
    intro hv rest
    have hxv : x ≠ v := fun h => hv (h ▸ List.mem_cons_self x D)
    simp only [List.cons_append, popUntil, if_neg hxv]
    have := ih (fun h => hv (List.mem_cons_of_mem x h)) rest
    rw [show D.append (v :: rest) = D ++ v :: rest from rfl, this]

theorem StackOK.congr {lowf ixf lowf' ixf' : Nat → Nat} :
    ∀ {st anc : List Nat}, StackOK lowf ixf st anc →
    (∀ x ∈ st, lowf' x = lowf x) → (∀ x ∈ st, ixf' x = ixf x) →
    StackOK lowf' ixf' st anc := by
  intro st anc h
  induction h with
  | nil => intro _ _; exact StackOK.nil
  | block D a st' anc' hD h' ih =>
    intro hlow hidx
    have haD : a ∈ D ++ a :: st' := List.mem_append_right D (List.mem_cons_self a st')
    refine StackOK.block D a st' anc' ?_ (ih ?_ ?_)
    · intro x hx
      have hxm : x ∈ D ++ a :: st' := List.mem_append_left _ hx
      rw [hlow x hxm, hidx x hxm, hlow a haD]
      exact hD x hx
    · intro x hx
      exact hlow x (List.mem_append_right D (List.mem_cons_of_mem a hx))
    · intro x hx
      exact hidx x (List.mem_append_right D (List.mem_cons_of_mem a hx))

theorem StackOK.destruct {lowf ixf : Nat → Nat} {st anc' : List Nat} {a : Nat}
    (h : StackOK lowf ixf st (a :: anc')) :
    ∃ D rest, st = D ++ a :: rest ∧
      (∀ x ∈ D, lowf x < ixf x ∧ lowf a ≤ lowf x) ∧ StackOK lowf ixf rest anc' := by
  cases h with
  | block D a st' anc' hD h' => exact ⟨D, st', rfl, hD, h'⟩

theorem StackOK.ancMem {lowf ixf : Nat → Nat} :
    ∀ {st anc : List Nat}, StackOK lowf ixf st anc → ∀ a ∈ anc, a ∈ st := by
  intro st anc h
  induction h with
  | nil => intro a ha; cases ha
  | block D b st' anc' hD h' ih =>
    intro a ha
    rcases List.mem_cons.mp ha with rfl | ha
    · exact List.mem_append_right D (List.mem_cons_self a st')
    · exact List.mem_append_right D (List.mem_cons_of_mem b (ih a ha))

theorem unvisitedCount_le {N : Nat} {s s' : TS}
    (h : ∀ u, s'.idx u = none → s.idx u = none) :
    unvisitedCount N s' ≤ unvisitedCount N s := by
  unfold unvisitedCount
  apply Finset.card_le_card
  intro u hu
  rcases Finset.mem_filter.mp hu with ⟨hr, hn⟩
  exact Finset.mem_filter.mpr ⟨hr, by exact_mod_cast h u (by exact_mod_cast hn)⟩

theorem unvisitedCount_lt {N : Nat} {s s' : TS} {v : Nat}
    (h : ∀ u, s'.idx u = none → s.idx u = none)
    (hvN : v < N) (hv : s.idx v = none) (hv' : s'.idx v ≠ none) :
    unvisitedCount N s' < unvisitedCount N s := by
  unfold unvisitedCount
  apply Finset.card_lt_card
  constructor
  · intro u hu
    rcases Finset.mem_filter.mp hu with ⟨hr, hn⟩
    exact Finset.mem_filter.mpr ⟨hr, by exact_mod_cast h u (by exact_mod_cast hn)⟩
  · intro hsub
    have hvmem : v ∈ (Finset.range N).filter (fun u => s.idx u = none) :=
      Finset.mem_filter.mpr ⟨Finset.mem_range.mpr hvN, by exact_mod_cast hv⟩
    have := hsub hvmem
    rcases Finset.mem_filter.mp this with ⟨_, hn⟩
    exact hv' (by exact_mod_cast hn)

theorem unvisitedCount_pos {N : Nat} {s : TS} {v : Nat}
    (hvN : v < N) (hv : s.idx v = none) : 1 ≤ unvisitedCount N s := by
  unfold unvisitedCount
  apply Finset.card_pos.mpr
  exact ⟨v, Finset.mem_filter.mpr ⟨Finset.mem_range.mpr hvN, by exact_mod_cast hv⟩⟩

/-- The "chase" argument: a finished stack node above the innermost active node
`a` reaches `a`, by repeatedly following its low-link witness downward. -/
theorem chase {adj : List (List Nat)} {s : TS} (inv : TInv adj s)
    {D rest : List Nat} {a : Nat} (hst : s.st = D ++ a :: rest)
    (hD : ∀ x ∈ D, s.low x < idxN s x) :
    ∀ x ∈ D, Reach adj x a := by
  intro x hx
  generalize hmeas : idxN s x = n
  induction n using Nat.strong_induction_on generalizing x with
  | _ n ih =>
    subst hmeas
    rcases inv.lowWitness x (hst ▸ List.mem_append_left _ hx) with ⟨y, hy, hreach, hylow⟩
    rw [hst] at hy
    rcases List.mem_append.mp hy with hyD | hyar
    · have hxlt := hD x hx
      have hylt : idxN s y < idxN s x := Nat.lt_of_le_of_lt hylow hxlt
      exact hreach.trans (ih (idxN s y) hylt y hyD rfl)
    · rcases List.mem_cons.mp hyar with rfl | hyrest
      · exact hreach
      · have hpair : Reach adj y a := by
          have := inv.stReachUp
          rw [hst] at this
          have h2 := (List.pairwise_append.mp this).2.1
          rcases h2 with _ | ⟨hhead, _⟩
          exact hhead y hyrest
        exact hreach.trans hpair

/-- The initial state satisfies the invariant. -/
theorem tinv_init (adj : List (List Nat)) : TInv adj initTS := by
  refine ⟨?_, ?_, ?_, ?_, ?_, ?_, ?_, ?_, ?_, ?_, ?_, ?_, ?_, ?_, ?_, ?_, ?_, ?_, ?_, ?_, ?_⟩
  all_goals simp [initTS, popped, EdgeClosed, List.Pairwise]

theorem idxN_congr {s s' : TS} {u : Nat} (hvis : s.idx u ≠ none)
    (h : s'.idx u = s.idx u) : idxN s' u = idxN s u := by
  unfold idxN; rw [h]

/-- Transfer of `Done` facts across a state evolution that preserves the
indices of visited nodes and the node's own low-link. -/
theorem Done.transfer {adj : List (List Nat)} {s s' : TS} {x : Nat}
    (hd : Done adj s x)
    (hidx : ∀ u, s.idx u ≠ none → s'.idx u = s.idx u)
    (hlow : s'.low x = s.low x)
    (hself : s.idx x ≠ none)
    (hst : ∀ w ∈ adjOf adj x, w ∈ s'.st → w ∈ s.st ∨ s.idx w = none) :
    Done adj s' x := by
  intro w hw
  rcases hd w hw with ⟨hvis, hcase⟩
  refine ⟨by rw [hidx w hvis]; exact hvis, ?_⟩
  intro hwst
  rcases hst w hw hwst with hws | hfresh
  · rcases hcase hws with h1 | h1
    · exact Or.inl (by rw [hlow, idxN_congr hvis (hidx w hvis)]; exact h1)
    · exact Or.inr (by
        rw [idxN_congr hvis (hidx w hvis), idxN_congr hself (hidx x hself)]
        exact h1)
  · exact absurd hfresh hvis

/-- Unique decomposition of a duplicate-free list at an element. -/
theorem append_cons_nodup_inj {v : Nat} : ∀ {D D' r r' : List Nat},
    D ++ v :: r = D' ++ v :: r' → v ∉ D → v ∉ D' → D = D' ∧ r = r' := by
  intro D
  induction D with
  | nil =>
    intro D' r r' heq _ hvD'
    cases D' with
    | nil => simpa using heq
    | cons d D' =>
      simp only [List.nil_append, List.cons_append, List.cons.injEq] at heq
      exact absurd (heq.1 ▸ List.mem_cons_self d D') hvD'
  | cons d D ih =>
    intro D' r r' heq hvD hvD'
    cases D' with
    | nil =>
      simp only [List.cons_append, List.nil_append, List.cons.injEq] at heq
      exact absurd (heq.1 ▸ List.mem_cons_self d D) hvD
    | cons d' D' =>
      simp only [List.cons_append, List.cons.injEq] at heq
      rcases heq with ⟨rfl, heq⟩
      have := ih heq (fun h => hvD (List.mem_cons_of_mem d h))
        (fun h => hvD' (List.mem_cons_of_mem d h))
      exact ⟨by rw [this.1], this.2⟩

/-- Every stack node reaches the innermost active node. -/
theorem stack_reach_top {adj : List (List Nat)} {s : TS} {v : Nat} {anc : List Nat}
    (inv : TInv adj s) (hok : StackOK s.low (idxN s) s.st (v :: anc)) :
    ∀ x ∈ s.st, Reach adj x v := by
  rcases hok.destruct with ⟨D, rest, hst, hD, _⟩
  intro x hx
  rw [hst] at hx
  rcases List.mem_append.mp hx with hxD | hxar
  · exact chase inv hst (fun y hy => (hD y hy).1) x hxD
  · rcases List.mem_cons.mp hxar with rfl | hxrest
    · exact ReachP.refl x trivial
    · have := inv.stReachUp
      rw [hst] at this
      have h2 := (List.pairwise_append.mp this).2.1
      rcases h2 with _ | ⟨hhead, _⟩
      exact hhead x hxrest

/-- Lowering the innermost active node's low-link preserves the stack shape. -/
theorem StackOK.lowerHead {lowf ixf : Nat → Nat} {st anc : List Nat} {v : Nat}
    (h : StackOK lowf ixf st (v :: anc)) (hnd : st.Nodup) {lowf' : Nat → Nat}
    (hv : lowf' v ≤ lowf v) (hother : ∀ x, x ≠ v → lowf' x = lowf x) :
    StackOK lowf' ixf st (v :: anc) := by
  rcases h.destruct with ⟨D, rest, rfl, hD, hrest⟩
  rw [List.nodup_append] at hnd
  have hvD : v ∉ D := fun hmem => hnd.2.2 hmem (List.mem_cons_self v rest)
  have hvrest : v ∉ rest := (List.nodup_cons.mp hnd.2.1).1
  refine StackOK.block D v rest anc ?_ ?_
  · intro x hx
    have hxv : x ≠ v := fun h => hvD (h ▸ hx)
    rw [hother x hxv]
    exact ⟨(hD x hx).1, Nat.le_trans hv (hD x hx).2⟩
  · refine hrest.congr ?_ ?_
    · intro x hx
      refine hother x ?_
      intro rfl'
      subst rfl'
      rcases List.mem_cons.mp (List.mem_cons_self x rest) with _ | _ <;>
        exact absurd hx hvrest
    · intro x hx; rfl

set_option maxHeartbeats 1000000

/-- Invariant preservation when only the innermost active node's low-link is
lowered. -/
theorem tinv_lowv_update {adj : List (List Nat)} {s : TS} (inv : TInv adj s)
    {v : Nat} (hv : v ∈ s.st) {L : Nat} (hle : L ≤ s.low v)
    (hwit : ∃ y ∈ s.st, Reach adj v y ∧ idxN s y ≤ L) :
    TInv adj { s with low := fun u => if u = v then L else s.low u } := by
  refine ⟨inv.stVisited, inv.stLtN, inv.stNodup, inv.onStIff, inv.poppedNodup,
    inv.poppedNotSt, inv.poppedVisited, inv.poppedLtN, inv.visitedLtN,
    inv.visitedSplit, inv.idxLtCounter, inv.idxInj, ?_, inv.stSorted,
    inv.stReachUp, ?_, inv.prefixClosed, inv.compMutual, inv.sccIdNone,
    inv.sccIdSome, inv.memSccId⟩
  · intro u k hk
    by_cases hu : u = v
    · subst hu
      simp only [if_pos rfl]
      exact Nat.le_trans hle (inv.lowLeIdx u k hk)
    · simp only [if_neg hu]
      exact inv.lowLeIdx u k hk
  · intro u hu
    by_cases huv : u = v
    · subst huv
      rcases hwit with ⟨y, hy, hr, hyl⟩
      exact ⟨y, hy, hr, by simp only [if_pos rfl]; exact hyl⟩
    · rcases inv.lowWitness u hu with ⟨y, hy, hr, hyl⟩
      exact ⟨y, hy, hr, by simp only [if_neg huv]; exact hyl⟩


/-- Invariant preservation when a fresh node is discovered and pushed. -/
theorem tinv_push {adj : List (List Nat)} {s : TS} (inv : TInv adj s) {v : Nat}
    (hvN : v < adj.length) (hfresh : s.idx v = none)
    (hreach : ∀ x ∈ s.st, Reach adj x v) :
    TInv adj ({ counter := s.counter + 1,
                idx := fun u => if u = v then some s.counter else s.idx u,
                low := fun u => if u = v then s.counter else s.low u,
                onSt := fun u => if u = v then true else s.onSt u,
                sccId := s.sccId, st := v :: s.st, sccs := s.sccs } : TS) := by
  have hvst : v ∉ s.st := fun h => inv.stVisited v h hfresh
  have hne : ∀ u, s.idx u ≠ none → u ≠ v := fun u hu h => hu (h ▸ hfresh)
  have hpv : ∀ u ∈ popped s, u ≠ v := fun u hu => hne u (inv.poppedVisited u hu)
  refine ⟨?_, ?_, ?_, ?_, inv.poppedNodup, ?_, ?_, inv.poppedLtN, ?_, ?_, ?_, ?_,
    ?_, ?_, ?_, ?_, inv.prefixClosed, inv.compMutual, inv.sccIdNone, inv.sccIdSome,
    inv.memSccId⟩
  · intro u hu
    rcases List.mem_cons.mp hu with rfl | hu
    · simp
    · have h := inv.stVisited u hu
      simp only [if_neg (hne u h)]
      exact h
  · intro u hu
    rcases List.mem_cons.mp hu with rfl | hu
    · exact hvN
    · exact inv.stLtN u hu
  · exact List.Nodup.cons hvst inv.stNodup
  · intro u
    by_cases hu : u = v
    · subst hu
      simp
    · simp only [if_neg hu]
      rw [inv.onStIff u]
      constructor
      · exact fun h => List.mem_cons_of_mem v h
      · intro h
        rcases List.mem_cons.mp h with h | h
        · exact absurd h hu
        · exact h
  · intro u hu
    show u ∉ v :: s.st
    intro hmem
    rcases List.mem_cons.mp hmem with rfl | hmem
    · exact hpv u hu rfl
    · exact inv.poppedNotSt u hu hmem
  · intro u hu
    have h := inv.poppedVisited u hu
    simp only [if_neg (hne u h)]
    exact h
  · intro u hu
    by_cases huv : u = v
    · subst huv; exact hvN
    · simp only [if_neg huv] at hu
      exact inv.visitedLtN u hu
  · intro u hu
    by_cases huv : u = v
    · subst huv
      exact Or.inl (List.mem_cons_self u s.st)
    · simp only [if_neg huv] at hu
      rcases inv.visitedSplit u hu with h | h
      · exact Or.inl (List.mem_cons_of_mem v h)
      · exact Or.inr h
  · intro u k hk
    by_cases huv : u = v
    · subst huv
      simp only [if_pos rfl] at hk
      cases hk
      exact Nat.lt_succ_self _
    · simp only [if_neg huv] at hk
      exact Nat.lt_succ_of_lt (inv.idxLtCounter u k hk)
  · intro u₁ u₂ j h₁ h₂
    by_cases hu₁ : u₁ = v <;> by_cases hu₂ : u₂ = v
    · rw [hu₁, hu₂]
    · subst hu₁
      simp only [if_pos rfl] at h₁
      simp only [if_neg hu₂] at h₂
      cases h₁
      exact absurd (inv.idxLtCounter u₂ _ h₂) (Nat.lt_irrefl _)
    · subst hu₂
      simp only [if_pos rfl] at h₂
      simp only [if_neg hu₁] at h₁
      cases h₂
      exact absurd (inv.idxLtCounter u₁ _ h₁) (Nat.lt_irrefl _)
    · simp only [if_neg hu₁] at h₁
      simp only [if_neg hu₂] at h₂
      exact inv.idxInj u₁ u₂ j h₁ h₂
  · intro u k hk
    by_cases huv : u = v
    · subst huv
      simp only [if_pos rfl] at hk ⊢
      cases hk
      exact Nat.le_refl _
    · simp only [if_neg huv] at hk ⊢
      exact inv.lowLeIdx u k hk
  · refine List.Pairwise.cons ?_ ?_
    · intro y hy
      have hyv := hne y (inv.stVisited y hy)
      rcases Option.ne_none_iff_exists'.mp (inv.stVisited y hy) with ⟨k, hk⟩
      show (if y = v then some s.counter else s.idx y).getD 0 <
        (if v = v then some s.counter else s.idx v).getD 0
      rw [if_neg hyv, if_pos rfl, hk]
      exact inv.idxLtCounter y k hk
    · refine inv.stSorted.imp_of_mem ?_
      intro a b ha hb hab
      show (if b = v then _ else s.idx b).getD 0 < (if a = v then _ else s.idx a).getD 0
      rw [if_neg (hne b (inv.stVisited b hb)), if_neg (hne a (inv.stVisited a ha))]
      exact hab
  · exact List.Pairwise.cons (fun y hy => hreach y hy) inv.stReachUp
  · intro u hu
    rcases List.mem_cons.mp hu with rfl | hu
    · refine ⟨u, List.mem_cons_self u s.st, ReachP.refl u trivial, ?_⟩
      show (if u = u then some s.counter else _).getD 0 ≤ if u = u then _ else _
      simp
    · rcases inv.lowWitness u hu with ⟨y, hy, hr, hyl⟩
      refine ⟨y, List.mem_cons_of_mem v hy, hr, ?_⟩
      have hyv := hne y (inv.stVisited y hy)
      have huv := hne u (inv.stVisited u hu)
      show (if y = v then _ else s.idx y).getD 0 ≤ if u = v then _ else s.low u
      rw [if_neg hyv, if_neg huv]
      exact hyl

theorem ve_main (adj : List (List Nat)) (hwf : WFAdj adj) (fuel : Nat)
    (IH : ∀ v s anc, SCPre adj fuel v s anc →
      ∃ s', strongconnect adj fuel v s = some s' ∧ SCPost adj v s s' anc) :
    ∀ edges v s anc, VEPre adj fuel v edges s anc →
      ∃ s', visitEdges (strongconnect adj fuel) v edges s = some s' ∧
        VEPost adj v edges s s' anc := by
  intro edges
  induction edges with
  | nil =>
    intro v s anc pre
    refine ⟨s, rfl, ?_⟩
    refine ⟨fun u _ => rfl, fun u _ _ => rfl, Nat.le_refl _, fun u k h => Or.inl h,
      Nat.le_refl _, ⟨[], (List.append_nil _).symm⟩, fun x h1 h2 => absurd h1 h2,
      ⟨[], rfl, fun x hx => absurd hx (List.not_mem_nil x)⟩, pre.inv, pre.stackOK,
      pre.doneStack, Nat.le_refl _, fun b _ _ h => h, fun w hw => absurd hw
        (List.not_mem_nil w)⟩
  | cons w rest ih =>
    intro v s anc pre
    have hvN : v < adj.length := pre.inv.visitedLtN v pre.vVisited
    have hwadj : w ∈ adjOf adj v := pre.edgesSub w (List.mem_cons_self w rest)
    have hwN : w < adj.length := hwf v hvN w hwadj
    have hvst : v ∈ s.st := pre.stackOK.ancMem v (List.mem_cons_self v anc)
    rcases Option.ne_none_iff_exists'.mp pre.vVisited with ⟨iv, hiv⟩
    have hivlt : iv < s.counter := pre.inv.idxLtCounter v iv hiv
    have hlowv_le : s.low v ≤ iv := pre.inv.lowLeIdx v iv hiv
    by_cases hfresh : s.idx w = none
    · -- unvisited neighbor: recursive call strongconnect(w)
      have scpre : SCPre adj fuel w s (v :: anc) :=
        ⟨pre.inv, pre.stackOK, pre.doneStack, hwN, hfresh, pre.fuelOK,
          fun x hx => (stack_reach_top pre.inv pre.stackOK x hx).trans
            (Reach.single hwadj)⟩
      rcases IH w s (v :: anc) scpre with ⟨s₂, hsc, post⟩
      have hvis₂v : s₂.idx v = s.idx v := post.frameIdx v pre.vVisited
      have hlow₂v : s₂.low v = s.low v := post.frameLow v pre.vVisited
      have hwvis₂ : s₂.idx w = some s.counter := post.idxV
      have hwv : w ≠ v := fun h => pre.vVisited (h ▸ hfresh)
      set L := min (s₂.low v) (s₂.low w) with hL
      set s₃ : TS := { s₂ with low := fun u => if u = v then L else s₂.low u }
        with hs₃
      have hlow₃v : s₃.low v = L := by rw [hs₃]; simp
      have hlow₃ : ∀ u, u ≠ v → s₃.low u = s₂.low u := by
        intro u hu; rw [hs₃]; simp [hu]
      have hvst₂ : v ∈ s₂.st := by
        rcases post.split with ⟨hstEq, _, _⟩ | ⟨D, hstEq, _, _, _, _⟩
        · rw [hstEq]; exact hvst
        · rw [hstEq]
          exact List.mem_append_right _ (List.mem_cons_of_mem w hvst)
      have hLle : L ≤ s₂.low v := Nat.min_le_left _ _
      have hwit : ∃ y ∈ s₂.st, Reach adj v y ∧ idxN s₂ y ≤ L := by
        rcases Nat.le_total (s₂.low v) (s₂.low w) with hmin | hmin
        · rcases post.inv.lowWitness v hvst₂ with ⟨y, hy, hr, hyl⟩
          exact ⟨y, hy, hr, by rw [hL, Nat.min_eq_left hmin]; exact hyl⟩
        · rcases post.split with ⟨hstEq, hlowW, hpop⟩ |
            ⟨D, hstEq, hDfresh, hlowW, hok2, hnp⟩
          · exfalso
            rw [hlowW] at hmin
            rw [hlow₂v] at hmin
            exact Nat.lt_irrefl s.counter
              (Nat.lt_of_le_of_lt hmin (Nat.lt_of_le_of_lt hlowv_le hivlt))
          · have hwst₂ : w ∈ s₂.st := by
              rw [hstEq]
              exact List.mem_append_right _ (List.mem_cons_self w s.st)
            rcases post.inv.lowWitness w hwst₂ with ⟨y, hy, hr, hyl⟩
            exact ⟨y, hy, (Reach.single hwadj).trans hr,
              by rw [hL, Nat.min_eq_right hmin]; exact hyl⟩
      have inv₃ : TInv adj s₃ := tinv_lowv_update post.inv hvst₂ hLle hwit
      have stackOK₃ : StackOK s₃.low (idxN s₃) s₃.st (v :: anc) := by
        rcases post.split with ⟨hstEq, hlowW, hpop⟩ |
          ⟨D, hstEq, hDfresh, hlowW, hok2, hnp⟩
        · -- child closed its component; stack unchanged
          have hok₂ : StackOK s₂.low (idxN s₂) s₂.st (v :: anc) := by
            rw [hstEq]
            refine pre.stackOK.congr ?_ ?_
            · intro x hx
              exact post.frameLow x (pre.inv.stVisited x hx)
            · intro x hx
              exact idxN_congr (pre.inv.stVisited x hx)
                (post.frameIdx x (pre.inv.stVisited x hx))
          exact hok₂.lowerHead post.inv.stNodup (by rw [hlow₃v]; exact hLle) hlow₃
        · -- child stayed on the stack; merge its block into ours
          rcases hok2.destruct with ⟨D', rest', hdec', hD', hrest'⟩
          have hnd₂ : s₂.st.Nodup := post.inv.stNodup
          have hwD : w ∉ D := by
            rw [hstEq, List.nodup_append] at hnd₂
            exact fun hmem => hnd₂.2.2 hmem (List.mem_cons_self w s.st)
          have hwD' : w ∉ D' := by
            have hnd₃ : s₂.st.Nodup := post.inv.stNodup
            rw [hdec', List.nodup_append] at hnd₃
            exact fun hmem => hnd₃.2.2 hmem (List.mem_cons_self w rest')
          rcases append_cons_nodup_inj (hstEq.symm.trans hdec') hwD hwD' with
            ⟨hDD, hrr⟩
          rw [← hDD] at hD'
          rw [← hrr] at hrest'
          rw [← hDD, ← hrr] at hdec'
          -- now hrest' : StackOK over s.st with chain (v :: anc)
          rcases hrest'.destruct with ⟨Dv, rest₀, hsdec, hDv, hinner⟩
          have hvDv : v ∉ Dv := by
            have hnds : s.st.Nodup := pre.inv.stNodup
            rw [hsdec, List.nodup_append] at hnds
            exact fun hmem => hnds.2.2 hmem (List.mem_cons_self v rest₀)
          have hfreshne : ∀ x, s.idx x = none → x ≠ v :=
            fun x hx h => pre.vVisited (h ▸ hx)
          have hstEq₃ : s₃.st = (D ++ w :: Dv) ++ v :: rest₀ := by
            show s₂.st = _
            rw [hstEq, hsdec]
            simp
          rw [hstEq₃]
          refine StackOK.block (D ++ w :: Dv) v rest₀ anc ?_ ?_
          · intro x hx
            rcases List.mem_append.mp hx with hxD | hxwv
            · -- x in the child's block
              have hxv : x ≠ v := hfreshne x (hDfresh x hxD)
              have hxfacts := hD' x hxD
              rw [hlow₃ x hxv, hlow₃v]
              refine ⟨hxfacts.1, ?_⟩
              exact Nat.le_trans (Nat.min_le_right _ _) hxfacts.2
            · rcases List.mem_cons.mp hxwv with rfl | hxDv
              · -- x = w
                rw [hlow₃ x hwv, hlow₃v]
                constructor
                · show s₂.low x < idxN s₃ x
                  have : idxN s₃ x = s.counter := by
                    unfold idxN
                    show (s₂.idx x).getD 0 = s.counter
                    rw [hwvis₂]; rfl
                  rw [this]
                  exact hlowW
                · exact Nat.min_le_right _ _
              · -- x in our own old block
                have hxv : x ≠ v := by
                  intro h
                  exact hvDv (h ▸ hxDv)
                have hxfacts := hDv x hxDv
                rw [hlow₃ x hxv, hlow₃v]
                refine ⟨hxfacts.1, ?_⟩
                exact Nat.le_trans (Nat.min_le_left _ _) hxfacts.2
          · refine hinner.congr ?_ (fun x hx => rfl)
            intro x hx
            refine hlow₃ x ?_
            intro h
            subst h
            have hnds : s.st.Nodup := pre.inv.stNodup
            rw [hsdec] at hnds
            rw [List.nodup_append] at hnds
            exact (List.nodup_cons.mp hnds.2.1).1 hx
      have done₃ : ∀ x ∈ s₃.st, x ∉ v :: anc → Done adj s₃ x := by
        intro x hx hxanc
        have hxv : x ≠ v := fun h => hxanc (h ▸ List.mem_cons_self v anc)
        have hx₂ : x ∈ s₂.st := hx
        exact (post.doneStack x hx₂ hxanc).transfer (fun u _ => rfl)
          (hlow₃ x hxv) (post.inv.stVisited x hx₂) (fun w' _ h => Or.inl h)
      have hu₃ : unvisitedCount adj.length s₃ = unvisitedCount adj.length s₂ := rfl
      have pre₃ : VEPre adj fuel v rest s₃ anc :=
        ⟨inv₃, stackOK₃, done₃,
          (by show s₂.idx v ≠ none; rw [hvis₂v]; exact pre.vVisited),
          fun x hx => pre.edgesSub x (List.mem_cons_of_mem w hx),
          by rw [hu₃]; exact Nat.le_trans (Nat.le_of_lt post.uLt) pre.fuelOK⟩
      rcases ih v s₃ anc pre₃ with ⟨s₄, hrun, rpost⟩
      have hidx₄ : ∀ u, s.idx u ≠ none → s₄.idx u = s.idx u := by
        intro u hu
        have h₂ : s₂.idx u ≠ none := by
          rw [post.frameIdx u hu]; exact hu
        rw [rpost.frameIdx u h₂]
        exact post.frameIdx u hu
      refine ⟨s₄, ?_, ?_⟩
      · show visitEdges (strongconnect adj fuel) v (w :: rest) s = some s₄
        unfold visitEdges
        rw [if_pos hfresh, hsc]
        exact hrun
      · refine ⟨hidx₄, ?_, ?_, ?_, ?_, ?_, ?_, ?_, rpost.inv, rpost.stackOK,
          rpost.doneStack, ?_, ?_, ?_⟩
        · intro u hu hvisu
          have h₂ : s₂.idx u ≠ none := by
            rw [post.frameIdx u hvisu]; exact hvisu
          rw [rpost.frameLow u hu h₂, hlow₃ u hu, post.frameLow u hvisu]
        · exact Nat.le_trans rpost.lowVle
            (by rw [hlow₃v]
                exact Nat.le_trans (Nat.min_le_left _ _) (Nat.le_of_eq hlow₂v))
        · intro u k h₄
          rcases rpost.idxNew u k h₄ with h₃ | ⟨hfr₃, hge₃⟩
          · exact post.idxNew u k h₃
          · have hfrs : s.idx u = none := by
              by_contra hne
              exact hne ((post.frameIdx u hne).symm.trans hfr₃)
            exact Or.inr ⟨hfrs, Nat.le_trans (Nat.le_of_lt post.counterGt) hge₃⟩
        · exact Nat.le_trans (Nat.le_of_lt post.counterGt) rpost.counterMono
        · rcases post.sccsExt with ⟨C₂, h₂⟩
          rcases rpost.sccsExt with ⟨C₄, h₄⟩
          refine ⟨C₂ ++ C₄, ?_⟩
          rw [show s₄.sccs = s₃.sccs ++ C₄ from h₄,
            show s₃.sccs = s₂.sccs from rfl, h₂, List.append_assoc]
        · intro x hx₄ hxs
          by_cases hx₂ : x ∈ popped s₂
          · exact post.poppedNew x hx₂ hxs
          · have h₃f := rpost.poppedNew x hx₄ hx₂
            by_contra hne
            exact hne ((post.frameIdx x hne) ▸ h₃f)
        · rcases rpost.stExt with ⟨D₄, h₄st, h₄fresh⟩
          rcases post.split with ⟨hstEq, _, _⟩ | ⟨D, hstEq, hDfresh, _, _, _⟩
          · refine ⟨D₄, ?_, ?_⟩
            · rw [h₄st, show s₃.st = s₂.st from rfl, hstEq]
            · intro x hx
              have h₃f := h₄fresh x hx
              by_contra hne
              exact hne ((post.frameIdx x hne) ▸ h₃f)
          · refine ⟨D₄ ++ D ++ [w], ?_, ?_⟩
            · rw [h₄st, show s₃.st = s₂.st from rfl, hstEq]
              simp
            · intro x hx
              rcases List.mem_append.mp hx with hx1 | hxw
              · rcases List.mem_append.mp hx1 with hx4 | hxD
                · have h₃f := h₄fresh x hx4
                  by_contra hne
                  exact hne ((post.frameIdx x hne) ▸ h₃f)
                · exact hDfresh x hxD
              · rw [List.mem_singleton.mp hxw]; exact hfresh
        · exact Nat.le_trans rpost.uLe (by rw [hu₃]; exact Nat.le_of_lt post.uLt)
        · intro b hb hstb hblow
          refine rpost.lowVLB b ?_ ?_ ?_
          · exact Nat.le_trans hb (Nat.le_of_lt post.counterGt)
          · intro u hu k hk
            rcases post.idxNew u k hk with hold | ⟨_, hge⟩
            · rcases post.split with ⟨hstEq, _, _⟩ | ⟨D, hstEq, hDfresh, _, _, _⟩
              · exact hstb u (by rw [hstEq] at hu; exact hu) k hold
              · have humem : u ∈ D ++ w :: s.st := by rw [← hstEq]; exact hu
                rcases List.mem_append.mp humem with hD | hws
                · rw [hDfresh u hD] at hold
                  exact Option.noConfusion hold
                · rcases List.mem_cons.mp hws with rfl | hs'
                  · rw [hfresh] at hold
                    exact Option.noConfusion hold
                  · exact hstb u hs' k hold
            · exact Nat.le_trans hb hge
          · rw [hlow₃v, hL]
            refine Nat.le_min.mpr ⟨?_, ?_⟩
            · rw [hlow₂v]; exact hblow
            · exact post.lowVLB b hb hstb
        · intro x hx
          rcases List.mem_cons.mp hx with rfl | hx
          · have h₂ne : s₂.idx x ≠ none := by
              rw [hwvis₂]; exact fun h => Option.noConfusion h
            have h₄w : s₄.idx x = some s.counter := by
              rw [rpost.frameIdx x h₂ne]
              exact hwvis₂
            refine ⟨by rw [h₄w]; exact fun h => Option.noConfusion h, ?_⟩
            intro hxst₄
            rcases post.split with ⟨hstEq, hlowW, hpop⟩ |
              ⟨D, hstEq, hDfresh, hlowW, hok2, hnp⟩
            · exfalso
              have hpop₄ : x ∈ popped s₄ := by
                rcases rpost.sccsExt with ⟨C₄, h₄⟩
                unfold popped at hpop ⊢
                rw [show s₄.sccs = s₂.sccs ++ C₄ from h₄, List.flatten_append]
                exact List.mem_append_left _ hpop
              exact rpost.inv.poppedNotSt x hpop₄ hxst₄
            · right
              have hiv₄ : idxN s₄ v = iv := by
                unfold idxN; rw [hidx₄ v pre.vVisited, hiv]; rfl
              have hiw₄ : idxN s₄ x = s.counter := by
                unfold idxN; rw [h₄w]; rfl
              rw [hiv₄, hiw₄]
              exact hivlt
          · exact rpost.edgesDone x hx
    · -- w already visited
      by_cases honst : s.onSt w = true
      · -- back edge to a stack node: low[v] = min(low[v], idx[w])
        have hwst : w ∈ s.st := (pre.inv.onStIff w).mp honst
        rcases Option.ne_none_iff_exists'.mp hfresh with ⟨kw, hkw⟩
        have hkwN : idxN s w = kw := by unfold idxN; rw [hkw]; rfl
        set L := min (s.low v) ((s.idx w).getD 0) with hL
        have hLle : L ≤ s.low v := Nat.min_le_left _ _
        set s₃ : TS := { s with low := fun u => if u = v then L else s.low u }
          with hs₃
        have hwit : ∃ y ∈ s.st, Reach adj v y ∧ idxN s y ≤ L := by
          rcases Nat.le_total (s.low v) ((s.idx w).getD 0) with hmin | hmin
          · rcases pre.inv.lowWitness v hvst with ⟨y, hy, hr, hyl⟩
            exact ⟨y, hy, hr, by rw [hL, Nat.min_eq_left hmin]; exact hyl⟩
          · exact ⟨w, hwst, Reach.single hwadj,
              by rw [hL, Nat.min_eq_right hmin]; exact Nat.le_refl _⟩
        have inv₃ : TInv adj s₃ := tinv_lowv_update pre.inv hvst hLle hwit
        have hlow₃v : s₃.low v = L := by rw [hs₃]; simp
        have hlow₃ : ∀ u, u ≠ v → s₃.low u = s.low u := by
          intro u hu
          rw [hs₃]
          simp [hu]
        have pre₃ : VEPre adj fuel v rest s₃ anc := by
          refine ⟨inv₃, ?_, ?_, pre.vVisited,
            fun x hx => pre.edgesSub x (List.mem_cons_of_mem w hx), pre.fuelOK⟩
          · exact pre.stackOK.lowerHead pre.inv.stNodup
              (by rw [hlow₃v]; exact hLle) hlow₃
          · intro x hx hxanc
            have hxv : x ≠ v := fun h => hxanc (h ▸ List.mem_cons_self v anc)
            exact (pre.doneStack x hx hxanc).transfer (fun u _ => rfl)
              (hlow₃ x hxv) (pre.inv.stVisited x hx) (fun w' _ h => Or.inl h)
        rcases ih v s₃ anc pre₃ with ⟨s₄, hrun, rpost⟩
        refine ⟨s₄, ?_, ?_⟩
        · show visitEdges (strongconnect adj fuel) v (w :: rest) s = some s₄
          unfold visitEdges
          rw [if_neg hfresh, if_pos honst]
          exact hrun
        · have hidx34 : ∀ u, s.idx u ≠ none → s₄.idx u = s.idx u := rpost.frameIdx
          refine ⟨hidx34, ?_, ?_, rpost.idxNew, rpost.counterMono, rpost.sccsExt,
            rpost.poppedNew, rpost.stExt, rpost.inv, rpost.stackOK,
            rpost.doneStack, rpost.uLe, ?_, ?_⟩
          · intro u hu hvis
            rw [rpost.frameLow u hu hvis, hlow₃ u hu]
          · exact Nat.le_trans rpost.lowVle (by rw [hlow₃v]; exact hLle)
          · intro b hb hstb hblow
            refine rpost.lowVLB b hb hstb ?_
            rw [hlow₃v, hL]
            refine Nat.le_min.mpr ⟨hblow, ?_⟩
            rw [hkw]
            exact hstb w hwst kw hkw
          · intro x hx
            rcases List.mem_cons.mp hx with rfl | hx
            · refine ⟨by rw [hidx34 x hfresh]; exact hfresh, ?_⟩
              intro _
              left
              have h1 : s₄.low v ≤ L := by
                rw [← hlow₃v]; exact rpost.lowVle
              have h2 : idxN s₄ x = idxN s x :=
                idxN_congr hfresh (hidx34 x hfresh)
              rw [h2, hkwN]
              exact Nat.le_trans h1 (by rw [hL, ← hkwN]; exact Nat.min_le_right _ _)
            · exact rpost.edgesDone x hx
      · -- skip branch: w visited and off the stack, nothing changes
        have hwpopped : w ∈ popped s := by
          rcases pre.inv.visitedSplit w hfresh with hmem | hmem
          · exact absurd ((pre.inv.onStIff w).mpr hmem) honst
          · exact hmem
        have tailpre : VEPre adj fuel v rest s anc :=
          ⟨pre.inv, pre.stackOK, pre.doneStack, pre.vVisited,
            fun x hx => pre.edgesSub x (List.mem_cons_of_mem w hx), pre.fuelOK⟩
        rcases ih v s anc tailpre with ⟨s', hrun, rpost⟩
        refine ⟨s', ?_, ?_⟩
        · show visitEdges (strongconnect adj fuel) v (w :: rest) s = some s'
          unfold visitEdges
          rw [if_neg hfresh, if_neg honst]
          exact hrun
        · refine ⟨rpost.frameIdx, rpost.frameLow, rpost.lowVle, rpost.idxNew,
            rpost.counterMono, rpost.sccsExt, rpost.poppedNew, rpost.stExt,
            rpost.inv, rpost.stackOK, rpost.doneStack, rpost.uLe, rpost.lowVLB, ?_⟩
          intro x hx
          rcases List.mem_cons.mp hx with rfl | hx
          · refine ⟨by rw [rpost.frameIdx x hfresh]; exact hfresh, ?_⟩
            intro hxst
            exfalso
            have : x ∈ popped s' := by
              rcases rpost.sccsExt with ⟨newC, hC⟩
              unfold popped at hwpopped ⊢
              rw [hC, List.flatten_append]
              exact List.mem_append_left _ hwpopped
            exact rpost.inv.poppedNotSt x this hxst
          · exact rpost.edgesDone x hx

theorem sc_main (adj : List (List Nat)) (hwf : WFAdj adj) :
    ∀ fuel v s anc, SCPre adj fuel v s anc →
      ∃ s', strongconnect adj fuel v s = some s' ∧ SCPost adj v s s' anc
  | 0, v, s, anc, pre => absurd pre.fuelOK
      (by
        have := unvisitedCount_pos pre.vLt pre.vFresh
        omega)
  | fuel + 1, v, s, anc, pre => by
    set s1 : TS :=
      { counter := s.counter + 1,
        idx := fun u => if u = v then some s.counter else s.idx u,
        low := fun u => if u = v then s.counter else s.low u,
        onSt := fun u => if u = v then true else s.onSt u,
        sccId := s.sccId,
        st := v :: s.st,
        sccs := s.sccs } with hs1
    have hnev : ∀ u, s.idx u ≠ none → u ≠ v := fun u hu h => hu (h ▸ pre.vFresh)
    have inv1 : TInv adj s1 := tinv_push pre.inv pre.vLt pre.vFresh pre.stReachV
    have hidx1v : s1.idx v = some s.counter := by rw [hs1]; simp
    have hvis1 : s1.idx v ≠ none := by rw [hidx1v]; exact fun h => Option.noConfusion h
    have hlowold : ∀ x ∈ s.st, s1.low x = s.low x := by
      intro x hx
      have := hnev x (pre.inv.stVisited x hx)
      rw [hs1]
      simp [this]
    have hidxold : ∀ u, s.idx u ≠ none → s1.idx u = s.idx u := by
      intro u hu
      rw [hs1]
      simp [hnev u hu]
    have stack1 : StackOK s1.low (idxN s1) s1.st (v :: anc) := by
      have hsh : s1.st = [] ++ v :: s.st := rfl
      rw [hsh]
      refine StackOK.block [] v s.st anc (by intro x hx; cases hx) ?_
      refine pre.stackOK.congr hlowold ?_
      intro x hx
      exact idxN_congr (pre.inv.stVisited x hx) (hidxold x (pre.inv.stVisited x hx))
    have done1 : ∀ x ∈ s1.st, x ∉ v :: anc → Done adj s1 x := by
      intro x hx hxanc
      have hxv : x ≠ v := fun h => hxanc (h ▸ List.mem_cons_self v anc)
      have hxst : x ∈ s.st := by
        have : x ∈ v :: s.st := by rw [hs1] at hx; exact hx
        rcases List.mem_cons.mp this with h | h
        · exact absurd h hxv
        · exact h
      refine (pre.doneStack x hxst (fun h => hxanc (List.mem_cons_of_mem v h))).transfer
        hidxold (hlowold x hxst) (pre.inv.stVisited x hxst) ?_
      intro w' _ hw'
      have : w' ∈ v :: s.st := by rw [hs1] at hw'; exact hw'
      rcases List.mem_cons.mp this with rfl | h
      · exact Or.inr pre.vFresh
      · exact Or.inl h
    have hufresh : ∀ u, s1.idx u = none → s.idx u = none := by
      intro u hu
      by_cases huv : u = v
      · subst huv
        rw [hidx1v] at hu
        exact Option.noConfusion hu
      · rw [hs1] at hu
        simpa [huv] using hu
    have hult : unvisitedCount adj.length s1 < unvisitedCount adj.length s :=
      unvisitedCount_lt hufresh pre.vLt pre.vFresh hvis1
    have fuel1 : unvisitedCount adj.length s1 ≤ fuel := by
      have := pre.fuelOK
      omega
    have vepre : VEPre adj fuel v (adjOf adj v) s1 anc :=
      ⟨inv1, stack1, done1, hvis1, fun x hx => hx, fuel1⟩
    rcases ve_main adj hwf fuel (sc_main adj hwf fuel) (adjOf adj v) v s1 anc vepre
      with ⟨s₂, hrun, vp⟩
    have hidx₂v : s₂.idx v = some s.counter := by
      rw [vp.frameIdx v hvis1]
      exact hidx1v
    have hidx₂ : ∀ u, s.idx u ≠ none → s₂.idx u = s.idx u := by
      intro u hu
      rw [vp.frameIdx u (by rw [hidxold u hu]; exact hu)]
      exact hidxold u hu
    have hlow₂ : ∀ u, s.idx u ≠ none → s₂.low u = s.low u := by
      intro u hu
      rw [vp.frameLow u (hnev u hu) (by rw [hidxold u hu]; exact hu)]
      rw [hs1]
      simp [hnev u hu]
    have hidxnew₂ : ∀ u k, s₂.idx u = some k →
        s.idx u = some k ∨ (s.idx u = none ∧ s.counter ≤ k) := by
      intro u k hk
      rcases vp.idxNew u k hk with h1 | ⟨h1, h2⟩
      · by_cases huv : u = v
        · subst huv
          rw [hidx1v] at h1
          cases h1
          exact Or.inr ⟨pre.vFresh, Nat.le_refl _⟩
        · rw [hs1] at h1
          simp only [if_neg huv] at h1
          exact Or.inl h1
      · refine Or.inr ⟨hufresh u h1, ?_⟩
        have : s1.counter = s.counter + 1 := by rw [hs1]
        omega
    have hcnt₂ : s.counter < s₂.counter := by
      have h1 : s1.counter ≤ s₂.counter := vp.counterMono
      have : s1.counter = s.counter + 1 := by rw [hs1]
      omega
    have hstExt₂ : ∃ D, s₂.st = D ++ v :: s.st ∧ ∀ x ∈ D, s.idx x = none ∧ x ≠ v := by
      rcases vp.stExt with ⟨D, hD, hDf⟩
      refine ⟨D, by rw [hD, hs1], ?_⟩
      intro x hx
      have h1 := hDf x hx
      refine ⟨hufresh x h1, ?_⟩
      intro h
      subst h
      rw [hidx1v] at h1
      exact Option.noConfusion h1
    have hpoppednew₂ : ∀ x, x ∈ popped s₂ → x ∉ popped s → s.idx x = none := by
      intro x hx hxs
      have h1 : popped s1 = popped s := by rw [hs1]; rfl
      exact hufresh x (vp.poppedNew x hx (by rw [h1]; exact hxs))
    have hult₂ : unvisitedCount adj.length s₂ < unvisitedCount adj.length s :=
      Nat.lt_of_le_of_lt vp.uLe hult
    have hlowVLB₂ : ∀ b, b ≤ s.counter →
        (∀ u ∈ s.st, ∀ k, s.idx u = some k → b ≤ k) → b ≤ s₂.low v := by
      intro b hb hstb
      refine vp.lowVLB b ?_ ?_ ?_
      · have : s1.counter = s.counter + 1 := by rw [hs1]
        omega
      · intro u hu k hk
        have hu' : u ∈ v :: s.st := by rw [hs1] at hu; exact hu
        rcases List.mem_cons.mp hu' with rfl | hu''
        · rw [hidx1v] at hk
          cases hk
          exact hb
        · rw [hidxold u (pre.inv.stVisited u hu'')] at hk
          exact hstb u hu'' k hk
      · have : s1.low v = s.counter := by rw [hs1]; simp
        rw [this]
        exact hb
    have hsccsExt₂ : ∃ newC, s₂.sccs = s.sccs ++ newC := by
      rcases vp.sccsExt with ⟨C, hC⟩
      exact ⟨C, by rw [hC, hs1]⟩
    show ∃ s', (match visitEdges (strongconnect adj fuel) v (adjOf adj v) s1 with
      | none => none
      | some s2 =>
        if s2.idx v = some (s2.low v) then
          let p := popUntil v s2.st
          some { s2 with
            st := p.2,
            onSt := fun u => if p.1.contains u then false else s2.onSt u,
            sccId := fun u => if p.1.contains u then some s2.sccs.length
              else s2.sccId u,
            sccs := s2.sccs ++ [p.1] }
        else some s2) = some s' ∧ SCPost adj v s s' anc
    rw [hrun]
    show ∃ s', (if s₂.idx v = some (s₂.low v) then
        let p := popUntil v s₂.st
        some { s₂ with
          st := p.2,
          onSt := fun u => if p.1.contains u then false else s₂.onSt u,
          sccId := fun u => if p.1.contains u then some s₂.sccs.length
            else s₂.sccId u,
          sccs := s₂.sccs ++ [p.1] }
      else some s₂) = some s' ∧ SCPost adj v s s' anc
    by_cases hpopc : s₂.idx v = some (s₂.low v)
    · -- v closes its component
      rw [if_pos hpopc]
      have hlowv₂ : s₂.low v = s.counter := by
        rw [hidx₂v] at hpopc
        exact (Option.some.inj hpopc).symm
      rcases hstExt₂ with ⟨D, hDst, hDf⟩
      have hvD : v ∉ D := fun hm => (hDf v hm).2 rfl
      have hpu : popUntil v s₂.st = (D ++ [v], s.st) := by
        rw [hDst]
        exact popUntil_append hvD s.st
      rw [hpu]
      show ∃ s', some { s₂ with
          st := s.st,
          onSt := fun u => if (D ++ [v]).contains u then false else s₂.onSt u,
          sccId := fun u => if (D ++ [v]).contains u then some s₂.sccs.length
            else s₂.sccId u,
          sccs := s₂.sccs ++ [D ++ [v]] } = some s' ∧ SCPost adj v s s' anc
      set comp := D ++ [v] with hcomp
      set sP : TS := { s₂ with
          st := s.st,
          onSt := fun u => if comp.contains u then false else s₂.onSt u,
          sccId := fun u => if comp.contains u then some s₂.sccs.length
            else s₂.sccId u,
          sccs := s₂.sccs ++ [comp] } with hsP
      have hnd₂ : s₂.st.Nodup := vp.inv.stNodup
      have hndD : (D ++ v :: s.st).Nodup := by rw [← hDst]; exact hnd₂
      have hcompstack : ∀ x ∈ comp, x ∈ s₂.st := by
        intro x hx
        rw [hDst]
        rcases List.mem_append.mp hx with h | h
        · exact List.mem_append_left _ h
        · rw [List.mem_singleton.mp h]
          exact List.mem_append_right _ (List.mem_cons_self v s.st)
      have hcompDisj : ∀ x ∈ comp, x ∉ s.st := by
        intro x hx
        rw [List.nodup_append] at hndD
        rcases List.mem_append.mp hx with h | h
        · exact fun hc => hndD.2.2 h (List.mem_cons_of_mem v hc)
        · rw [List.mem_singleton.mp h]
          exact (List.nodup_cons.mp hndD.2.1).1
      have hcompNodup : comp.Nodup := by
        rw [hcomp, List.nodup_append]
        rw [List.nodup_append] at hndD
        refine ⟨hndD.1, List.nodup_singleton v, ?_⟩
        intro a ha hc
        rw [List.mem_singleton.mp hc] at ha
        exact hvD ha
      have hsstack₂ : ∀ x ∈ s.st, x ∈ s₂.st := by
        intro x hx
        rw [hDst]
        exact List.mem_append_right _ (List.mem_cons_of_mem v hx)
      have hDidx : ∀ x ∈ D, ∃ k, s₂.idx x = some k ∧ s.counter ≤ k := by
        intro x hx
        have hvis := vp.inv.stVisited x (hcompstack x (List.mem_append_left _ hx))
        rcases Option.ne_none_iff_exists'.mp hvis with ⟨k, hk⟩
        rcases hidxnew₂ x k hk with h | ⟨_, hge⟩
        · rw [(hDf x hx).1] at h
          exact Option.noConfusion h
        · exact ⟨k, hk, hge⟩
      rcases vp.stackOK.destruct with ⟨D', rest', hdec', hD', hrest'⟩
      have hvD' : v ∉ D' := by
        have hnd₃ := hnd₂
        rw [hdec', List.nodup_append] at hnd₃
        exact fun hmem => hnd₃.2.2 hmem (List.mem_cons_self v rest')
      rcases append_cons_nodup_inj (hDst.symm.trans hdec') hvD hvD' with ⟨hDD, _⟩
      rw [← hDD] at hD'
      have hDlow : ∀ x ∈ D, s₂.low x < idxN s₂ x ∧ s.counter ≤ s₂.low x := by
        intro x hx
        refine ⟨(hD' x hx).1, ?_⟩
        rw [← hlowv₂]
        exact (hD' x hx).2
      have hchase : ∀ x ∈ D, Reach adj x v :=
        chase vp.inv hDst (fun y hy => (hDlow y hy).1)
      have hreachdown : ∀ x ∈ D, Reach adj v x := by
        have hp := vp.inv.stReachUp
        rw [hDst] at hp
        intro x hx
        exact (List.pairwise_append.mp hp).2.2 x hx v (List.mem_cons_self v s.st)
      have hcompMut : ∀ x ∈ comp, ∀ y ∈ comp, Reach adj x y := by
        intro x hx y hy
        have hxv : Reach adj x v := by
          rcases List.mem_append.mp hx with h | h
          · exact hchase x h
          · rw [List.mem_singleton.mp h]
            exact ReachP.refl v trivial
        have hvy : Reach adj v y := by
          rcases List.mem_append.mp hy with h | h
          · exact hreachdown y h
          · rw [List.mem_singleton.mp h]
            exact ReachP.refl v trivial
        exact hxv.trans hvy
      have hrestidx : ∀ x ∈ s.st, ∃ k, s₂.idx x = some k ∧ k < s.counter := by
        intro x hx
        have hvis := pre.inv.stVisited x hx
        rcases Option.ne_none_iff_exists'.mp hvis with ⟨k, hk⟩
        exact ⟨k, by rw [hidx₂ x hvis]; exact hk, pre.inv.idxLtCounter x k hk⟩
      have hidxNv : idxN s₂ v = s.counter := by
        unfold idxN; rw [hidx₂v]; rfl
      have hcompClosed : ∀ x ∈ comp, ∀ w' ∈ adjOf adj x,
          w' ∈ popped s₂ ∨ w' ∈ comp := by
        intro x hx w' hw'
        have key : s₂.idx w' ≠ none ∧ (w' ∈ s₂.st →
            s₂.low x ≤ idxN s₂ w' ∨ idxN s₂ x < idxN s₂ w') := by
          rcases List.mem_append.mp hx with hxD | hxv
          · have hxanc : x ∉ v :: anc := by
              intro hmem
              rcases List.mem_cons.mp hmem with rfl | hmem
              · exact hvD hxD
              · exact pre.inv.stVisited x (pre.stackOK.ancMem x hmem) (hDf x hxD).1
            exact vp.doneStack x (hcompstack x (List.mem_append_left _ hxD)) hxanc w' hw'
          · have hxeq := List.mem_singleton.mp hxv
            subst hxeq
            exact vp.edgesDone w' hw'
        rcases key with ⟨hvis', hcase⟩
        rcases vp.inv.visitedSplit w' hvis' with hst' | hpop'
        · have hst'' := hst'
          rw [hDst] at hst''
          rcases List.mem_append.mp hst'' with h | h
          · exact Or.inr (List.mem_append_left _ h)
          · rcases List.mem_cons.mp h with rfl | h
            · exact Or.inr (List.mem_append_right _ (List.mem_singleton_self w'))
            · exfalso
              rcases hrestidx w' h with ⟨k, hk₂, hklt⟩
              have hidxw' : idxN s₂ w' = k := by unfold idxN; rw [hk₂]; rfl
              rcases hcase hst' with hc | hc
              · have hlowx : s.counter ≤ s₂.low x := by
                  rcases List.mem_append.mp hx with hxD | hxv
                  · exact (hDlow x hxD).2
                  · rw [List.mem_singleton.mp hxv, hlowv₂]
                rw [hidxw'] at hc
                omega
              · have hxidx : s.counter ≤ idxN s₂ x := by
                  rcases List.mem_append.mp hx with hxD | hxv
                  · rcases hDidx x hxD with ⟨kx, hkx, hgekx⟩
                    have : idxN s₂ x = kx := by unfold idxN; rw [hkx]; rfl
                    omega
                  · rw [List.mem_singleton.mp hxv, hidxNv]
                rw [hidxw'] at hc
                omega
        · exact Or.inl hpop'
      have hpopP : popped sP = popped s₂ ++ comp := by
        show (s₂.sccs ++ [comp]).flatten = _
        simp [popped]
      have hmemP : ∀ u, u ∈ popped sP ↔ u ∈ popped s₂ ∨ u ∈ comp := by
        intro u
        rw [hpopP]
        exact List.mem_append
      have hcontains : ∀ u, (comp.contains u = true) ↔ u ∈ comp :=
        fun u => List.elem_iff
      have hcontf : ∀ u, u ∉ comp → comp.contains u = false := by
        intro u hu
        cases hc : comp.contains u
        · rfl
        · exact absurd ((hcontains u).mp hc) hu
      have hcont : ∀ u, u ∈ comp → comp.contains u = true := fun u hu =>
        (hcontains u).mpr hu
      have hinvP : TInv adj sP := by
        refine ⟨?_, ?_, pre.inv.stNodup, ?_, ?_, ?_, ?_, ?_,
          vp.inv.visitedLtN, ?_, vp.inv.idxLtCounter, vp.inv.idxInj,
          vp.inv.lowLeIdx, ?_, ?_, ?_, ?_, ?_, ?_, ?_, ?_⟩
        · intro u hu
          exact vp.inv.stVisited u (hsstack₂ u hu)
        · intro u hu
          exact vp.inv.stLtN u (hsstack₂ u hu)
        · intro u
          show (if comp.contains u then false else s₂.onSt u) = true ↔ u ∈ s.st
          by_cases hu : u ∈ comp
          · simp only [hcont u hu, if_true, Bool.false_eq_true, false_iff]
            exact hcompDisj u hu
          · simp only [hcontf u hu, Bool.false_eq_true, if_false]
            rw [vp.inv.onStIff u]
            constructor
            · intro h
              rw [hDst] at h
              rcases List.mem_append.mp h with h | h
              · exact absurd (List.mem_append_left _ h : u ∈ comp) hu
              · rcases List.mem_cons.mp h with rfl | h
                · exact absurd (List.mem_append_right _
                    (List.mem_singleton_self u) : u ∈ comp) hu
                · exact h
            · exact hsstack₂ u
        · rw [hpopP]
          rw [List.nodup_append]
          refine ⟨vp.inv.poppedNodup, hcompNodup, ?_⟩
          intro a ha hc
          exact vp.inv.poppedNotSt a ha (hcompstack a hc)
        · intro u hu hust
          rcases (hmemP u).mp hu with h | h
          · exact vp.inv.poppedNotSt u h (hsstack₂ u hust)
          · exact hcompDisj u h hust
        · intro u hu
          rcases (hmemP u).mp hu with h | h
          · exact vp.inv.poppedVisited u h
          · exact vp.inv.stVisited u (hcompstack u h)
        · intro u hu
          rcases (hmemP u).mp hu with h | h
          · exact vp.inv.poppedLtN u h
          · exact vp.inv.stLtN u (hcompstack u h)
        · intro u hu
          rcases vp.inv.visitedSplit u hu with h | h
          · rw [hDst] at h
            rcases List.mem_append.mp h with h | h
            · exact Or.inr ((hmemP u).mpr (Or.inr (List.mem_append_left _ h)))
            · rcases List.mem_cons.mp h with rfl | h
              · exact Or.inr ((hmemP u).mpr (Or.inr
                  (List.mem_append_right _ (List.mem_singleton_self u))))
              · exact Or.inl h
          · exact Or.inr ((hmemP u).mpr (Or.inl h))
        · show s.st.Pairwise _
          have hp := vp.inv.stSorted
          rw [hDst] at hp
          have h1 := (List.pairwise_append.mp hp).2.1
          exact (List.pairwise_cons.mp h1).2
        · show s.st.Pairwise _
          have hp := vp.inv.stReachUp
          rw [hDst] at hp
          have h1 := (List.pairwise_append.mp hp).2.1
          exact (List.pairwise_cons.mp h1).2
        · intro u hu
          rcases vp.inv.lowWitness u (hsstack₂ u hu) with ⟨y, hy, hr, hyl⟩
          refine ⟨y, ?_, hr, hyl⟩
          rcases hrestidx u hu with ⟨k, hk₂, hklt⟩
          have hlowu : s₂.low u ≤ k := vp.inv.lowLeIdx u k hk₂
          rw [hDst] at hy
          rcases List.mem_append.mp hy with h | h
          · exfalso
            rcases hDidx y h with ⟨ky, hky, hgeky⟩
            have : idxN s₂ y = ky := by unfold idxN; rw [hky]; rfl
            omega
          · rcases List.mem_cons.mp h with rfl | h
            · exfalso
              rw [hidxNv] at hyl
              omega
            · exact h
        · intro j
          show EdgeClosed adj (fun x => x ∈ ((s₂.sccs ++ [comp]).take j).flatten)
          by_cases hj : j ≤ s₂.sccs.length
          · rw [List.take_append_of_le_length hj]
            exact vp.inv.prefixClosed j
          · rw [List.take_all_of_le (by simp; omega)]
            intro x hx w' hw'
            simp only [List.flatten_append] at hx ⊢
            rcases List.mem_append.mp hx with h | h
            · have := vp.inv.prefixClosed s₂.sccs.length x
                (by rw [List.take_length]; exact h) w' hw'
              rw [List.take_length] at this
              exact List.mem_append_left _ this
            · have hxc : x ∈ comp := by simpa using h
              rcases hcompClosed x hxc w' hw' with h' | h'
              · exact List.mem_append_left _ h'
              · exact List.mem_append_right _ (by simpa using h')
        · intro c hc x hx y hy
          rcases List.mem_append.mp hc with h | h
          · exact vp.inv.compMutual c h x hx y hy
          · rw [List.mem_singleton.mp h] at hx hy
            exact hcompMut x hx y hy
        · intro u hu
          show (if comp.contains u then some s₂.sccs.length else s₂.sccId u) = none
          rw [hmemP] at hu
          push_neg at hu
          simp only [hcontf u hu.2, Bool.false_eq_true, if_false]
          exact vp.inv.sccIdNone u hu.1
        · intro u k hk
          show ∃ h : k < (s₂.sccs ++ [comp]).length, u ∈ (s₂.sccs ++ [comp]).get ⟨k, h⟩
          simp only [List.length_append, List.length_singleton]
          by_cases hu : u ∈ comp
          · rw [show sP.sccId u = some s₂.sccs.length from by
              show (if comp.contains u then some s₂.sccs.length else s₂.sccId u) =
                some s₂.sccs.length
              simp only [hcont u hu, if_true]] at hk
            cases hk
            refine ⟨by omega, ?_⟩
            rw [List.get_of_append rfl rfl]
            exact hu
          · rw [show sP.sccId u = s₂.sccId u from by
              show (if comp.contains u then some s₂.sccs.length else s₂.sccId u) =
                s₂.sccId u
              simp only [hcontf u hu, Bool.false_eq_true, if_false]] at hk
            rcases vp.inv.sccIdSome u k hk with ⟨h, hmem⟩
            refine ⟨by omega, ?_⟩
            rw [List.get_append k h]
            exact hmem
        · intro u k h hmem
          show (if comp.contains u then some s₂.sccs.length else s₂.sccId u) = some k
          have hlen : (s₂.sccs ++ [comp]).length = s₂.sccs.length + 1 := by simp
          by_cases hk : k < s₂.sccs.length
          · rw [List.get_append k hk] at hmem
            have hupop : u ∈ popped s₂ := by
              unfold popped
              exact List.mem_flatten.mpr ⟨s₂.sccs.get ⟨k, hk⟩, List.get_mem _ _ hk, hmem⟩
            have huc : u ∉ comp := fun hc =>
              vp.inv.poppedNotSt u hupop (hcompstack u hc)
            simp only [hcontf u huc, Bool.false_eq_true, if_false]
            exact vp.inv.memSccId u k hk hmem
          · have hkeq : k = s₂.sccs.length := by
              rw [hlen] at h
              omega
            subst hkeq
            rw [List.get_of_append rfl rfl] at hmem
            simp only [hcont u hmem, if_true]
      refine ⟨sP, rfl, ?_⟩
      refine ⟨hidx₂v, hcnt₂, hidx₂, hlow₂, hidxnew₂, ?_, ?_, hinvP, ?_, ?_,
        hult₂, ?_⟩
      · rcases hsccsExt₂ with ⟨C, hC⟩
        refine ⟨C ++ [comp], ?_⟩
        show s₂.sccs ++ [comp] = _
        rw [hC, List.append_assoc]
      · intro x hx hxs
        rcases (hmemP x).mp hx with h | h
        · exact hpoppednew₂ x h hxs
        · rcases List.mem_append.mp h with h | h
          · exact (hDf x h).1
          · rw [List.mem_singleton.mp h]
            exact pre.vFresh
      · intro x hx hxanc
        refine ((pre.doneStack x hx hxanc).transfer hidx₂
          (hlow₂ x (pre.inv.stVisited x hx)) (pre.inv.stVisited x hx) ?_)
        intro w'' _ hw''
        exact Or.inl hw''
      · intro b hb _
        show b ≤ s₂.low v
        rw [hlowv₂]
        exact hb
      · refine Or.inl ⟨rfl, hlowv₂, ?_⟩
        rw [hmemP]
        exact Or.inr (List.mem_append_right _ (List.mem_singleton_self v))
    · -- the node stays on the stack
      rw [if_neg hpopc]
      refine ⟨s₂, rfl, ?_⟩
      have hlowv₂lt : s₂.low v < s.counter := by
        have hle : s₂.low v ≤ s.counter := by
          have := vp.inv.lowLeIdx v s.counter hidx₂v
          exact this
        rcases Nat.lt_or_ge (s₂.low v) s.counter with h | h
        · exact h
        · exfalso
          exact hpopc (by rw [hidx₂v, Nat.le_antisymm hle h])
      rcases hstExt₂ with ⟨D, hDst, hDf⟩
      refine ⟨hidx₂v, hcnt₂, hidx₂, hlow₂, hidxnew₂, hsccsExt₂, hpoppednew₂,
        vp.inv, ?_, hlowVLB₂, hult₂, ?_⟩
      · intro x hx hxanc
        by_cases hxv : x = v
        · subst hxv
          intro wq hwq
          exact vp.edgesDone wq hwq
        · exact vp.doneStack x hx (by
            intro hmem
            rcases List.mem_cons.mp hmem with h | h
            · exact hxv h
            · exact hxanc h)
      · refine Or.inr ⟨D, hDst, fun x hx => (hDf x hx).1, hlowv₂lt, vp.stackOK, ?_⟩
        intro hvpop
        have hvst₂ : v ∈ s₂.st := by
          rw [hDst]
          exact List.mem_append_right _ (List.mem_cons_self v s.st)
        exact vp.inv.poppedNotSt v hvpop hvst₂

theorem unvisitedCount_le_bound (N : Nat) (s : TS) : unvisitedCount N s ≤ N := by
  unfold unvisitedCount
  calc ((Finset.range N).filter _).card ≤ (Finset.range N).card :=
        Finset.card_le_card (Finset.filter_subset _ _)
    _ = N := Finset.card_range N

theorem tarjanLoop_spec (adj : List (List Nat)) (hwf : WFAdj adj) :
    ∀ vs s, TInv adj s → s.st = [] → (∀ v ∈ vs, v < adj.length) →
    ∃ s', tarjanLoop adj vs s = some s' ∧ TInv adj s' ∧ s'.st = [] ∧
      (∀ v ∈ vs, s'.idx v ≠ none) ∧
      (∀ u, s.idx u ≠ none → s'.idx u = s.idx u) := by
  intro vs
  induction vs with
  | nil =>
    intro s inv hst _
    exact ⟨s, rfl, inv, hst, fun v hv => absurd hv (List.not_mem_nil v),
      fun u _ => rfl⟩
  | cons v vs ih =>
    intro s inv hst hlt
    show ∃ s', (if s.idx v = none then
        match strongconnect adj adj.length v s with
        | none => none
        | some s' => tarjanLoop adj vs s'
      else tarjanLoop adj vs s) = some s' ∧ _
    by_cases hfresh : s.idx v = none
    · rw [if_pos hfresh]
      have pre : SCPre adj adj.length v s [] :=
        ⟨inv, (by rw [hst]; exact StackOK.nil),
          (fun x hx => by rw [hst] at hx; cases hx),
          hlt v (List.mem_cons_self v vs), hfresh, unvisitedCount_le_bound _ _,
          (fun x hx => by rw [hst] at hx; cases hx)⟩
      rcases sc_main adj hwf adj.length v s [] pre with ⟨s₂, hsc, post⟩
      rw [hsc]
      have hstEq : s₂.st = [] := by
        rcases post.split with ⟨h, _, _⟩ | ⟨D, hD, _, hlow, _, _⟩
        · rw [h, hst]
        · exfalso
          have hb := post.lowVLB s.counter (Nat.le_refl _)
            (fun u hu => by rw [hst] at hu; cases hu)
          omega
      rcases ih s₂ post.inv hstEq (fun x hx => hlt x (List.mem_cons_of_mem v hx))
        with ⟨s', hloop, inv', hst', hvs', hmono'⟩
      refine ⟨s', hloop, inv', hst', ?_, ?_⟩
      · intro x hx
        rcases List.mem_cons.mp hx with rfl | hx
        · rw [hmono' x (by rw [post.idxV]; exact fun h => Option.noConfusion h),
            post.idxV]
          exact fun h => Option.noConfusion h
        · exact hvs' x hx
      · intro u hu
        rw [hmono' u (by rw [post.frameIdx u hu]; exact hu), post.frameIdx u hu]
    · rw [if_neg hfresh]
      rcases ih s inv hst (fun x hx => hlt x (List.mem_cons_of_mem v hx))
        with ⟨s', hloop, inv', hst', hvs', hmono'⟩
      refine ⟨s', hloop, inv', hst', ?_, hmono'⟩
      intro x hx
      rcases List.mem_cons.mp hx with rfl | hx
      · rw [hmono' x hfresh]
        exact hfresh
      · exact hvs' x hx

/-- The SCC pass always succeeds on a well-formed graph, ends with an empty
stack, a valid invariant, and every index visited. -/
theorem tarjanRun_spec (adj : List (List Nat)) (hwf : WFAdj adj) :
    ∃ ts, tarjanRun adj = some ts ∧ TInv adj ts ∧ ts.st = [] ∧
      ∀ v, v < adj.length → ts.idx v ≠ none := by
  rcases tarjanLoop_spec adj hwf (List.range adj.length) initTS (tinv_init adj)
    rfl (fun v hv => List.mem_range.mp hv) with ⟨s', hloop, inv', hst', hvs', _⟩
  exact ⟨s', hloop, inv', hst', fun v hv => hvs' v (List.mem_range.mpr hv)⟩

/-- Every index below `N` lies in a component; indices in components are below
`N`; components partition the index set. -/
theorem tarjan_partition {adj : List (List Nat)} {ts : TS}
    (hwf : WFAdj adj) (hrun : tarjanRun adj = some ts) :
    ∀ v, List.count v ts.sccs.flatten = if v < adj.length then 1 else 0 := by
  rcases tarjanRun_spec adj hwf with ⟨ts', hrun', inv, hst, hall⟩
  rw [hrun'] at hrun
  cases hrun
  intro v
  by_cases hv : v < adj.length
  · rw [if_pos hv]
    refine List.count_eq_one_of_mem inv.poppedNodup ?_
    rcases inv.visitedSplit v (hall v hv) with h | h
    · rw [hst] at h
      cases h
    · exact h
  · rw [if_neg hv]
    rw [List.count_eq_zero]
    intro hmem
    exact hv (inv.poppedLtN v hmem)

theorem tarjanRun_inv {adj : List (List Nat)} {ts : TS} (hwf : WFAdj adj)
    (hrun : tarjanRun adj = some ts) :
    TInv adj ts ∧ ts.st = [] ∧ ∀ v, v < adj.length → ts.idx v ≠ none := by
  rcases tarjanRun_spec adj hwf with ⟨ts', hrun', inv, hst, hall⟩
  rw [hrun'] at hrun
  cases hrun
  exact ⟨inv, hst, hall⟩

/-- Each index is in at most one component. -/
theorem comp_unique {adj : List (List Nat)} {ts : TS} (inv : TInv adj ts)
    {x j l : Nat} (hj : j < ts.sccs.length) (hl : l < ts.sccs.length)
    (hxj : x ∈ ts.sccs.get ⟨j, hj⟩) (hxl : x ∈ ts.sccs.get ⟨l, hl⟩) : j = l := by
  have h1 := inv.memSccId x j hj hxj
  have h2 := inv.memSccId x l hl hxl
  rw [h1] at h2
  exact Option.some.inj h2

/-- Every index below `N` is in some component. -/
theorem mem_some_comp {adj : List (List Nat)} {ts : TS} (hwf : WFAdj adj)
    (hrun : tarjanRun adj = some ts) {m : Nat} (hm : m < adj.length) :
    ∃ l, ∃ hl : l < ts.sccs.length, m ∈ ts.sccs.get ⟨l, hl⟩ := by
  rcases tarjanRun_inv hwf hrun with ⟨inv, hst, hall⟩
  rcases inv.visitedSplit m (hall m hm) with h | h
  · rw [hst] at h
    cases h
  · rcases List.mem_flatten.mp h with ⟨c, hc, hmc⟩
    rcases List.mem_iff_getElem.mp hc with ⟨l, hl, hceq⟩
    exact ⟨l, hl, by rw [List.get_eq_getElem, hceq]; exact hmc⟩

/-- Members of a component are below `N`. -/
theorem comp_mem_lt {adj : List (List Nat)} {ts : TS} (inv : TInv adj ts)
    {j : Nat} (hj : j < ts.sccs.length) {x : Nat}
    (hx : x ∈ ts.sccs.get ⟨j, hj⟩) : x < adj.length := by
  refine inv.poppedLtN x ?_
  exact List.mem_flatten.mpr ⟨ts.sccs.get ⟨j, hj⟩, List.get_mem _ _ hj, hx⟩

/-- Reachability from a component member lands in a component no later in the
emission order. -/
theorem prefix_reach {adj : List (List Nat)} {ts : TS} (inv : TInv adj ts)
    {j : Nat} (hj : j < ts.sccs.length) {x z : Nat}
    (hxj : x ∈ ts.sccs.get ⟨j, hj⟩) (hreach : Reach adj x z) :
    ∃ l, ∃ hl : l < ts.sccs.length, l ≤ j ∧ z ∈ ts.sccs.get ⟨l, hl⟩ := by
  have hclosed := inv.prefixClosed (j + 1)
  have hjt : j < (ts.sccs.take (j + 1)).length := by
    rw [List.length_take]
    omega
  have hx : x ∈ (ts.sccs.take (j + 1)).flatten := by
    refine List.mem_flatten.mpr ⟨ts.sccs.get ⟨j, hj⟩, ?_, hxj⟩
    have h1 : (List.take (j + 1) ts.sccs)[j] = ts.sccs[j] :=
      @List.getElem_take _ ts.sccs (j + 1) j hjt
    rw [List.get_eq_getElem, ← h1]
    exact List.getElem_mem hjt
  have hz := hreach.stays hclosed hx
  rcases List.mem_flatten.mp hz with ⟨c, hc, hzc⟩
  rcases List.mem_iff_getElem.mp hc with ⟨i, hi, hceq⟩
  have hilen : i < ts.sccs.length := Nat.lt_of_lt_of_le hi
    (by rw [List.length_take]; exact Nat.min_le_right _ _)
  have hij : i ≤ j := by
    have : i < j + 1 := Nat.lt_of_lt_of_le hi
      (by rw [List.length_take]; exact Nat.min_le_left _ _)
    omega
  refine ⟨i, hilen, hij, ?_⟩
  have h2 : (List.take (j + 1) ts.sccs)[i] = ts.sccs[i] :=
    @List.getElem_take _ ts.sccs (j + 1) i hi
  rw [List.get_eq_getElem, ← h2, hceq]
  exact hzc

/-- **Main SCC theorem**: the components returned by the Tarjan pass are
exactly the equivalence classes of mutual reachability. -/
theorem tarjan_scc_classes {adj : List (List Nat)} {ts : TS} (hwf : WFAdj adj)
    (hrun : tarjanRun adj = some ts) {j l : Nat}
    (hj : j < ts.sccs.length) (hl : l < ts.sccs.length) {x z : Nat}
    (hx : x ∈ ts.sccs.get ⟨j, hj⟩) (hz : z ∈ ts.sccs.get ⟨l, hl⟩) :
    SCCRel adj x z ↔ j = l := by
  rcases tarjanRun_inv hwf hrun with ⟨inv, _, _⟩
  constructor
  · rintro ⟨hxz, hzx⟩
    rcases prefix_reach inv hj hx hxz with ⟨l₁, hl₁, hlej, hzl₁⟩
    have hll₁ : l = l₁ := comp_unique inv hl hl₁ hz hzl₁
    rcases prefix_reach inv hl hz hzx with ⟨j₁, hj₁, hlel, hxj₁⟩
    have hjj₁ : j = j₁ := comp_unique inv hj hj₁ hx hxj₁
    omega
  · intro h
    subst h
    exact ⟨inv.compMutual _ (List.get_mem _ _ hj) x hx z hz,
      inv.compMutual _ (List.get_mem _ _ hj) z hz x hx⟩

/-- Inside a component, plain reachability refines to a path that stays in the
component. -/
theorem comp_reachP {adj : List (List Nat)} {ts : TS} (hwf : WFAdj adj)
    (hrun : tarjanRun adj = some ts) {j : Nat} (hj : j < ts.sccs.length)
    {x y : Nat} (hx : x ∈ ts.sccs.get ⟨j, hj⟩) (hy : y ∈ ts.sccs.get ⟨j, hj⟩) :
    ReachP adj (fun u => u ∈ ts.sccs.get ⟨j, hj⟩) x y := by
  rcases tarjanRun_inv hwf hrun with ⟨inv, _, _⟩
  have hreach : Reach adj x y :=
    inv.compMutual _ (List.get_mem _ _ hj) x hx y hy
  revert hx hy
  induction hreach with
  | refl u _ =>
    intro hu _
    exact ReachP.refl u hu
  | head u m yy hu' hedge hrest ih =>
    intro hu hy
    have hmN : m < adj.length := hwf u (comp_mem_lt inv hj hu) m hedge
    rcases mem_some_comp hwf hrun hmN with ⟨l, hl, hml⟩
    have hrel : SCCRel adj u m := ⟨Reach.single hedge,
      hrest.trans (inv.compMutual _ (List.get_mem _ _ hj) yy hy u hu)⟩
    have hjl : j = l := (tarjan_scc_classes hwf hrun hj hl hu hml).mp hrel
    subst hjl
    exact ReachP.head u m yy hu hedge (ih hml hy)

/-! ## Correctness of the simple-cycle DFS -/

/-- Unseen members of the component set. -/
def dcount (compSet : List Nat) (s : DfsSt) : Nat :=
  (compSet.filter (fun x => !(s.seen.contains x))).length

theorem length_filter_mono {p q : Nat → Bool} (h : ∀ x, p x = true → q x = true) :
    ∀ l : List Nat, (l.filter p).length ≤ (l.filter q).length := by
  intro l
  induction l with
  | nil => exact Nat.le_refl _
  | cons x l ih =>
    by_cases hp : p x = true
    · rw [List.filter_cons_of_pos hp, List.filter_cons_of_pos (h x hp)]
      exact Nat.succ_le_succ ih
    · rw [List.filter_cons_of_neg (by simpa using hp)]
      by_cases hq : q x = true
      · rw [List.filter_cons_of_pos hq]
        exact Nat.le_succ_of_le ih
      · rw [List.filter_cons_of_neg (by simpa using hq)]
        exact ih

theorem length_filter_lt {p q : Nat → Bool} (h : ∀ x, p x = true → q x = true)
    {u : Nat} (hq : q u = true) (hp : p u = false) :
    ∀ l : List Nat, u ∈ l → (l.filter p).length < (l.filter q).length := by
  intro l
  induction l with
  | nil => intro h'; cases h'
  | cons x l ih =>
    intro hmem
    rcases List.mem_cons.mp hmem with rfl | hmem
    · rw [List.filter_cons_of_neg (by simp [hp]), List.filter_cons_of_pos hq]
      exact Nat.lt_succ_of_le (length_filter_mono h l)
    · by_cases hpx : p x = true
      · rw [List.filter_cons_of_pos hpx, List.filter_cons_of_pos (h x hpx)]
        exact Nat.succ_lt_succ (ih hmem)
      · rw [List.filter_cons_of_neg (by simpa using hpx)]
        by_cases hqx : q x = true
        · rw [List.filter_cons_of_pos hqx]
          exact Nat.lt_succ_of_lt (ih hmem)
        · rw [List.filter_cons_of_neg (by simpa using hqx)]
          exact ih hmem

/-- Invariant of the DFS state. -/
structure DInv (adj : List (List Nat)) (start : Nat) (compSet : List Nat)
    (s : DfsSt) : Prop where
  stkSeen : ∀ x ∈ s.stk, x ∈ s.seen
  stkNodup : s.stk.Nodup
  seenMem : ∀ x ∈ s.seen, x = start ∨ x ∈ compSet
  stkBottom : s.stk = [] ∨ s.stk.getLast? = some start
  closure : ∀ x ∈ s.seen, x ∉ s.stk → ∀ w ∈ adjOf adj x, w ∈ compSet →
    w ∈ s.seen ∧ (w = start → x = start)

/-- The edge loop of the DFS, with the recursive call abstracted;
`u` is the node whose frame is running, so `s.stk = u :: parent`. -/
theorem dfsEdges_main (adj : List (List Nat)) (start : Nat) (compSet : List Nat)
    (fuel : Nat)
    (IH : ∀ u s, DInv adj start compSet s → (u = start ∨ u ∈ compSet) →
      (s.stk = [] → u = start) →
      dcount compSet s + (if u ∈ compSet then 1 else 2) ≤ fuel →
      ∃ r, dfs adj start compSet fuel u s = some r ∧
        (r.1 = false → r.2.stk = s.stk ∧ (∀ x ∈ s.seen, x ∈ r.2.seen) ∧
          u ∈ r.2.seen ∧ DInv adj start compSet r.2) ∧
        (r.1 = true → DInv adj start compSet r.2 ∧ r.2.stk ≠ [])) :
    ∀ edges u s, DInv adj start compSet s → u ∈ s.seen → s.stk ≠ [] →
      dcount compSet s + 1 ≤ fuel →
      ∃ r, dfsEdges (dfs adj start compSet fuel) start compSet edges s = some r ∧
        (r.1 = false → r.2.stk = s.stk ∧ (∀ x ∈ s.seen, x ∈ r.2.seen) ∧
          DInv adj start compSet r.2 ∧
          (∀ w ∈ edges, w ∈ compSet → w ∈ r.2.seen ∧
            (w = start → s.stk.length ≤ 1))) ∧
        (r.1 = true → DInv adj start compSet r.2 ∧ r.2.stk ≠ []) := by
  intro edges
  induction edges with
  | nil =>
    intro u s inv hu hne _
    refine ⟨(false, s), rfl, ?_, ?_⟩
    · intro _
      exact ⟨rfl, fun x hx => hx, inv, fun w hw => absurd hw (List.not_mem_nil w)⟩
    · intro h
      cases h
  | cons w rest ih =>
    intro u s inv hu hne hfuel
    show ∃ r, (if ¬ compSet.contains w = true then
        dfsEdges (dfs adj start compSet fuel) start compSet rest s
      else if w = start ∧ s.stk.length > 1 then some (true, s)
      else if ¬ s.seen.contains w = true then
        match dfs adj start compSet fuel w s with
        | none => none
        | some (true, s') => some (true, s')
        | some (false, s') =>
          dfsEdges (dfs adj start compSet fuel) start compSet rest s'
      else dfsEdges (dfs adj start compSet fuel) start compSet rest s) = some r ∧ _
    by_cases hwc : w ∈ compSet
    · rw [if_neg (by simpa using (List.elem_iff.mpr hwc : compSet.contains w = true))]
      by_cases hws : w = start ∧ s.stk.length > 1
      · rw [if_pos hws]
        refine ⟨(true, s), rfl, ?_, ?_⟩
        · intro h
          cases h
        · intro _
          exact ⟨inv, hne⟩
      · rw [if_neg hws]
        by_cases hseen : w ∈ s.seen
        · rw [if_neg (by simpa using (List.elem_iff.mpr hseen : s.seen.contains w = true))]
          rcases ih u s inv hu hne hfuel with ⟨r, hrun, hf, ht⟩
          refine ⟨r, hrun, ?_, ht⟩
          intro hrf
          rcases hf hrf with ⟨hstk, hmono, hinv, hedges⟩
          refine ⟨hstk, hmono, hinv, ?_⟩
          intro w' hw' hw'c
          rcases List.mem_cons.mp hw' with rfl | hw'
          · refine ⟨hmono w' hseen, ?_⟩
            intro hws'
            by_contra hlen
            exact hws ⟨hws', by omega⟩
          · exact hedges w' hw' hw'c
        · rw [if_pos (by
            simp only [List.elem_iff]
            simpa using hseen)]
          have hwpre := IH w s inv (Or.inr hwc) (fun h => absurd h hne)
            (by rw [if_pos hwc]; exact hfuel)
          rcases hwpre with ⟨r₁, hrun₁, hf₁, ht₁⟩
          rcases r₁ with ⟨b₁, s₁⟩
          cases b₁
          · -- child came back empty-handed
            rcases hf₁ rfl with ⟨hstk₁, hmono₁, hw₁, hinv₁⟩
            have hfuel₁ : dcount compSet s₁ + 1 ≤ fuel := by
              refine Nat.le_trans (Nat.add_le_add_right ?_ 1) hfuel
              refine length_filter_mono ?_ compSet
              intro x hx
              rw [Bool.not_eq_true'] at hx ⊢
              cases hcx : s.seen.contains x
              · rfl
              · exfalso
                have hxs : x ∈ s.seen := List.elem_iff.mp hcx
                have hc1 : s₁.seen.contains x = true :=
                  List.elem_iff.mpr (hmono₁ x hxs)
                rw [hc1] at hx
                exact Bool.noConfusion hx
            rcases ih u s₁ hinv₁ (hmono₁ u hu) (by rw [hstk₁]; exact hne)
              hfuel₁ with ⟨r, hrun, hf, ht⟩
            refine ⟨r, by rw [hrun₁]; exact hrun, ?_, ht⟩
            intro hrf
            rcases hf hrf with ⟨hstk, hmono, hinv, hedges⟩
            refine ⟨by rw [hstk, hstk₁], fun x hx => hmono x (hmono₁ x hx), hinv, ?_⟩
            intro w' hw' hw'c
            rcases List.mem_cons.mp hw' with rfl | hw'
            · refine ⟨hmono w' hw₁, ?_⟩
              intro hws'
              by_contra hlen
              exact hws ⟨hws', by omega⟩
            · have := hedges w' hw' hw'c
              rw [hstk₁] at this
              exact this
          · -- child found the cycle
            rcases ht₁ rfl with ⟨hinv₁, hne₁⟩
            refine ⟨(true, s₁), by rw [hrun₁], ?_, ?_⟩
            · intro h
              cases h
            · intro _
              exact ⟨hinv₁, hne₁⟩
    · rw [if_pos (by
        simp only [List.elem_iff]
        simpa using hwc)]
      rcases ih u s inv hu hne hfuel with ⟨r, hrun, hf, ht⟩
      refine ⟨r, hrun, ?_, ht⟩
      intro hrf
      rcases hf hrf with ⟨hstk, hmono, hinv, hedges⟩
      refine ⟨hstk, hmono, hinv, ?_⟩
      intro w' hw' hw'c
      rcases List.mem_cons.mp hw' with rfl | hw'
      · exact absurd hw'c hwc
      · exact hedges w' hw' hw'c

theorem dfs_main (adj : List (List Nat)) (start : Nat) (compSet : List Nat) :
    ∀ fuel u s, DInv adj start compSet s → (u = start ∨ u ∈ compSet) →
      (s.stk = [] → u = start) →
      dcount compSet s + (if u ∈ compSet then 1 else 2) ≤ fuel →
      ∃ r, dfs adj start compSet fuel u s = some r ∧
        (r.1 = false → r.2.stk = s.stk ∧ (∀ x ∈ s.seen, x ∈ r.2.seen) ∧
          u ∈ r.2.seen ∧ DInv adj start compSet r.2) ∧
        (r.1 = true → DInv adj start compSet r.2 ∧ r.2.stk ≠ [])
  | 0, u, s, inv, hu, hroot, hfuel => by
    exfalso
    by_cases huc : u ∈ compSet
    · rw [if_pos huc] at hfuel
      omega
    · rw [if_neg huc] at hfuel
      omega
  | fuel + 1, u, s, inv, hu, hroot, hfuel => by
    show ∃ r, (if s.seen.contains u = true then some (false, s)
      else
        match dfsEdges (dfs adj start compSet fuel) start compSet (adjOf adj u)
            ⟨u :: s.seen, u :: s.stk⟩ with
        | none => none
        | some (true, s2) => some (true, s2)
        | some (false, s2) => some (false, ⟨s2.seen, s2.stk.tail⟩)) = some r ∧ _
    by_cases hseen : u ∈ s.seen
    · rw [if_pos (List.elem_iff.mpr hseen)]
      refine ⟨(false, s), rfl, ?_, ?_⟩
      · intro _
        exact ⟨rfl, fun x hx => hx, hseen, inv⟩
      · intro h
        cases h
    · rw [if_neg (by
        cases hc : s.seen.contains u
        · exact fun h => Bool.noConfusion h
        · exact absurd (List.elem_iff.mp hc) hseen)]
      set s₁ : DfsSt := ⟨u :: s.seen, u :: s.stk⟩ with hs₁
      have hustk : u ∉ s.stk := fun h => hseen (inv.stkSeen u h)
      have inv₁ : DInv adj start compSet s₁ := by
        refine ⟨?_, List.Nodup.cons hustk inv.stkNodup, ?_, ?_, ?_⟩
        · intro x hx
          rcases List.mem_cons.mp hx with rfl | hx
          · exact List.mem_cons_self x s.seen
          · exact List.mem_cons_of_mem u (inv.stkSeen x hx)
        · intro x hx
          rcases List.mem_cons.mp hx with rfl | hx
          · exact hu
          · exact inv.seenMem x hx
        · right
          show (u :: s.stk).getLast? = some start
          rcases inv.stkBottom with h | h
          · rw [h, hroot h]
            rfl
          · cases hstk : s.stk with
            | nil =>
              rw [hstk] at h
              exact Option.noConfusion h
            | cons y ys =>
              rw [hstk] at h
              rw [show (u :: y :: ys).getLast? = (y :: ys).getLast? from rfl]
              exact h
        · intro x hx hxstk w hw hwc
          have hxu : x ≠ u := fun h => hxstk (h ▸ List.mem_cons_self x s.stk)
          have hxs : x ∈ s.seen := by
            rcases List.mem_cons.mp hx with h | h
            · exact absurd h hxu
            · exact h
          have hxstk' : x ∉ s.stk := fun h =>
            hxstk (List.mem_cons_of_mem u h)
          rcases inv.closure x hxs hxstk' w hw hwc with ⟨hws, himp⟩
          exact ⟨List.mem_cons_of_mem u hws, himp⟩
      have hfuel₁ : dcount compSet s₁ + 1 ≤ fuel := by
        by_cases huc : u ∈ compSet
        · rw [if_pos huc] at hfuel
          have hstrict : dcount compSet s₁ < dcount compSet s := by
            refine length_filter_lt ?_ ?_ ?_ compSet huc
            · intro x hx
              cases hcx : s.seen.contains x
              · rfl
              · exfalso
                have h1 : s₁.seen.contains x = true :=
                  List.elem_iff.mpr (List.mem_cons_of_mem u (List.elem_iff.mp hcx))
                rw [h1] at hx
                exact Bool.noConfusion hx
            · show (!(s.seen.contains u)) = true
              cases hc : s.seen.contains u
              · rfl
              · exact absurd (List.elem_iff.mp hc) hseen
            · show (!(s₁.seen.contains u)) = false
              have h1 : s₁.seen.contains u = true :=
                List.elem_iff.mpr (List.mem_cons_self u s.seen)
              rw [h1]
              rfl
          omega
        · rw [if_neg huc] at hfuel
          have heq : dcount compSet s₁ = dcount compSet s := by
            unfold dcount
            congr 1
            refine List.filter_congr ?_
            intro x hx
            have hxu : x ≠ u := fun h => huc (h ▸ hx)
            show (!(s₁.seen.contains x)) = (!(s.seen.contains x))
            congr 1
            cases hcx : s.seen.contains x
            · cases hc1 : s₁.seen.contains x
              · rfl
              · rcases List.mem_cons.mp (List.elem_iff.mp hc1) with h | h
                · exact absurd h hxu
                · have h2 : s.seen.contains x = true := List.elem_iff.mpr h
                  rw [h2] at hcx
                  exact Bool.noConfusion hcx
            · exact List.elem_iff.mpr
                (List.mem_cons_of_mem u (List.elem_iff.mp hcx))
          omega
      rcases dfsEdges_main adj start compSet fuel (dfs_main adj start compSet fuel)
        (adjOf adj u) u s₁ inv₁ (List.mem_cons_self u s.seen)
        (fun h => List.noConfusion h) hfuel₁ with ⟨r₂, hrun₂, hf₂, ht₂⟩
      rcases r₂ with ⟨b₂, s₂⟩
      cases b₂
      · rcases hf₂ rfl with ⟨hstk₂, hmono₂, hinv₂, hedges₂⟩
        refine ⟨(false, ⟨s₂.seen, s₂.stk.tail⟩), by rw [hrun₂], ?_, ?_⟩
        · intro _
          have hstkt : s₂.stk.tail = s.stk := by
            rw [hstk₂, hs₁]
            rfl
          refine ⟨hstkt, ?_, ?_, ?_⟩
          · intro x hx
            exact hmono₂ x (List.mem_cons_of_mem u hx)
          · exact hmono₂ u (List.mem_cons_self u s.seen)
          · refine ⟨?_, ?_, ?_, ?_, ?_⟩
            · intro x hx
              show x ∈ s₂.seen
              rw [hstkt] at hx
              exact hmono₂ x (List.mem_cons_of_mem u (inv.stkSeen x hx))
            · show s₂.stk.tail.Nodup
              rw [hstkt]
              exact inv.stkNodup
            · exact hinv₂.seenMem
            · show s₂.stk.tail = [] ∨ _
              rw [hstkt]
              exact inv.stkBottom
            · intro x hx hxstk w hw hwc
              show w ∈ s₂.seen ∧ _
              rw [hstkt] at hxstk
              by_cases hxu : x = u
              · rcases hedges₂ w (hxu ▸ hw) hwc with ⟨hws, himp⟩
                refine ⟨hws, ?_⟩
                intro hwstart
                have hlen := himp hwstart
                have hnil : s.stk = [] := by
                  have h2 : s₁.stk.length = s.stk.length + 1 := rfl
                  rw [h2] at hlen
                  have h3 : s.stk.length = 0 := by omega
                  exact List.length_eq_zero.mp h3
                rw [hxu]
                exact hroot hnil
              · have hxstk₂ : x ∉ s₂.stk := by
                  rw [hstk₂]
                  intro hc
                  rcases List.mem_cons.mp hc with h | h
                  · exact hxu h
                  · exact hxstk h
                exact hinv₂.closure x hx hxstk₂ w hw hwc
        · intro h
          cases h
      · rcases ht₂ rfl with ⟨hinv₂, hne₂⟩
        refine ⟨(true, s₂), by rw [hrun₂], ?_, ?_⟩
        · intro h
          cases h
        · intro _
          exact ⟨hinv₂, hne₂⟩

/-! ## Totality and completeness of `findCycleFrom` -/

/-- The empty DFS state satisfies the invariant. -/
theorem dinv_init (adj : List (List Nat)) (start : Nat) (compSet : List Nat) :
    DInv adj start compSet ⟨[], []⟩ := by
  refine ⟨?_, List.nodup_nil, ?_, Or.inl rfl, ?_⟩
  · intro x hx
    exact absurd hx (List.not_mem_nil x)
  · intro x hx
    exact absurd hx (List.not_mem_nil x)
  · intro x hx
    exact absurd hx (List.not_mem_nil x)

theorem dcount_init (compSet : List Nat) :
    dcount compSet ⟨[], []⟩ ≤ compSet.length :=
  List.length_filter_le _ _

/-- The DFS of the pass always terminates within its fuel. -/
theorem dfs_total (adj : List (List Nat)) (start : Nat) (compSet : List Nat) :
    ∃ r, dfs adj start compSet (compSet.length + 2) start ⟨[], []⟩ = some r ∧
      (r.1 = false → r.2.stk = [] ∧ start ∈ r.2.seen ∧
        DInv adj start compSet r.2) ∧
      (r.1 = true → DInv adj start compSet r.2 ∧ r.2.stk ≠ []) := by
  have hfuel : dcount compSet (⟨[], []⟩ : DfsSt) +
      (if start ∈ compSet then 1 else 2) ≤ compSet.length + 2 := by
    have h := dcount_init compSet
    by_cases hc : start ∈ compSet
    · rw [if_pos hc]
      omega
    · rw [if_neg hc]
      omega
  rcases dfs_main adj start compSet (compSet.length + 2) start ⟨[], []⟩
      (dinv_init adj start compSet) (Or.inl rfl) (fun _ => rfl) hfuel with
    ⟨r, hr, hf, ht⟩
  refine ⟨r, hr, ?_, ht⟩
  intro hfalse
  rcases hf hfalse with ⟨hstk, _, hstart, hinv⟩
  exact ⟨hstk, hstart, hinv⟩

/-- `findCycleFrom` never exhausts its fuel. -/
theorem findCycleFrom_total (adj : List (List Nat)) (start : Nat)
    (compSet : List Nat) : ∃ r, findCycleFrom adj start compSet = some r := by
  rcases dfs_total adj start compSet with ⟨⟨b, s⟩, hr, _, _⟩
  cases b
  · exact ⟨none, by unfold findCycleFrom; rw [hr]⟩
  · exact ⟨some (s.stk.reverse ++ [start]), by unfold findCycleFrom; rw [hr]⟩

/-- With an empty stack, the visited set is closed under in-component paths. -/
theorem seen_reach {adj : List (List Nat)} {start : Nat} {compSet : List Nat}
    {s : DfsSt} (inv : DInv adj start compSet s) (hstk : s.stk = [])
    {x y : Nat} (h : ReachP adj (fun z => z ∈ compSet) x y) (hx : x ∈ s.seen) :
    y ∈ s.seen := by
  revert hx
  induction h with
  | refl u _ => exact fun hx => hx
  | head u v w _ huv h ih =>
    intro hx
    have hus : u ∉ s.stk := by
      rw [hstk]
      exact List.not_mem_nil u
    exact ih ((inv.closure u hx hus v huv h.fst).1)

/-- With an empty stack, a visited node with an in-component path to `start`
is `start` itself. -/
theorem seen_to_start {adj : List (List Nat)} {start : Nat} {compSet : List Nat}
    {s : DfsSt} (inv : DInv adj start compSet s) (hstk : s.stk = [])
    {x : Nat} (h : ReachP adj (fun z => z ∈ compSet) x start)
    (hx : x ∈ s.seen) : x = start := by
  have key : ∀ x y, ReachP adj (fun z => z ∈ compSet) x y → y = start →
      x ∈ s.seen → x = start := by
    intro x y h
    induction h with
    | refl u _ => exact fun hy _ => hy
    | head u v w _ huv h ih =>
      intro hw hx
      have hus : u ∉ s.stk := by
        rw [hstk]
        exact List.not_mem_nil u
      have hcl := inv.closure u hx hus v huv h.fst
      have hveq : v = start := ih hw hcl.1
      exact hcl.2 hveq
  exact key x start h rfl hx

/-- If some other node of the component set reaches `start` through the set,
the root DFS call returns `true`. -/
theorem dfs_root_true {adj : List (List Nat)} {start : Nat} {compSet : List Nat}
    {y : Nat} (hy : y ≠ start)
    (h1 : ReachP adj (fun z => z ∈ compSet) start y)
    (h2 : ReachP adj (fun z => z ∈ compSet) y start) :
    ∃ s, dfs adj start compSet (compSet.length + 2) start ⟨[], []⟩ =
        some (true, s) ∧ DInv adj start compSet s ∧ s.stk ≠ [] := by
  rcases dfs_total adj start compSet with ⟨⟨b, s⟩, hr, hf, ht⟩
  cases b
  · exfalso
    rcases hf rfl with ⟨hstk, hstart, hinv⟩
    have hyseen : y ∈ (s : DfsSt).seen := seen_reach hinv hstk h1 hstart
    exact hy (seen_to_start hinv hstk h2 hyseen)
  · exact ⟨s, hr, (ht rfl).1, (ht rfl).2⟩

/-- Completeness of `findCycleFrom`: it returns a cycle that starts and ends
at `start`, whose nodes before the closing repeat are pairwise distinct, and
whose interior nodes lie in the component set. -/
theorem findCycleFrom_success {adj : List (List Nat)} {start : Nat}
    {compSet : List Nat} {y : Nat} (hy : y ≠ start)
    (h1 : ReachP adj (fun z => z ∈ compSet) start y)
    (h2 : ReachP adj (fun z => z ∈ compSet) y start) :
    ∃ mid, findCycleFrom adj start compSet =
        some (some (start :: (mid ++ [start]))) ∧
      (start :: mid).Nodup ∧ ∀ x ∈ mid, x ∈ compSet := by
  rcases dfs_root_true hy h1 h2 with ⟨s, hr, hinv, hne⟩
  rcases List.eq_nil_or_concat s.stk with hnil | ⟨l', a, hconc⟩
  · exact absurd hnil hne
  rw [List.concat_eq_append] at hconc
  have hlast : s.stk.getLast? = some start := by
    rcases hinv.stkBottom with h | h
    · exact absurd h hne
    · exact h
  have ha : a = start := by
    rw [hconc, List.getLast?_concat] at hlast
    exact Option.some.inj hlast
  rw [ha] at hconc
  have hrev : s.stk.reverse = start :: l'.reverse := by
    rw [hconc]
    simp
  refine ⟨l'.reverse, ?_, ?_, ?_⟩
  · show findCycleFrom adj start compSet = _
    unfold findCycleFrom
    rw [hr]
    show some (some (s.stk.reverse ++ [start])) = _
    rw [hrev]
    rfl
  · rw [← hrev]
    exact (List.nodup_reverse).mpr hinv.stkNodup
  · intro x hx
    have hxstk : x ∈ s.stk := by
      rw [hconc]
      exact List.mem_append_left _ (List.mem_reverse.mp hx)
    rcases hinv.seenMem x (hinv.stkSeen x hxstk) with heq | hmem
    · exfalso
      have hnd : (start :: l'.reverse).Nodup := by
        rw [← hrev]
        exact (List.nodup_reverse).mpr hinv.stkNodup
      exact (List.nodup_cons.mp hnd).1 (heq ▸ hx)
    · exact hmem

/-! ## The reporting loops as `filterMap`s -/

/-- The report one module contributes to the `src/index.js` loop
(`none` = skipped). -/
def jsRep1 (w : World) (o : Options) (modList : List Nat)
    (adj : List (List Nat)) (ts : TS) (inval : List Bool) (m : Nat) :
    Option (Nat × List Nat) :=
  (jsModuleReport w o modList adj ts inval m).join

/-- One loop iteration never exhausts the DFS fuel. -/
theorem jsModuleReport_some (w : World) (o : Options) (modList : List Nat)
    (adj : List (List Nat)) (ts : TS) (inval : List Bool) (m : Nat) :
    ∃ v, jsModuleReport w o modList adj ts inval m = some v := by
  unfold jsModuleReport
  split
  · exact ⟨none, rfl⟩
  split
  · exact ⟨none, rfl⟩
  split
  · exact ⟨none, rfl⟩
  split
  · exact ⟨none, rfl⟩
  split
  · exact ⟨none, rfl⟩
  split
  · exact ⟨none, rfl⟩
  rename_i x1 i hli x2 k hsc h1 h2 h3 h4
  show ∃ v, (match findCycleFrom adj i (ts.sccs.getD k []) with
    | none => (none : Option (Option (Nat × List Nat)))
    | some (some c) => some (some (i, c))
    | some none =>
      match (adjOf adj i).find? (fun x => (ts.sccs.getD k []).contains x) with
      | some nb => some (some (i, [i, nb, i]))
      | none => some none) = some v
  rcases findCycleFrom_total adj i (ts.sccs.getD k []) with ⟨r, hr⟩
  rw [hr]
  cases r with
  | some c => exact ⟨some (i, c), rfl⟩
  | none =>
    cases (adjOf adj i).find? (fun x => (ts.sccs.getD k []).contains x) with
    | some nb => exact ⟨some (i, [i, nb, i]), rfl⟩
    | none => exact ⟨none, rfl⟩

/-- Any emitted report's start index is the module's `idOf` index. -/
theorem jsRep1_start (w : World) (o : Options) (modList : List Nat)
    (adj : List (List Nat)) (ts : TS) (inval : List Bool) (m : Nat)
    (r : Nat × List Nat)
    (h : jsRep1 w o modList adj ts inval m = some r) :
    lastIdx modList m = some r.1 := by
  unfold jsRep1 jsModuleReport at h
  split at h
  · exact Option.noConfusion h
  split at h
  · exact Option.noConfusion h
  split at h
  · exact Option.noConfusion h
  split at h
  · exact Option.noConfusion h
  split at h
  · exact Option.noConfusion h
  split at h
  · exact Option.noConfusion h
  rename_i x1 i hli x2 k hsc h1 h2 h3 h4
  have h' : (match findCycleFrom adj i (ts.sccs.getD k []) with
    | none => (none : Option (Option (Nat × List Nat)))
    | some (some c) => some (some (i, c))
    | some none =>
      match (adjOf adj i).find? (fun x => (ts.sccs.getD k []).contains x) with
      | some nb => some (some (i, [i, nb, i]))
      | none => some none).join = some r := h
  cases hfc : findCycleFrom adj i (ts.sccs.getD k []) with
  | none =>
    rw [hfc] at h'
    exact Option.noConfusion h'
  | some cyc =>
    rw [hfc] at h'
    cases cyc with
    | some c =>
      have h2 : some (i, c) = some r := h'
      have hri : r = (i, c) := (Option.some.inj h2).symm
      rw [hli, hri]
    | none =>
      cases hf : (adjOf adj i).find? (fun x => (ts.sccs.getD k []).contains x) with
      | some nb =>
        rw [hf] at h'
        have h2 : some (i, [i, nb, i]) = some r := h'
        have hri : r = (i, [i, nb, i]) := (Option.some.inj h2).symm
        rw [hli, hri]
      | none =>
        rw [hf] at h'
        exact Option.noConfusion h'

/-- An eligible module of a valid component emits the DFS cycle. -/
theorem jsRep1_emit (w : World) (o : Options) (modList : List Nat)
    (adj : List (List Nat)) (ts : TS) (inval : List Bool) (m i k : Nat)
    (c : List Nat)
    (hli : lastIdx modList m = some i) (hsc : ts.sccId i = some k)
    (h1 : inval.getD k true = false)
    (h2 : truthy (getResource w m) = true)
    (h3 : o.excl ((getResource w m).getD "") = false)
    (h4 : o.incl ((getResource w m).getD "") = true)
    (hfc : findCycleFrom adj i (ts.sccs.getD k []) = some (some c)) :
    jsRep1 w o modList adj ts inval m = some (i, c) := by
  unfold jsRep1 jsModuleReport
  rw [hli]
  show (match ts.sccId i with
    | none => (some none : Option (Option (Nat × List Nat)))
    | some k =>
      if inval.getD k true then some none
      else if !truthy (getResource w m) then some none
      else if o.excl ((getResource w m).getD "") then some none
      else if !o.incl ((getResource w m).getD "") then some none
      else
        match findCycleFrom adj i (ts.sccs.getD k []) with
        | none => none
        | some (some c) => some (some (i, c))
        | some none =>
          match (adjOf adj i).find? (fun x => (ts.sccs.getD k []).contains x) with
          | some nb => some (some (i, [i, nb, i]))
          | none => some none).join = some (i, c)
  rw [hsc]
  show (if inval.getD k true then (some none : Option (Option (Nat × List Nat)))
    else if !truthy (getResource w m) then some none
    else if o.excl ((getResource w m).getD "") then some none
    else if !o.incl ((getResource w m).getD "") then some none
    else
      match findCycleFrom adj i (ts.sccs.getD k []) with
      | none => none
      | some (some c) => some (some (i, c))
      | some none =>
        match (adjOf adj i).find? (fun x => (ts.sccs.getD k []).contains x) with
        | some nb => some (some (i, [i, nb, i]))
        | none => some none).join = some (i, c)
  rw [if_neg (by rw [h1]; exact Bool.noConfusion),
    if_neg (by rw [h2]; exact Bool.noConfusion),
    if_neg (by rw [h3]; exact Bool.noConfusion),
    if_neg (by rw [h4]; exact Bool.noConfusion), hfc]
  rfl

/-- The `src/index.js` loop is the `filterMap` of its per-module body. -/
theorem jsReportLoop_eq (w : World) (o : Options) (modList : List Nat)
    (adj : List (List Nat)) (ts : TS) (inval : List Bool) :
    ∀ ms : List Nat, jsReportLoop w o modList adj ts inval ms =
      some (ms.filterMap (jsRep1 w o modList adj ts inval)) := by
  intro ms
  induction ms with
  | nil => rfl
  | cons m ms ih =>
    rcases jsModuleReport_some w o modList adj ts inval m with ⟨v, hv⟩
    have hj : jsRep1 w o modList adj ts inval m = v := by
      unfold jsRep1
      rw [hv]
      rfl
    show (match jsModuleReport w o modList adj ts inval m with
      | none => none
      | some none => jsReportLoop w o modList adj ts inval ms
      | some (some r) =>
        match jsReportLoop w o modList adj ts inval ms with
        | none => none
        | some rs => some (r :: rs)) = _
    rw [hv, List.filterMap_cons, hj]
    cases v with
    | none => exact ih
    | some r =>
      rw [ih]

/-- The report one node contributes to the `src/index.d.ts` inner loop. -/
def dtsRep1 (w : World) (o : Options) (modList : List Nat)
    (adj : List (List Nat)) (comp : List Nat) (node : Nat) :
    Option (Nat × List Nat) :=
  (dtsNodeReport w o modList adj comp node).join

/-- One inner-loop iteration never exhausts the DFS fuel. -/
theorem dtsNodeReport_some (w : World) (o : Options) (modList : List Nat)
    (adj : List (List Nat)) (comp : List Nat) (node : Nat) :
    ∃ v, dtsNodeReport w o modList adj comp node = some v := by
  unfold dtsNodeReport
  split
  · exact ⟨none, rfl⟩
  split
  · exact ⟨none, rfl⟩
  split
  · exact ⟨none, rfl⟩
  rcases findCycleFrom_total adj node comp with ⟨r, hr⟩
  rw [hr]
  cases r with
  | some c => exact ⟨some (node, c), rfl⟩
  | none =>
    cases (adjOf adj node).find? (fun x => comp.contains x) with
    | some nb => exact ⟨some (node, [node, nb, node]), rfl⟩
    | none => exact ⟨none, rfl⟩

/-- The `src/index.d.ts` inner loop is the `filterMap` of its body. -/
theorem dtsCompLoop_eq (w : World) (o : Options) (modList : List Nat)
    (adj : List (List Nat)) (comp : List Nat) :
    ∀ ns : List Nat, dtsCompLoop w o modList adj comp ns =
      some (ns.filterMap (dtsRep1 w o modList adj comp)) := by
  intro ns
  induction ns with
  | nil => rfl
  | cons node ns ih =>
    rcases dtsNodeReport_some w o modList adj comp node with ⟨v, hv⟩
    have hj : dtsRep1 w o modList adj comp node = v := by
      unfold dtsRep1
      rw [hv]
      rfl
    show (match dtsNodeReport w o modList adj comp node with
      | none => none
      | some none => dtsCompLoop w o modList adj comp ns
      | some (some r) =>
        match dtsCompLoop w o modList adj comp ns with
        | none => none
        | some rs => some (r :: rs)) = _
    rw [hv, List.filterMap_cons, hj]
    cases v with
    | none => exact ih
    | some r =>
      rw [ih]

/-- The reports the `src/index.d.ts` outer loop accumulates, as a function. -/
def dtsComps (w : World) (o : Options) (modList : List Nat)
    (adj : List (List Nat)) (inval : List Bool) :
    Nat → List (List Nat) → List (Nat × List Nat)
  | _, [] => []
  | k, comp :: comps =>
    (if inval.getD k true then []
     else (sortByKey (idxKey w modList) comp).filterMap
       (dtsRep1 w o modList adj comp)) ++
    dtsComps w o modList adj inval (k + 1) comps

/-- The `src/index.d.ts` outer loop never exhausts the DFS fuel and gathers
exactly the per-component reports. -/
theorem dtsReportLoop_eq (w : World) (o : Options) (modList : List Nat)
    (adj : List (List Nat)) (inval : List Bool) :
    ∀ (comps : List (List Nat)) (k : Nat),
      dtsReportLoop w o modList adj inval k comps =
        some (dtsComps w o modList adj inval k comps) := by
  intro comps
  induction comps with
  | nil => intro k; rfl
  | cons comp comps ih =>
    intro k
    show (if inval.getD k true then dtsReportLoop w o modList adj inval (k + 1) comps
      else
        match dtsCompLoop w o modList adj comp
            (sortByKey (idxKey w modList) comp) with
        | none => none
        | some rs =>
          match dtsReportLoop w o modList adj inval (k + 1) comps with
          | none => none
          | some rest => some (rs ++ rest)) = _
    have he : dtsComps w o modList adj inval k (comp :: comps) =
        (if inval.getD k true then []
         else (sortByKey (idxKey w modList) comp).filterMap
           (dtsRep1 w o modList adj comp)) ++
        dtsComps w o modList adj inval (k + 1) comps := rfl
    by_cases hk : inval.getD k true = true
    · rw [if_pos hk, ih (k + 1), he, if_pos hk, List.nil_append]
    · rw [if_neg hk, dtsCompLoop_eq, ih (k + 1), he, if_neg hk]

/-! ## Helper facts for the claim theorems -/

/-- A member of a duplicate-free flatten is duplicate-free. -/
theorem nodup_of_flatten : ∀ {L : List (List Nat)}, L.flatten.Nodup →
    ∀ {c : List Nat}, c ∈ L → c.Nodup := by
  intro L
  induction L with
  | nil =>
    intro _ c hc
    exact absurd hc (List.not_mem_nil c)
  | cons x L ih =>
    intro h c hc
    rw [List.flatten_cons] at h
    rcases List.mem_cons.mp hc with rfl | hc
    · exact h.of_append_left
    · exact ih h.of_append_right hc

/-- A duplicate-free list of length at least 2 has a member other than any
given one. -/
theorem exists_other {l : List Nat} (hnd : l.Nodup) (hlen : 2 ≤ l.length)
    {x : Nat} (hx : x ∈ l) : ∃ y ∈ l, y ≠ x := by
  match l, hnd, hlen with
  | a :: b :: t, hnd, _ =>
    have hab : a ≠ b := by
      rcases hnd with _ | ⟨ha, _⟩
      exact ha b (List.mem_cons_self b t)
    by_cases hxa : x = a
    · exact ⟨b, List.mem_cons_of_mem a (List.mem_cons_self b t),
        fun h => hab (hxa ▸ h.symm)⟩
    · exact ⟨a, List.mem_cons_self a (b :: t), fun h => hxa (h.symm)⟩

/-- The sorted module list is duplicate-free when the surviving module
handles are. -/
theorem modListOf_nodup (w : World) (hnd : (w.modules.filterMap id).Nodup) :
    (modListOf w).Nodup :=
  (sortByKey_perm (resKey w) (w.modules.filterMap id)).nodup_iff.mpr hnd

/-- A valid component has at least two members, all with truthy resources. -/
theorem valid_comp_facts (w : World) (modList : List Nat)
    (sccs : List (List Nat)) (k : Nat) (hk : k < sccs.length)
    (hval : (sccInvalidOf w modList sccs).getD k true = false) :
    1 < (sccs.get ⟨k, hk⟩).length ∧
      ∀ i ∈ sccs.get ⟨k, hk⟩,
        truthy (getResource w (modList.getD i 0)) = true := by
  have hlen : (sccInvalidOf w modList sccs).length = sccs.length := by
    unfold sccInvalidOf
    exact List.length_map _ _
  have hget : (sccInvalidOf w modList sccs).getD k true =
      (decide ((sccs.get ⟨k, hk⟩).length ≤ 1) ||
        (sccs.get ⟨k, hk⟩).any
          (fun i => !truthy (getResource w (modList.getD i 0)))) := by
    rw [List.getD_eq_getElem?_getD]
    unfold sccInvalidOf
    rw [List.getElem?_map, List.getElem?_eq_getElem hk]
    rfl
  rw [hget] at hval
  rcases Bool.or_eq_false_iff.mp hval with ⟨hd, ha⟩
  constructor
  · have := of_decide_eq_false hd
    omega
  · intro i hi
    have h2 := List.any_eq_false.mp ha i hi
    cases hmem : truthy (getResource w (modList.getD i 0)) with
    | true => rfl
    | false =>
      exfalso
      rw [hmem] at h2
      exact h2 rfl

/-- `filter` of a `filterMap` in which exactly one element hits. -/
theorem filter_filterMap_single {f : Nat → Option (Nat × List Nat)}
    {p : Nat × List Nat → Bool} :
    ∀ {ms : List Nat} {m₀ : Nat} {r₀ : Nat × List Nat}, m₀ ∈ ms →
      ms.count m₀ = 1 → f m₀ = some r₀ → p r₀ = true →
      (∀ m ∈ ms, m ≠ m₀ → ∀ r, f m = some r → p r = false) →
      (ms.filterMap f).filter p = [r₀] := by
  intro ms
  induction ms with
  | nil =>
    intro m₀ r₀ h
    exact absurd h (List.not_mem_nil m₀)
  | cons m ms ih =>
    intro m₀ r₀ hmem hcount hf hp hothers
    by_cases hm : m = m₀
    · subst hm
      have hnot : m ∉ ms := by
        rw [List.count_cons_self] at hcount
        exact List.count_eq_zero.mp (by omega)
      have hrest : (ms.filterMap f).filter p = [] := by
        rw [List.filter_eq_nil_iff]
        intro r hr hc
        rcases List.mem_filterMap.mp hr with ⟨m', hm', hfm'⟩
        have hne : m' ≠ m := fun h => hnot (h ▸ hm')
        rw [hothers m' (List.mem_cons_of_mem _ hm') hne r hfm'] at hc
        exact Bool.noConfusion hc
      rw [List.filterMap_cons, hf, List.filter_cons_of_pos hp, hrest]
    · have hmem' : m₀ ∈ ms := by
        rcases List.mem_cons.mp hmem with h | h
        · exact absurd h.symm hm
        · exact h
      have hcount' : ms.count m₀ = 1 := by
        rw [List.count_cons_of_ne (fun h => hm h.symm)] at hcount
        exact hcount
      have hoth' : ∀ m' ∈ ms, m' ≠ m₀ → ∀ r, f m' = some r → p r = false :=
        fun m' hm' => hothers m' (List.mem_cons_of_mem _ hm')
      rw [List.filterMap_cons]
      cases hfm : f m with
      | none => exact ih hmem' hcount' hf hp hoth'
      | some r =>
        rw [List.filter_cons_of_neg (by
          rw [hothers m (List.mem_cons_self m ms) hm r hfm]
          exact Bool.noConfusion)]
        exact ih hmem' hcount' hf hp hoth'

/-- Every member of a valid (cyclic) component whose resource passes the
include/exclude filters receives exactly one report, whose cycle starts and
ends at the member, has pairwise-distinct entries before the closing repeat,
and stays inside the component. -/
theorem js_one_report (w : World) (o : Options)
    (hnd : (w.modules.filterMap id).Nodup) {ts : TS}
    (hrun : tarjanRun (buildAdj w o.allowAsyncCycles (modListOf w)) = some ts)
    {k : Nat} (hk : k < ts.sccs.length)
    (hval : (sccInvalidOf w (modListOf w) ts.sccs).getD k true = false)
    {i : Nat} (hi : i ∈ ts.sccs.get ⟨k, hk⟩)
    (hex : o.excl (idxKey w (modListOf w) i) = false)
    (hin : o.incl (idxKey w (modListOf w) i) = true) :
    ∃ rs mid, reportsJS w o = some rs ∧
      rs.filter (fun r => r.1 == i) = [(i, i :: (mid ++ [i]))] ∧
      (i :: mid).Nodup ∧
      ∀ x ∈ i :: (mid ++ [i]), x ∈ ts.sccs.get ⟨k, hk⟩ := by
  have hwf := buildAdj_wf w o.allowAsyncCycles (modListOf w)
  rcases tarjanRun_inv hwf hrun with ⟨inv, hst, hall⟩
  have himl : i < (modListOf w).length := by
    have := comp_mem_lt inv hk hi
    rwa [buildAdj_length] at this
  have hndml := modListOf_nodup w hnd
  have hli := lastIdx_of_nodup hndml i himl
  have hsc := inv.memSccId i k hk hi
  rcases valid_comp_facts w (modListOf w) ts.sccs k hk hval with ⟨hlen2, htruthy⟩
  have hcnodup : (ts.sccs.get ⟨k, hk⟩).Nodup :=
    nodup_of_flatten inv.poppedNodup (List.get_mem _ _ hk)
  rcases exists_other hcnodup (by omega) hi with ⟨y, hy, hyne⟩
  have h1 := comp_reachP hwf hrun hk hi hy
  have h2 := comp_reachP hwf hrun hk hy hi
  rcases findCycleFrom_success hyne h1 h2 with ⟨mid, hfc, hmidnd, hmidmem⟩
  have hcompEq : ts.sccs.getD k [] = ts.sccs.get ⟨k, hk⟩ := by
    rw [List.getD_eq_getElem?_getD, List.getElem?_eq_getElem hk]
    rfl
  have hemit := jsRep1_emit w o (modListOf w)
    (buildAdj w o.allowAsyncCycles (modListOf w)) ts
    (sccInvalidOf w (modListOf w) ts.sccs)
    ((modListOf w).getD i 0) i k (i :: (mid ++ [i])) hli hsc hval
    (htruthy i hi) hex hin (by rw [hcompEq]; exact hfc)
  have hrep : reportsJS w o =
      some ((modListOf w).filterMap (jsRep1 w o (modListOf w)
        (buildAdj w o.allowAsyncCycles (modListOf w)) ts
        (sccInvalidOf w (modListOf w) ts.sccs))) := by
    show (match tarjanRun (buildAdj w o.allowAsyncCycles (modListOf w)) with
      | none => none
      | some ts => jsReportLoop w o (modListOf w)
          (buildAdj w o.allowAsyncCycles (modListOf w)) ts
          (sccInvalidOf w (modListOf w) ts.sccs) (modListOf w)) = _
    rw [hrun]
    exact jsReportLoop_eq w o (modListOf w)
      (buildAdj w o.allowAsyncCycles (modListOf w)) ts
      (sccInvalidOf w (modListOf w) ts.sccs) (modListOf w)
  refine ⟨_, mid, hrep, ?_, hmidnd, ?_⟩
  · refine filter_filterMap_single (getD_mem himl)
      (List.count_eq_one_of_mem hndml (getD_mem himl)) hemit
      (by simp) ?_
    intro m hm hne r hfr
    cases hbe : (r.1 == i) with
    | false => rfl
    | true =>
      exfalso
      have hri : r.1 = i := beq_iff_eq.mp hbe
      have hstart := jsRep1_start w o (modListOf w)
        (buildAdj w o.allowAsyncCycles (modListOf w)) ts
        (sccInvalidOf w (modListOf w) ts.sccs) m r hfr
      rw [hri] at hstart
      exact hne (lastIdx_spec (modListOf w) m i hstart).2.symm
  · intro x hx
    rcases List.mem_cons.mp hx with rfl | hx
    · exact hi
    · rcases List.mem_append.mp hx with hx | hx
      · exact hmidmem x hx
      · rcases List.mem_singleton.mp hx with rfl
        exact hi

/-- **C1.**  Every member of a valid (cyclic) component whose resource passes
the include/exclude filters receives exactly one report, whose cycle starts
and ends at the member, has pairwise-distinct entries before the closing
repeat, and stays inside the component. -/
theorem claim_C1 (w : World) (o : Options)
    (hnd : (w.modules.filterMap id).Nodup) {ts : TS}
    (hrun : tarjanRun (buildAdj w o.allowAsyncCycles (modListOf w)) = some ts)
    {k : Nat} (hk : k < ts.sccs.length)
    (hval : (sccInvalidOf w (modListOf w) ts.sccs).getD k true = false)
    {i : Nat} (hi : i ∈ ts.sccs.get ⟨k, hk⟩)
    (hex : o.excl (idxKey w (modListOf w) i) = false)
    (hin : o.incl (idxKey w (modListOf w) i) = true) :
    ∃ rs mid, reportsJS w o = some rs ∧
      rs.filter (fun r => r.1 == i) = [(i, i :: (mid ++ [i]))] ∧
      (i :: mid).Nodup ∧
      ∀ x ∈ i :: (mid ++ [i]), x ∈ ts.sccs.get ⟨k, hk⟩ :=
  js_one_report w o hnd hrun hk hval hi hex hin

/-- **C2.**  The components returned by the SCC pass partition the index set
`0..N-1`: every index below `N` occurs exactly once across all components and
no other index occurs. -/
theorem claim_C2 (w : World) (o : Options) {ts : TS}
    (hrun : tarjanRun (buildAdj w o.allowAsyncCycles (modListOf w)) = some ts) :
    ∀ v, List.count v ts.sccs.flatten =
      if v < (modListOf w).length then 1 else 0 := by
  intro v
  have h := tarjan_partition (buildAdj_wf w o.allowAsyncCycles (modListOf w))
    hrun v
  rwa [buildAdj_length] at h

/-- **C3.**  A component is marked invalid exactly when its size is at most 1
or some member's module lacks a (truthy) resource; and the built graph never
contains a self-edge, so a singleton component can never be classified
cyclic. -/
theorem claim_C3 (w : World) (modList : List Nat) (sccs : List (List Nat))
    (a : Bool) (k : Nat) (hk : k < sccs.length) :
    ((sccInvalidOf w modList sccs).getD k true = true ↔
      ((sccs.get ⟨k, hk⟩).length ≤ 1 ∨
        ∃ i ∈ sccs.get ⟨k, hk⟩,
          truthy (getResource w (modList.getD i 0)) = false)) ∧
    ∀ i, i ∉ adjOf (buildAdj w a modList) i := by
  constructor
  · have hget : (sccInvalidOf w modList sccs).getD k true =
        (decide ((sccs.get ⟨k, hk⟩).length ≤ 1) ||
          (sccs.get ⟨k, hk⟩).any
            (fun i => !truthy (getResource w (modList.getD i 0)))) := by
      rw [List.getD_eq_getElem?_getD]
      unfold sccInvalidOf
      rw [List.getElem?_map, List.getElem?_eq_getElem hk]
      rfl
    rw [hget]
    constructor
    · intro h
      rcases Bool.or_eq_true_iff.mp h with h | h
      · exact Or.inl (of_decide_eq_true h)
      · rcases List.any_eq_true.mp h with ⟨i, hi, hti⟩
        refine Or.inr ⟨i, hi, ?_⟩
        cases hv : truthy (getResource w (modList.getD i 0)) with
        | false => rfl
        | true =>
          rw [hv] at hti
          exact Bool.noConfusion hti
    · intro h
      rcases h with h | ⟨i, hi, hti⟩
      · exact Bool.or_eq_true_iff.mpr (Or.inl (decide_eq_true h))
      · refine Bool.or_eq_true_iff.mpr (Or.inr (List.any_eq_true.mpr ⟨i, hi, ?_⟩))
        rw [hti]
        rfl
  · intro i
    exact no_self_edge w a modList i

/-- **C4 (amended).**  An adjacency row is the ordered list of resolved
surviving dependency targets with duplicates kept: a target appearing through
several surviving edges appears several times (the original claim that
duplicates collapse to a single entry is refuted by
`claim_C4_counterexample`). -/
theorem claim_C4 (w : World) (a : Bool) (modList : List Nat) (i : Nat)
    (hi : i < modList.length) :
    adjOf (buildAdj w a modList) i =
      (getDeps w a (modList.getD i 0)).filterMap (lastIdx modList) :=
  adjOf_buildAdj w a modList i hi

/-- **C8.**  On a component set whose members are mutually reachable through
the set and which has at least two members, the DFS from any member finds a
simple cycle back to it — the fallback branch is unreachable. -/
theorem claim_C8 (adj : List (List Nat)) (compSet : List Nat) (start : Nat)
    (hnd : compSet.Nodup) (hlen : 2 ≤ compSet.length)
    (hstart : start ∈ compSet)
    (hmut : ∀ x ∈ compSet, ∀ y ∈ compSet,
      ReachP adj (fun z => z ∈ compSet) x y) :
    ∃ mid, findCycleFrom adj start compSet =
        some (some (start :: (mid ++ [start]))) ∧
      (start :: mid).Nodup ∧ ∀ x ∈ start :: (mid ++ [start]), x ∈ compSet := by
  rcases exists_other hnd hlen hstart with ⟨y, hy, hyne⟩
  rcases findCycleFrom_success hyne (hmut start hstart y hy)
    (hmut y hy start hstart) with ⟨mid, h, hnd2, hmem⟩
  refine ⟨mid, h, hnd2, ?_⟩
  intro x hx
  rcases List.mem_cons.mp hx with rfl | hx
  · exact hstart
  · rcases List.mem_append.mp hx with hx | hx
    · exact hmem x hx
    · rcases List.mem_singleton.mp hx with rfl
      exact hstart

/-- **C6.**  The include/exclude filters are consulted only on the start
module of a candidate report: two option records that agree on the start
module's resource string produce the same report for that module, whatever
they answer for the other nodes of the recovered cycle. -/
theorem claim_C6 (w : World) (modList : List Nat) (adj : List (List Nat))
    (ts : TS) (inval : List Bool) (m : Nat) (o₁ o₂ : Options)
    (hex : o₁.excl ((getResource w m).getD "") =
      o₂.excl ((getResource w m).getD ""))
    (hin : o₁.incl ((getResource w m).getD "") =
      o₂.incl ((getResource w m).getD "")) :
    jsModuleReport w o₁ modList adj ts inval m =
      jsModuleReport w o₂ modList adj ts inval m := by
  unfold jsModuleReport
  rw [hex, hin]

/-! ## What `emitReports` delivers -/

/-- The `onDetected` argument built for a report. -/
def argsOf (w : World) (o : Options) (modList : List Nat)
    (r : Nat × List Nat) : Nat × List String :=
  (modList.getD r.1 0, relPathsOf w o modList r.2)

/-- The default message built for a report. -/
def msgOf (w : World) (o : Options) (modList : List Nat)
    (r : Nat × List Nat) : String :=
  "Circular dependency detected:" ++ "\r\n" ++
    String.intercalate " -> " (relPathsOf w o modList r.2)

/-- The `onDetected` invocations a report list produces. -/
def detectedOf (w : World) (o : Options) (modList : List Nat)
    (reports : List (Nat × List Nat)) : List (Nat × List String) :=
  match o.onDetected with
  | some _ => reports.map (argsOf w o modList)
  | none => []

/-- The errors a report list produces. -/
def errorsOf (w : World) (o : Options) (modList : List Nat)
    (reports : List (Nat × List Nat)) : List String :=
  match o.onDetected with
  | some cb => reports.filterMap (fun r => cb (argsOf w o modList r))
  | none => if o.failOnError then reports.map (msgOf w o modList) else []

/-- The warnings a report list produces. -/
def warningsOf (w : World) (o : Options) (modList : List Nat)
    (reports : List (Nat × List Nat)) : List String :=
  match o.onDetected with
  | some _ => []
  | none => if o.failOnError then [] else reports.map (msgOf w o modList)

theorem emit_fold_spec (w : World) (o : Options) (modList : List Nat) :
    ∀ (reports : List (Nat × List Nat)) (acc : Output),
      reports.foldl (emitStep w o modList) acc =
        { detected := acc.detected ++ detectedOf w o modList reports,
          errors := acc.errors ++ errorsOf w o modList reports,
          warnings := acc.warnings ++ warningsOf w o modList reports } := by
  intro reports
  induction reports with
  | nil =>
    intro acc
    cases hod : o.onDetected with
    | none =>
      cases hfe : o.failOnError <;>
        simp [detectedOf, errorsOf, warningsOf, hod, hfe]
    | some cb =>
      simp [detectedOf, errorsOf, warningsOf, hod]
  | cons r rs ih =>
    intro acc
    rw [List.foldl_cons, ih]
    cases hod : o.onDetected with
    | none =>
      cases hfe : o.failOnError <;>
        simp [detectedOf, errorsOf, warningsOf, emitStep, msgOf, hod, hfe]
    | some cb =>
      have hargs : argsOf w o modList r =
          (modList.getD r.1 0, relPathsOf w o modList r.2) := rfl
      cases hcb : cb (argsOf w o modList r) with
      | none =>
        simp only [emitStep, hod]
        rw [← hargs, hcb]
        simp [detectedOf, errorsOf, warningsOf, hod, hcb, List.filterMap_cons]
      | some err =>
        simp only [emitStep, hod]
        rw [← hargs, hcb]
        simp [detectedOf, errorsOf, warningsOf, hod, hcb, List.filterMap_cons]

/-- `emitReports` delivers every report. -/
theorem emitReports_spec (w : World) (o : Options) (modList : List Nat)
    (reports : List (Nat × List Nat)) :
    emitReports w o modList reports =
      { detected := detectedOf w o modList reports,
        errors := errorsOf w o modList reports,
        warnings := warningsOf w o modList reports } := by
  have h := emit_fold_spec w o modList reports
    { detected := [], errors := [], warnings := [] }
  simpa using h

/-- **C7.**  With an `onDetected` callback installed, every report is handed
to the callback in order — a callback that throws has its error pushed onto
the compilation's errors and does not suppress the remaining reports. -/
theorem claim_C7 (w : World) (o : Options) (modList : List Nat)
    (reports : List (Nat × List Nat))
    (cb : Nat × List String → Option String) (hcb : o.onDetected = some cb) :
    (emitReports w o modList reports).detected =
      reports.map (argsOf w o modList) ∧
    (emitReports w o modList reports).errors =
      reports.filterMap (fun r => cb (argsOf w o modList r)) ∧
    (emitReports w o modList reports).warnings = [] := by
  rw [emitReports_spec]
  refine ⟨?_, ?_, ?_⟩ <;>
    simp [detectedOf, errorsOf, warningsOf, hcb]

/-! ## Determinism of the sorted module list -/

/-- Two strings neither of which is `<` the other are equal. -/
theorem jsEq_of_not_lt {x y : String} (h1 : jsLt x y = false)
    (h2 : jsLt y x = false) : x = y := by
  have hd := strLtB_total x.data y.data h1 h2
  cases x with
  | mk dx =>
    cases y with
    | mk dy =>
      exact congrArg String.mk hd

/-- A permutation between two sorted lists whose keys are injective on the
elements is the identity. -/
theorem sorted_perm_eq {α : Type} (key : α → String) :
    ∀ {l₁ l₂ : List α}, List.Perm l₁ l₂ → l₁.Pairwise (keyLe key) →
      l₂.Pairwise (keyLe key) →
      (∀ a ∈ l₁, ∀ b ∈ l₁, key a = key b → a = b) → l₁ = l₂ := by
  intro l₁
  induction l₁ with
  | nil =>
    intro l₂ hp _ _ _
    exact (hp.symm.eq_nil).symm
  | cons a t₁ ih =>
    intro l₂ hp hs₁ hs₂ hinj
    cases l₂ with
    | nil => exact List.noConfusion hp.eq_nil
    | cons b t₂ =>
      have hab : a = b := by
        have hmem_a : a ∈ b :: t₂ := hp.mem_iff.mp (List.mem_cons_self a t₁)
        have hmem_b : b ∈ a :: t₁ := hp.mem_iff.mpr (List.mem_cons_self b t₂)
        rcases List.mem_cons.mp hmem_a with h | ha
        · exact h
        rcases List.mem_cons.mp hmem_b with h | hb
        · exact h.symm
        have h1 : jsLt (key a) (key b) = false :=
          (List.pairwise_cons.mp hs₂).1 a ha
        have h2 : jsLt (key b) (key a) = false :=
          (List.pairwise_cons.mp hs₁).1 b hb
        exact hinj a (List.mem_cons_self a t₁) b (List.mem_cons_of_mem a hb)
          (jsEq_of_not_lt h1 h2)
      subst hab
      have ht : List.Perm t₁ t₂ := hp.cons_inv
      rw [ih ht (List.pairwise_cons.mp hs₁).2 (List.pairwise_cons.mp hs₂).2
        (fun x hx y hy h =>
          hinj x (List.mem_cons_of_mem a hx) y (List.mem_cons_of_mem a hy) h)]

/-- When no two distinct surviving modules share a resource key, supplying
the modules in any other order changes neither the sorted module list (the
index assignment) nor the reports. -/
theorem mod_perm_invariant (w : World) (o : Options) (ms : List (Option Nat))
    (hperm : List.Perm (ms.filterMap id) (w.modules.filterMap id))
    (hinj : ∀ a ∈ w.modules.filterMap id, ∀ b ∈ w.modules.filterMap id,
      resKey w a = resKey w b → a = b) :
    modListOf { w with modules := ms } = modListOf w ∧
    reportsJS { w with modules := ms } o = reportsJS w o := by
  have hml : modListOf { w with modules := ms } = modListOf w := by
    apply sorted_perm_eq (resKey w)
    · exact (sortByKey_perm _ _).trans
        (hperm.trans (sortByKey_perm (resKey w) _).symm)
    · exact sortByKey_sorted _ _
    · exact sortByKey_sorted _ _
    · intro x hx y hy h
      have hx' : x ∈ ms.filterMap id := ((sortByKey_perm _ _).mem_iff).mp hx
      have hy' : y ∈ ms.filterMap id := ((sortByKey_perm _ _).mem_iff).mp hy
      exact hinj x (hperm.mem_iff.mp hx') y (hperm.mem_iff.mp hy') h
  refine ⟨hml, ?_⟩
  have hloop : ∀ (L : List Nat) adj ts inval msx,
      jsReportLoop { w with modules := ms } o L adj ts inval msx =
        jsReportLoop w o L adj ts inval msx := by
    intro L adj ts inval msx
    induction msx with
    | nil => rfl
    | cons m msx ih =>
      show (match jsModuleReport { w with modules := ms } o L adj ts inval m with
        | none => none
        | some none => jsReportLoop { w with modules := ms } o L adj ts inval msx
        | some (some r) =>
          match jsReportLoop { w with modules := ms } o L adj ts inval msx with
          | none => none
          | some rs => some (r :: rs)) = _
      rw [show jsModuleReport { w with modules := ms } o L adj ts inval m =
        jsModuleReport w o L adj ts inval m from rfl, ih]
      rfl
  have hba : buildAdj { w with modules := ms } o.allowAsyncCycles
      (modListOf w) = buildAdj w o.allowAsyncCycles (modListOf w) := rfl
  show (match tarjanRun (buildAdj { w with modules := ms } o.allowAsyncCycles
      (modListOf { w with modules := ms })) with
    | none => none
    | some ts =>
      jsReportLoop { w with modules := ms } o
        (modListOf { w with modules := ms })
        (buildAdj { w with modules := ms } o.allowAsyncCycles
          (modListOf { w with modules := ms })) ts
        (sccInvalidOf { w with modules := ms }
          (modListOf { w with modules := ms }) ts.sccs)
        (modListOf { w with modules := ms })) =
    (match tarjanRun (buildAdj w o.allowAsyncCycles (modListOf w)) with
    | none => none
    | some ts =>
      jsReportLoop w o (modListOf w)
        (buildAdj w o.allowAsyncCycles (modListOf w)) ts
        (sccInvalidOf w (modListOf w) ts.sccs) (modListOf w))
  rw [hml, hba]
  cases htr : tarjanRun (buildAdj w o.allowAsyncCycles (modListOf w)) with
  | none => rfl
  | some ts =>
    show jsReportLoop { w with modules := ms } o (modListOf w)
        (buildAdj w o.allowAsyncCycles (modListOf w)) ts
        (sccInvalidOf { w with modules := ms } (modListOf w) ts.sccs)
        (modListOf w) =
      jsReportLoop w o (modListOf w)
        (buildAdj w o.allowAsyncCycles (modListOf w)) ts
        (sccInvalidOf w (modListOf w) ts.sccs) (modListOf w)
    rw [show sccInvalidOf { w with modules := ms } (modListOf w) ts.sccs =
      sccInvalidOf w (modListOf w) ts.sccs from rfl]
    exact hloop (modListOf w) (buildAdj w o.allowAsyncCycles (modListOf w))
      ts (sccInvalidOf w (modListOf w) ts.sccs) (modListOf w)

/-! ## Dependency-order invariance -/

/-- Out-of-range adjacency reads give the empty row. -/
theorem adjOf_oob {adj : List (List Nat)} {x : Nat} (h : adj.length ≤ x) :
    adjOf adj x = [] :=
  List.getD_eq_default adj [] h

/-- `any` is permutation invariant. -/
theorem perm_any_eq {l₁ l₂ : List Nat} (h : List.Perm l₁ l₂)
    (f : Nat → Bool) : l₁.any f = l₂.any f := by
  cases h2 : l₂.any f with
  | true =>
    rcases List.any_eq_true.mp h2 with ⟨x, hx, hfx⟩
    exact List.any_eq_true.mpr ⟨x, h.mem_iff.mpr hx, hfx⟩
  | false =>
    cases h1 : l₁.any f with
    | false => rfl
    | true =>
      exfalso
      rcases List.any_eq_true.mp h1 with ⟨x, hx, hfx⟩
      have h3 := List.any_eq_true.mpr ⟨x, h.mem_iff.mp hx, hfx⟩
      rw [h3] at h2
      exact Bool.noConfusion h2

/-- The invalid flag of a component, unfolded. -/
theorem sccInvalid_getD (w : World) (L : List Nat) (sccs : List (List Nat))
    (k : Nat) (hk : k < sccs.length) :
    (sccInvalidOf w L sccs).getD k true =
      (decide ((sccs.get ⟨k, hk⟩).length ≤ 1) ||
        (sccs.get ⟨k, hk⟩).any
          (fun i => !truthy (getResource w (L.getD i 0)))) := by
  rw [List.getD_eq_getElem?_getD]
  unfold sccInvalidOf
  rw [List.getElem?_map, List.getElem?_eq_getElem hk]
  rfl

/-- Reachability depends only on edge membership. -/
theorem reachP_congr {adj adj' : List (List Nat)}
    (h : ∀ u v, v ∈ adjOf adj u → v ∈ adjOf adj' u) {P : Nat → Prop}
    {x y : Nat} (hr : ReachP adj P x y) : ReachP adj' P x y := by
  induction hr with
  | refl u hu => exact ReachP.refl u hu
  | head u v w hu huv _ ih => exact ReachP.head u v w hu (h u v huv) ih

/-- A reachability path either is trivial or leaves its source. -/
theorem reach_src_edge {adj : List (List Nat)} {x y : Nat}
    (h : Reach adj x y) : x = y ∨ ∃ v, v ∈ adjOf adj x := by
  cases h with
  | refl u hu => exact Or.inl rfl
  | head u v w hu huv hr => exact Or.inr ⟨v, huv⟩

/-- A component is exactly the SCC class of any of its members. -/
theorem comp_mem_iff {adj : List (List Nat)} {ts : TS} (hwf : WFAdj adj)
    (hrun : tarjanRun adj = some ts) {k : Nat} (hk : k < ts.sccs.length)
    {i : Nat} (hi : i ∈ ts.sccs.get ⟨k, hk⟩) (x : Nat) :
    x ∈ ts.sccs.get ⟨k, hk⟩ ↔ SCCRel adj x i := by
  constructor
  · intro hx
    exact (tarjan_scc_classes hwf hrun hk hk hx hi).mpr rfl
  · intro hrel
    have hxN : x < adj.length := by
      by_cases hxi : x = i
      · subst hxi
        exact comp_mem_lt (tarjanRun_inv hwf hrun).1 hk hi
      · rcases reach_src_edge hrel.1 with hxi2 | ⟨v, hedge⟩
        · exact absurd hxi2 hxi
        · by_contra hxN
          rw [adjOf_oob (Nat.le_of_not_lt hxN)] at hedge
          exact absurd hedge (List.not_mem_nil v)
    rcases mem_some_comp hwf hrun hxN with ⟨l, hl, hxl⟩
    have hlk : l = k := (tarjan_scc_classes hwf hrun hl hk hxl hi).mp hrel
    subst hlk
    exact hxl

/-- Permuting each module's dependency list permutes each adjacency row. -/
theorem adj_row_perm (w : World) (deps' : Nat → List (Option Dep))
    (hdp : ∀ m, List.Perm (deps' m) (w.deps m)) (a : Bool) (L : List Nat)
    (u : Nat) :
    List.Perm (adjOf (buildAdj { w with deps := deps' } a L) u)
      (adjOf (buildAdj w a L) u) := by
  by_cases hu : u < L.length
  · rw [adjOf_buildAdj { w with deps := deps' } a L u hu,
      adjOf_buildAdj w a L u hu]
    refine List.Perm.filterMap (lastIdx L) ?_
    show List.Perm (getDeps { w with deps := deps' } a (L.getD u 0))
      (getDeps w a (L.getD u 0))
    exact (hdp (L.getD u 0)).filterMap _
  · rw [adjOf_buildAdj_oob { w with deps := deps' } a L u
      (Nat.le_of_not_lt hu),
      adjOf_buildAdj_oob w a L u (Nat.le_of_not_lt hu)]

/-- **C5 (amended).**  Two invariance properties of the pass.  First half:
when no two distinct surviving modules share a resource key, supplying the
modules in any other order changes neither the sorted module list (the index
assignment) nor the reports; with tied keys the stable sort preserves arrival
order, so this needs the key-injectivity proviso
(`claim_C5_counterexample`).  Second half, unconditionally: permuting each
module's dependency list changes neither the index assignment nor the
classification (each index's component has the same members and the same
invalid flag), and every eligible member of a valid component still receives
exactly one report in both runs. -/
theorem claim_C5 (w : World) (o : Options) :
    (∀ ms : List (Option Nat),
      List.Perm (ms.filterMap id) (w.modules.filterMap id) →
      (∀ a ∈ w.modules.filterMap id, ∀ b ∈ w.modules.filterMap id,
        resKey w a = resKey w b → a = b) →
      modListOf { w with modules := ms } = modListOf w ∧
      reportsJS { w with modules := ms } o = reportsJS w o) ∧
    (∀ deps' : Nat → List (Option Dep),
      (∀ m, List.Perm (deps' m) (w.deps m)) →
      modListOf { w with deps := deps' } = modListOf w ∧
      ∀ ts ts',
        tarjanRun (buildAdj w o.allowAsyncCycles (modListOf w)) = some ts →
        tarjanRun (buildAdj { w with deps := deps' } o.allowAsyncCycles
          (modListOf w)) = some ts' →
        (∀ i k k' (hk : k < ts.sccs.length) (hk' : k' < ts'.sccs.length),
          i ∈ ts.sccs.get ⟨k, hk⟩ → i ∈ ts'.sccs.get ⟨k', hk'⟩ →
          (∀ x, x ∈ ts.sccs.get ⟨k, hk⟩ ↔ x ∈ ts'.sccs.get ⟨k', hk'⟩) ∧
          (sccInvalidOf w (modListOf w) ts.sccs).getD k true =
            (sccInvalidOf w (modListOf w) ts'.sccs).getD k' true) ∧
        ((w.modules.filterMap id).Nodup →
          ∀ i k (hk : k < ts.sccs.length), i ∈ ts.sccs.get ⟨k, hk⟩ →
          (sccInvalidOf w (modListOf w) ts.sccs).getD k true = false →
          o.excl (idxKey w (modListOf w) i) = false →
          o.incl (idxKey w (modListOf w) i) = true →
          (∃ rs, reportsJS w o = some rs ∧
            (rs.filter (fun r => r.1 == i)).length = 1) ∧
          (∃ rs', reportsJS { w with deps := deps' } o = some rs' ∧
            (rs'.filter (fun r => r.1 == i)).length = 1))) := by
  constructor
  · intro ms hperm hinj
    exact mod_perm_invariant w o ms hperm hinj
  · intro deps' hdp
    refine ⟨rfl, ?_⟩
    intro ts ts' hrun hrun'
    have hwf := buildAdj_wf w o.allowAsyncCycles (modListOf w)
    have hwf' := buildAdj_wf { w with deps := deps' } o.allowAsyncCycles
      (modListOf w)
    have hrow : ∀ u, List.Perm
        (adjOf (buildAdj { w with deps := deps' } o.allowAsyncCycles
          (modListOf w)) u)
        (adjOf (buildAdj w o.allowAsyncCycles (modListOf w)) u) :=
      fun u => adj_row_perm w deps' hdp o.allowAsyncCycles (modListOf w) u
    have hscc : ∀ x y,
        SCCRel (buildAdj w o.allowAsyncCycles (modListOf w)) x y ↔
        SCCRel (buildAdj { w with deps := deps' } o.allowAsyncCycles
          (modListOf w)) x y := by
      intro x y
      constructor
      · rintro ⟨hxy, hyx⟩
        exact ⟨reachP_congr (fun u v hv => (hrow u).mem_iff.mpr hv) hxy,
          reachP_congr (fun u v hv => (hrow u).mem_iff.mpr hv) hyx⟩
      · rintro ⟨hxy, hyx⟩
        exact ⟨reachP_congr (fun u v hv => (hrow u).mem_iff.mp hv) hxy,
          reachP_congr (fun u v hv => (hrow u).mem_iff.mp hv) hyx⟩
    have hclass : ∀ i k k' (hk : k < ts.sccs.length)
        (hk' : k' < ts'.sccs.length),
        i ∈ ts.sccs.get ⟨k, hk⟩ → i ∈ ts'.sccs.get ⟨k', hk'⟩ →
        (∀ x, x ∈ ts.sccs.get ⟨k, hk⟩ ↔ x ∈ ts'.sccs.get ⟨k', hk'⟩) ∧
        (sccInvalidOf w (modListOf w) ts.sccs).getD k true =
          (sccInvalidOf w (modListOf w) ts'.sccs).getD k' true := by
      intro i k k' hk hk' hik hik'
      have hiff : ∀ x, x ∈ ts.sccs.get ⟨k, hk⟩ ↔
          x ∈ ts'.sccs.get ⟨k', hk'⟩ := by
        intro x
        rw [comp_mem_iff hwf hrun hk hik x,
          comp_mem_iff hwf' hrun' hk' hik' x]
        exact hscc x i
      refine ⟨hiff, ?_⟩
      have hnd1 : (ts.sccs.get ⟨k, hk⟩).Nodup :=
        nodup_of_flatten (tarjanRun_inv hwf hrun).1.poppedNodup
          (List.get_mem _ _ hk)
      have hnd2 : (ts'.sccs.get ⟨k', hk'⟩).Nodup :=
        nodup_of_flatten (tarjanRun_inv hwf' hrun').1.poppedNodup
          (List.get_mem _ _ hk')
      have hp : List.Perm (ts.sccs.get ⟨k, hk⟩) (ts'.sccs.get ⟨k', hk'⟩) :=
        (List.perm_ext_iff_of_nodup hnd1 hnd2).mpr hiff
      rw [sccInvalid_getD w (modListOf w) ts.sccs k hk,
        sccInvalid_getD w (modListOf w) ts'.sccs k' hk',
        hp.length_eq, perm_any_eq hp _]
    refine ⟨hclass, ?_⟩
    intro hnd i k hk hik hval hex hin
    constructor
    · rcases js_one_report w o hnd hrun hk hval hik hex hin with
        ⟨rs, mid, hrep, hfil, _, _⟩
      refine ⟨rs, hrep, ?_⟩
      rw [hfil]
      rfl
    · have hiN : i < (buildAdj { w with deps := deps' } o.allowAsyncCycles
          (modListOf w)).length := by
        rw [buildAdj_length]
        have h := comp_mem_lt (tarjanRun_inv hwf hrun).1 hk hik
        rwa [buildAdj_length] at h
      rcases mem_some_comp hwf' hrun' hiN with ⟨k', hk', hik'⟩
      have hcl := hclass i k k' hk hk' hik hik'
      have hval' : (sccInvalidOf w (modListOf w) ts'.sccs).getD k' true =
          false := by
        rw [← hcl.2]
        exact hval
      rcases js_one_report { w with deps := deps' } o hnd hrun' hk' hval'
          hik' hex hin with ⟨rs', mid', hrep', hfil', _, _⟩
      refine ⟨rs', hrep', ?_⟩
      rw [hfil']
      rfl

/-! ## Equivalence of the two reporting loops up to report order -/

/-- Every list is the `getD`-image of its index range. -/
theorem list_eq_map_range (l : List Nat) :
    l = (List.range l.length).map (fun i => l.getD i 0) := by
  apply List.ext_getElem
  · simp
  · intro i h1 h2
    rw [List.getElem_map, List.getElem_range, List.getD_eq_getElem?_getD,
      List.getElem?_eq_getElem h1]
    rfl

/-- The index range is a permutation of the flattened components. -/
theorem range_perm_flatten {adj : List (List Nat)} {ts : TS} (hwf : WFAdj adj)
    (hrun : tarjanRun adj = some ts) :
    List.Perm (List.range adj.length) ts.sccs.flatten := by
  refine List.perm_iff_count.mpr ?_
  intro v
  rw [tarjan_partition hwf hrun v]
  by_cases hv : v < adj.length
  · rw [if_pos hv,
      List.count_eq_one_of_mem (List.nodup_range adj.length)
        (List.mem_range.mpr hv)]
  · rw [if_neg hv, List.count_eq_zero]
    intro hc
    exact hv (List.mem_range.mp hc)

/-- A member of an invalid component is skipped by the `src/index.js` loop. -/
theorem jsRep1_invalid (w : World) (o : Options) (modList : List Nat)
    (adj : List (List Nat)) (ts : TS) (inval : List Bool) (i k : Nat)
    (hli : lastIdx modList (modList.getD i 0) = some i)
    (hsc : ts.sccId i = some k) (hval : inval.getD k true = true) :
    jsRep1 w o modList adj ts inval (modList.getD i 0) = none := by
  unfold jsRep1 jsModuleReport
  rw [hli]
  show (match ts.sccId i with
    | none => (some none : Option (Option (Nat × List Nat)))
    | some k =>
      if inval.getD k true then some none
      else if !truthy (getResource w (modList.getD i 0)) then some none
      else if o.excl ((getResource w (modList.getD i 0)).getD "") then some none
      else if !o.incl ((getResource w (modList.getD i 0)).getD "") then some none
      else
        match findCycleFrom adj i (ts.sccs.getD k []) with
        | none => none
        | some (some c) => some (some (i, c))
        | some none =>
          match (adjOf adj i).find?
              (fun x => (ts.sccs.getD k []).contains x) with
          | some nb => some (some (i, [i, nb, i]))
          | none => some none).join = none
  rw [hsc]
  show (if inval.getD k true then (some none : Option (Option (Nat × List Nat)))
    else if !truthy (getResource w (modList.getD i 0)) then some none
    else if o.excl ((getResource w (modList.getD i 0)).getD "") then some none
    else if !o.incl ((getResource w (modList.getD i 0)).getD "") then some none
    else
      match findCycleFrom adj i (ts.sccs.getD k []) with
      | none => none
      | some (some c) => some (some (i, c))
      | some none =>
        match (adjOf adj i).find?
            (fun x => (ts.sccs.getD k []).contains x) with
        | some nb => some (some (i, [i, nb, i]))
        | none => some none).join = none
  rw [if_pos hval]
  rfl

/-- For a member of a valid component, the `src/index.d.ts` node body and the
`src/index.js` module body produce the same report. -/
theorem dts_js_rep_eq (w : World) (o : Options) (modList : List Nat)
    (adj : List (List Nat)) (ts : TS) (inval : List Bool) (i k : Nat)
    (hli : lastIdx modList (modList.getD i 0) = some i)
    (hsc : ts.sccId i = some k) (hval : inval.getD k true = false) :
    dtsRep1 w o modList adj (ts.sccs.getD k []) i =
      jsRep1 w o modList adj ts inval (modList.getD i 0) := by
  unfold jsRep1 jsModuleReport
  rw [hli]
  show dtsRep1 w o modList adj (ts.sccs.getD k []) i =
    (match ts.sccId i with
    | none => (some none : Option (Option (Nat × List Nat)))
    | some k =>
      if inval.getD k true then some none
      else if !truthy (getResource w (modList.getD i 0)) then some none
      else if o.excl ((getResource w (modList.getD i 0)).getD "") then some none
      else if !o.incl ((getResource w (modList.getD i 0)).getD "") then some none
      else
        match findCycleFrom adj i (ts.sccs.getD k []) with
        | none => none
        | some (some c) => some (some (i, c))
        | some none =>
          match (adjOf adj i).find?
              (fun x => (ts.sccs.getD k []).contains x) with
          | some nb => some (some (i, [i, nb, i]))
          | none => some none).join
  rw [hsc]
  show dtsRep1 w o modList adj (ts.sccs.getD k []) i =
    (if inval.getD k true then (some none : Option (Option (Nat × List Nat)))
    else if !truthy (getResource w (modList.getD i 0)) then some none
    else if o.excl ((getResource w (modList.getD i 0)).getD "") then some none
    else if !o.incl ((getResource w (modList.getD i 0)).getD "") then some none
    else
      match findCycleFrom adj i (ts.sccs.getD k []) with
      | none => none
      | some (some c) => some (some (i, c))
      | some none =>
        match (adjOf adj i).find?
            (fun x => (ts.sccs.getD k []).contains x) with
        | some nb => some (some (i, [i, nb, i]))
        | none => some none).join
  rw [if_neg (by rw [hval]; exact Bool.noConfusion)]
  rfl

/-- The `src/index.d.ts` report list is, component by component, a
permutation of the per-member reports. -/
theorem dtsComps_perm (w : World) (o : Options) (modList : List Nat)
    (adj : List (List Nat)) (inval : List Bool) :
    ∀ (comps : List (List Nat)) (k : Nat) (g : Nat → Option (Nat × List Nat)),
      (∀ j (hj : j < comps.length),
        (inval.getD (k + j) true = true →
          ∀ i ∈ comps.get ⟨j, hj⟩, g i = none) ∧
        (inval.getD (k + j) true = false →
          ∀ i ∈ comps.get ⟨j, hj⟩,
            dtsRep1 w o modList adj (comps.get ⟨j, hj⟩) i = g i)) →
      List.Perm (dtsComps w o modList adj inval k comps)
        ((comps.map (fun c => c.filterMap g)).flatten) := by
  intro comps
  induction comps with
  | nil =>
    intro k g _
    exact List.Perm.refl _
  | cons comp comps ih =>
    intro k g hfacts
    have hcons : dtsComps w o modList adj inval k (comp :: comps) =
        (if inval.getD k true then []
         else (sortByKey (idxKey w modList) comp).filterMap
           (dtsRep1 w o modList adj comp)) ++
        dtsComps w o modList adj inval (k + 1) comps := rfl
    rw [hcons, List.map_cons, List.flatten_cons]
    have hshift : ∀ j (hj : j < comps.length),
        (inval.getD (k + 1 + j) true = true →
          ∀ i ∈ comps.get ⟨j, hj⟩, g i = none) ∧
        (inval.getD (k + 1 + j) true = false →
          ∀ i ∈ comps.get ⟨j, hj⟩,
            dtsRep1 w o modList adj (comps.get ⟨j, hj⟩) i = g i) := by
      intro j hj
      have h := hfacts (j + 1) (Nat.succ_lt_succ hj)
      have harith : k + (j + 1) = k + 1 + j := by omega
      rw [harith] at h
      exact h
    refine List.Perm.append ?_ (ih (k + 1) g hshift)
    by_cases hk : inval.getD k true = true
    · rw [if_pos hk]
      have hz : comp.filterMap g = [] := by
        refine List.filterMap_eq_nil_iff.mpr ?_
        intro i hi
        exact (hfacts 0 (Nat.succ_pos _)).1 (by simpa using hk) i hi
      rw [hz]
    · rw [if_neg hk]
      have hval : inval.getD (k + 0) true = false := by
        cases hv : inval.getD (k + 0) true with
        | false => rfl
        | true =>
          exfalso
          rw [show k + 0 = k from rfl] at hv
          exact hk hv
      have hcongr : (sortByKey (idxKey w modList) comp).filterMap
          (dtsRep1 w o modList adj comp) =
          (sortByKey (idxKey w modList) comp).filterMap g := by
        refine List.filterMap_congr ?_
        intro i hi
        exact (hfacts 0 (Nat.succ_pos _)).2 hval i
          ((sortByKey_perm _ _).mem_iff.mp hi)
      rw [hcongr]
      exact List.Perm.filterMap g (sortByKey_perm _ _)

/-- Permuting the reports permutes each output channel. -/
theorem emit_outputs_perm (w : World) (o : Options) (modList : List Nat)
    {rs rs' : List (Nat × List Nat)} (h : List.Perm rs rs') :
    List.Perm (emitReports w o modList rs).detected
      (emitReports w o modList rs').detected ∧
    List.Perm (emitReports w o modList rs).errors
      (emitReports w o modList rs').errors ∧
    List.Perm (emitReports w o modList rs).warnings
      (emitReports w o modList rs').warnings := by
  rw [emitReports_spec, emitReports_spec]
  refine ⟨?_, ?_, ?_⟩
  · show List.Perm (detectedOf w o modList rs) (detectedOf w o modList rs')
    unfold detectedOf
    cases o.onDetected with
    | none => exact List.Perm.refl _
    | some cb => exact h.map _
  · show List.Perm (errorsOf w o modList rs) (errorsOf w o modList rs')
    unfold errorsOf
    cases o.onDetected with
    | none =>
      by_cases hf : o.failOnError = true
      · rw [if_pos hf, if_pos hf]
        exact h.map _
      · rw [if_neg hf, if_neg hf]
    | some cb => exact h.filterMap _
  · show List.Perm (warningsOf w o modList rs) (warningsOf w o modList rs')
    unfold warningsOf
    cases o.onDetected with
    | none =>
      by_cases hf : o.failOnError = true
      · rw [if_pos hf, if_pos hf]
      · rw [if_neg hf, if_neg hf]
        exact h.map _
    | some cb => exact List.Perm.refl _

/-- **C10 (amended).**  On duplicate-free module collections the two
implementations emit the same multiset of reports and the same multisets of
`onDetected` hand-offs, errors and warnings; they are **not** equivalent
run for run, because the emission orders differ
(`claim_C10_counterexample`). -/
theorem claim_C10 (w : World) (o : Options)
    (hnd : (w.modules.filterMap id).Nodup) :
    ∃ rs rs', reportsJS w o = some rs ∧ reportsDTS w o = some rs' ∧
      List.Perm rs rs' ∧
      ∃ out out', runJS w o = some out ∧ runDTS w o = some out' ∧
        List.Perm out.detected out'.detected ∧
        List.Perm out.errors out'.errors ∧
        List.Perm out.warnings out'.warnings := by
  have hwf := buildAdj_wf w o.allowAsyncCycles (modListOf w)
  rcases tarjanRun_spec (buildAdj w o.allowAsyncCycles (modListOf w)) hwf with
    ⟨ts, hrun, inv, hst, hall⟩
  have hndml := modListOf_nodup w hnd
  have hrepJS : reportsJS w o =
      some ((modListOf w).filterMap (jsRep1 w o (modListOf w)
        (buildAdj w o.allowAsyncCycles (modListOf w)) ts
        (sccInvalidOf w (modListOf w) ts.sccs))) := by
    show (match tarjanRun (buildAdj w o.allowAsyncCycles (modListOf w)) with
      | none => none
      | some ts => jsReportLoop w o (modListOf w)
          (buildAdj w o.allowAsyncCycles (modListOf w)) ts
          (sccInvalidOf w (modListOf w) ts.sccs) (modListOf w)) = _
    rw [hrun]
    exact jsReportLoop_eq w o (modListOf w)
      (buildAdj w o.allowAsyncCycles (modListOf w)) ts
      (sccInvalidOf w (modListOf w) ts.sccs) (modListOf w)
  have hrepDTS : reportsDTS w o =
      some (dtsComps w o (modListOf w)
        (buildAdj w o.allowAsyncCycles (modListOf w))
        (sccInvalidOf w (modListOf w) ts.sccs) 0 ts.sccs) := by
    show (match tarjanRun (buildAdj w o.allowAsyncCycles (modListOf w)) with
      | none => none
      | some ts => dtsReportLoop w o (modListOf w)
          (buildAdj w o.allowAsyncCycles (modListOf w))
          (sccInvalidOf w (modListOf w) ts.sccs) 0 ts.sccs) = _
    rw [hrun]
    exact dtsReportLoop_eq w o (modListOf w)
      (buildAdj w o.allowAsyncCycles (modListOf w))
      (sccInvalidOf w (modListOf w) ts.sccs) ts.sccs 0
  have hfacts : ∀ j (hj : j < ts.sccs.length),
      ((sccInvalidOf w (modListOf w) ts.sccs).getD (0 + j) true = true →
        ∀ i ∈ ts.sccs.get ⟨j, hj⟩,
          (jsRep1 w o (modListOf w)
              (buildAdj w o.allowAsyncCycles (modListOf w)) ts
              (sccInvalidOf w (modListOf w) ts.sccs) ∘
            (fun i => (modListOf w).getD i 0)) i = none) ∧
      ((sccInvalidOf w (modListOf w) ts.sccs).getD (0 + j) true = false →
        ∀ i ∈ ts.sccs.get ⟨j, hj⟩,
          dtsRep1 w o (modListOf w)
            (buildAdj w o.allowAsyncCycles (modListOf w))
            (ts.sccs.get ⟨j, hj⟩) i =
          (jsRep1 w o (modListOf w)
              (buildAdj w o.allowAsyncCycles (modListOf w)) ts
              (sccInvalidOf w (modListOf w) ts.sccs) ∘
            (fun i => (modListOf w).getD i 0)) i) := by
    intro j hj
    have hzj : 0 + j = j := Nat.zero_add j
    rw [hzj]
    have hge : ts.sccs.getD j [] = ts.sccs.get ⟨j, hj⟩ := by
      rw [List.getD_eq_getElem?_getD, List.getElem?_eq_getElem hj]
      rfl
    constructor
    · intro hval i hi
      have himl : i < (modListOf w).length := by
        have := comp_mem_lt inv hj hi
        rwa [buildAdj_length] at this
      exact jsRep1_invalid w o (modListOf w)
        (buildAdj w o.allowAsyncCycles (modListOf w)) ts
        (sccInvalidOf w (modListOf w) ts.sccs) i j
        (lastIdx_of_nodup hndml i himl) (inv.memSccId i j hj hi) hval
    · intro hval i hi
      have himl : i < (modListOf w).length := by
        have := comp_mem_lt inv hj hi
        rwa [buildAdj_length] at this
      have h := dts_js_rep_eq w o (modListOf w)
        (buildAdj w o.allowAsyncCycles (modListOf w)) ts
        (sccInvalidOf w (modListOf w) ts.sccs) i j
        (lastIdx_of_nodup hndml i himl) (inv.memSccId i j hj hi) hval
      rw [hge] at h
      exact h
  have hperm : List.Perm
      ((modListOf w).filterMap (jsRep1 w o (modListOf w)
        (buildAdj w o.allowAsyncCycles (modListOf w)) ts
        (sccInvalidOf w (modListOf w) ts.sccs)))
      (dtsComps w o (modListOf w)
        (buildAdj w o.allowAsyncCycles (modListOf w))
        (sccInvalidOf w (modListOf w) ts.sccs) 0 ts.sccs) := by
    have h1 : (modListOf w).filterMap (jsRep1 w o (modListOf w)
        (buildAdj w o.allowAsyncCycles (modListOf w)) ts
        (sccInvalidOf w (modListOf w) ts.sccs)) =
        (List.range (modListOf w).length).filterMap
          (jsRep1 w o (modListOf w)
              (buildAdj w o.allowAsyncCycles (modListOf w)) ts
              (sccInvalidOf w (modListOf w) ts.sccs) ∘
            (fun i => (modListOf w).getD i 0)) := by
      calc (modListOf w).filterMap (jsRep1 w o (modListOf w)
          (buildAdj w o.allowAsyncCycles (modListOf w)) ts
          (sccInvalidOf w (modListOf w) ts.sccs))
          = ((List.range (modListOf w).length).map
              (fun i => (modListOf w).getD i 0)).filterMap
              (jsRep1 w o (modListOf w)
                (buildAdj w o.allowAsyncCycles (modListOf w)) ts
                (sccInvalidOf w (modListOf w) ts.sccs)) := by
            rw [← list_eq_map_range (modListOf w)]
        _ = _ := List.filterMap_map _ _ _
    have h2 : List.Perm (List.range (modListOf w).length) ts.sccs.flatten := by
      have h := range_perm_flatten hwf hrun
      rwa [buildAdj_length] at h
    have h3 := h2.filterMap (jsRep1 w o (modListOf w)
        (buildAdj w o.allowAsyncCycles (modListOf w)) ts
        (sccInvalidOf w (modListOf w) ts.sccs) ∘
      (fun i => (modListOf w).getD i 0))
    have h4 := List.filterMap_flatten (jsRep1 w o (modListOf w)
        (buildAdj w o.allowAsyncCycles (modListOf w)) ts
        (sccInvalidOf w (modListOf w) ts.sccs) ∘
      (fun i => (modListOf w).getD i 0)) ts.sccs
    have h5 := dtsComps_perm w o (modListOf w)
      (buildAdj w o.allowAsyncCycles (modListOf w))
      (sccInvalidOf w (modListOf w) ts.sccs) ts.sccs 0
      (jsRep1 w o (modListOf w)
          (buildAdj w o.allowAsyncCycles (modListOf w)) ts
          (sccInvalidOf w (modListOf w) ts.sccs) ∘
        (fun i => (modListOf w).getD i 0)) hfacts
    rw [h1]
    exact (h3.trans (h4 ▸ List.Perm.refl _)).trans h5.symm
  refine ⟨_, _, hrepJS, hrepDTS, hperm, ?_⟩
  have houtJS : runJS w o = some (emitReports w o (modListOf w)
      ((modListOf w).filterMap (jsRep1 w o (modListOf w)
        (buildAdj w o.allowAsyncCycles (modListOf w)) ts
        (sccInvalidOf w (modListOf w) ts.sccs)))) := by
    unfold runJS
    rw [hrepJS]
    rfl
  have houtDTS : runDTS w o = some (emitReports w o (modListOf w)
      (dtsComps w o (modListOf w)
        (buildAdj w o.allowAsyncCycles (modListOf w))
        (sccInvalidOf w (modListOf w) ts.sccs) 0 ts.sccs)) := by
    unfold runDTS
    rw [hrepDTS]
    rfl
  rcases emit_outputs_perm w o (modListOf w) hperm with ⟨hd, he, hw⟩
  exact ⟨_, _, houtJS, houtDTS, hd, he, hw⟩

/-! ## Call depth of the recursive `strongconnect` -/

/-- `visitEdges` with each recursive call also reporting its call depth; the
loop reports the deepest nested call (0 when no call is made). -/
def visitEdgesD (sc : Nat → TS → Option (TS × Nat)) (v : Nat)
    (edges : List Nat) (s : TS) : Option (TS × Nat) :=
  match edges with
  | [] => some (s, 0)
  | w :: rest =>
    if s.idx w = none then
      match sc w s with
      | none => none
      | some (s', d) =>
        match visitEdgesD sc v rest
            { s' with low := fun u =>
                if u = v then min (s'.low v) (s'.low w) else s'.low u } with
        | none => none
        | some (s'', d') => some (s'', max d d')
    else if s.onSt w then
      visitEdgesD sc v rest
        { s with low := fun u =>
            if u = v then min (s.low v) ((s.idx w).getD 0) else s.low u }
    else
      visitEdgesD sc v rest s

/-- The call depth of `strongconnect(v)`: one more than the deepest recursive
call it makes. -/
def scDepth (adj : List (List Nat)) : Nat → Nat → TS → Option (TS × Nat)
  | 0, _, _ => none
  | fuel + 1, v, s =>
    let s1 : TS :=
      { counter := s.counter + 1,
        idx := fun u => if u = v then some s.counter else s.idx u,
        low := fun u => if u = v then s.counter else s.low u,
        onSt := fun u => if u = v then true else s.onSt u,
        sccId := s.sccId,
        st := v :: s.st,
        sccs := s.sccs }
    match visitEdgesD (scDepth adj fuel) v (adjOf adj v) s1 with
    | none => none
    | some (s2, d) =>
      if s2.idx v = some (s2.low v) then
        let p := popUntil v s2.st
        some ({ s2 with
          st := p.2,
          onSt := fun u => if p.1.contains u then false else s2.onSt u,
          sccId := fun u =>
            if p.1.contains u then some s2.sccs.length else s2.sccId u,
          sccs := s2.sccs ++ [p.1] }, d + 1)
      else some (s2, d + 1)

/-- The driver loop, tracking the deepest `strongconnect` call tree. -/
def tarjanDepthLoop (adj : List (List Nat)) : List Nat → TS → Nat → Option Nat
  | [], _, dmax => some dmax
  | v :: vs, s, dmax =>
    if s.idx v = none then
      match scDepth adj adj.length v s with
      | none => none
      | some (s', d) => tarjanDepthLoop adj vs s' (max dmax d)
    else tarjanDepthLoop adj vs s dmax

/-- The deepest recursion the SCC pass performs on a graph. -/
def tarjanDepth (adj : List (List Nat)) : Option Nat :=
  tarjanDepthLoop adj (List.range adj.length) initTS 0

/-- The length-`n` chain graph `0 → 1 → ⋯ → n-1`. -/
def chainAdj (n : Nat) : List (List Nat) :=
  (List.range n).map (fun i => if i + 1 < n then [i + 1] else [])

theorem chainAdj_length (n : Nat) : (chainAdj n).length = n := by
  simp [chainAdj]

theorem chainAdj_adjOf {n k : Nat} (hk : k < n) :
    adjOf (chainAdj n) k = if k + 1 < n then [k + 1] else [] := by
  unfold adjOf chainAdj
  rw [List.getD_eq_getElem?_getD, List.getElem?_map, List.getElem?_range hk]
  rfl

/-- The state in which `strongconnect(k)` is entered on the chain graph. -/
def chainTS (k : Nat) : TS :=
  { counter := k,
    idx := fun u => if u < k then some u else none,
    low := fun u => if u < k then u else 0,
    onSt := fun u => decide (u < k),
    sccId := fun _ => none,
    st := (List.range k).reverse,
    sccs := [] }

/-- The state after `strongconnect(k)` returns on the chain graph of `n`. -/
def chainPost (n k : Nat) : TS :=
  { counter := n,
    idx := fun u => if u < n then some u else none,
    low := fun u => if u < n then u else 0,
    onSt := fun u => decide (u < k),
    sccId := fun u => if k ≤ u ∧ u < n then some (n - 1 - u) else none,
    st := (List.range k).reverse,
    sccs := (List.range (n - k)).map (fun j => [n - 1 - j]) }

theorem contains_singleton (a b : Nat) :
    ([a] : List Nat).contains b = decide (b = a) := by
  cases hc : ([a] : List Nat).contains b with
  | false =>
    have hne : b ≠ a := by
      intro h
      subst h
      have h1 : ([b] : List Nat).contains b = true :=
        List.elem_iff.mpr (List.mem_singleton.mpr rfl)
      rw [h1] at hc
      exact Bool.noConfusion hc
    rw [decide_eq_false hne]
  | true =>
    have hb : b = a := List.mem_singleton.mp (List.elem_iff.mp hc)
    rw [decide_eq_true hb]

/-- Entering a fresh node: the pre-state of the chain is `chainPost` of
itself. -/
theorem chainTS_eq_post (m : Nat) : chainTS m = chainPost m m := by
  unfold chainTS chainPost
  congr 1
  · funext u
    by_cases h : m ≤ u ∧ u < m
    · omega
    · rw [if_neg h]
  · rw [Nat.sub_self]
    rfl

theorem chain_pop_cond (n k : Nat) (hkn : k < n) :
    (chainPost n (k + 1)).idx k = some ((chainPost n (k + 1)).low k) := by
  show (if k < n then some k else none) = some (if k < n then k else 0)
  rw [if_pos hkn, if_pos hkn]

theorem chain_post_st (n k : Nat) :
    (chainPost n (k + 1)).st = k :: (List.range k).reverse := by
  show (List.range (k + 1)).reverse = _
  rw [List.range_succ, List.reverse_append]
  rfl

theorem chain_pop (n k : Nat) :
    popUntil k (chainPost n (k + 1)).st = ([k], (List.range k).reverse) := by
  rw [chain_post_st]
  show (if k = k then ([k], (List.range k).reverse)
    else
      let p := popUntil k (List.range k).reverse
      (k :: p.1, p.2)) = _
  rw [if_pos rfl]

/-- Popping the singleton component `[k]` turns the post-state of `k+1` into
the post-state of `k`. -/
theorem chain_pop_state (n k : Nat) (hkn : k < n) :
    ({ chainPost n (k + 1) with
        st := (popUntil k (chainPost n (k + 1)).st).2,
        onSt := fun u =>
          if (popUntil k (chainPost n (k + 1)).st).1.contains u then false
          else (chainPost n (k + 1)).onSt u,
        sccId := fun u =>
          if (popUntil k (chainPost n (k + 1)).st).1.contains u then
            some (chainPost n (k + 1)).sccs.length
          else (chainPost n (k + 1)).sccId u,
        sccs := (chainPost n (k + 1)).sccs ++
          [(popUntil k (chainPost n (k + 1)).st).1] } : TS) = chainPost n k := by
  rw [chain_pop]
  have honSt : (chainPost n (k + 1)).onSt = fun u => decide (u < k + 1) := rfl
  have hsccId : (chainPost n (k + 1)).sccId =
    fun u => if k + 1 ≤ u ∧ u < n then some (n - 1 - u) else none := rfl
  have hsccs : (chainPost n (k + 1)).sccs =
    (List.range (n - (k + 1))).map (fun j => [n - 1 - j]) := rfl
  have hlen : (chainPost n (k + 1)).sccs.length = n - (k + 1) := by
    rw [hsccs, List.length_map, List.length_range]
  rw [hlen, honSt, hsccId, hsccs]
  show
    ({ counter := n,
       idx := fun u => if u < n then some u else none,
       low := fun u => if u < n then u else 0,
       onSt := fun u =>
         if ([k] : List Nat).contains u then false else decide (u < k + 1),
       sccId := fun u =>
         if ([k] : List Nat).contains u then some (n - (k + 1))
         else if k + 1 ≤ u ∧ u < n then some (n - 1 - u) else none,
       st := ([k], (List.range k).reverse).2,
       sccs := (List.range (n - (k + 1))).map (fun j => [n - 1 - j]) ++
         [([k], (List.range k).reverse).1] } : TS) =
    ({ counter := n,
       idx := fun u => if u < n then some u else none,
       low := fun u => if u < n then u else 0,
       onSt := fun u => decide (u < k),
       sccId := fun u => if k ≤ u ∧ u < n then some (n - 1 - u) else none,
       st := (List.range k).reverse,
       sccs := (List.range (n - k)).map (fun j => [n - 1 - j]) } : TS)
  congr 1
  · funext u
    rw [contains_singleton]
    by_cases h : u = k
    · rw [if_pos (decide_eq_true h)]
      have h2 : ¬ u < k := by omega
      rw [decide_eq_false h2]
    · rw [decide_eq_false h, if_neg (fun hc => Bool.noConfusion hc)]
      by_cases h2 : u < k
      · rw [decide_eq_true (show u < k + 1 by omega), decide_eq_true h2]
      · rw [decide_eq_false (show ¬ u < k + 1 by omega), decide_eq_false h2]
  · funext u
    rw [contains_singleton]
    by_cases h : u = k
    · rw [if_pos (decide_eq_true h)]
      have h2 : k ≤ u ∧ u < n := by omega
      rw [if_pos h2]
      exact congrArg some (by omega)
    · rw [decide_eq_false h, if_neg (fun hc => Bool.noConfusion hc)]
      by_cases h2 : k + 1 ≤ u ∧ u < n
      · rw [if_pos h2, if_pos (show k ≤ u ∧ u < n from ⟨by omega, h2.2⟩)]
      · rw [if_neg h2, if_neg (show ¬ (k ≤ u ∧ u < n) by omega)]
  · rw [show n - k = n - (k + 1) + 1 from by omega, List.range_succ,
      List.map_append,
      show (List.map (fun j => [n - 1 - j]) [n - (k + 1)]) =
        [[n - 1 - (n - (k + 1))]] from rfl,
      show n - 1 - (n - (k + 1)) = k from by omega]

/-- Pushing `k` onto the chain pre-state gives the pre-state of `k+1`. -/
theorem chain_push (k : Nat) :
    ({ counter := (chainTS k).counter + 1,
       idx := fun u =>
         if u = k then some (chainTS k).counter else (chainTS k).idx u,
       low := fun u => if u = k then (chainTS k).counter else (chainTS k).low u,
       onSt := fun u => if u = k then true else (chainTS k).onSt u,
       sccId := (chainTS k).sccId,
       st := k :: (chainTS k).st,
       sccs := (chainTS k).sccs } : TS) = chainTS (k + 1) := by
  have hc : (chainTS k).counter = k := rfl
  have hidx : (chainTS k).idx = fun u => if u < k then some u else none := rfl
  have hlow : (chainTS k).low = fun u => if u < k then u else 0 := rfl
  have honSt : (chainTS k).onSt = fun u => decide (u < k) := rfl
  have hst : (chainTS k).st = (List.range k).reverse := rfl
  rw [hc, hidx, hlow, honSt, hst]
  show
    ({ counter := k + 1,
       idx := fun u =>
         if u = k then some k else if u < k then some u else none,
       low := fun u => if u = k then k else if u < k then u else 0,
       onSt := fun u => if u = k then true else decide (u < k),
       sccId := (chainTS k).sccId,
       st := k :: (List.range k).reverse,
       sccs := (chainTS k).sccs } : TS) =
    ({ counter := k + 1,
       idx := fun u => if u < k + 1 then some u else none,
       low := fun u => if u < k + 1 then u else 0,
       onSt := fun u => decide (u < k + 1),
       sccId := fun _ => none,
       st := (List.range (k + 1)).reverse,
       sccs := [] } : TS)
  congr 1
  · funext u
    by_cases h : u = k
    · subst h
      rw [if_pos rfl, if_pos (by omega)]
    · rw [if_neg h]
      by_cases h2 : u < k
      · rw [if_pos h2, if_pos (by omega)]
      · rw [if_neg h2, if_neg (by omega)]
  · funext u
    by_cases h : u = k
    · subst h
      rw [if_pos rfl, if_pos (by omega)]
    · rw [if_neg h]
      by_cases h2 : u < k
      · rw [if_pos h2, if_pos (by omega)]
      · rw [if_neg h2, if_neg (by omega)]
  · funext u
    by_cases h : u = k
    · subst h
      rw [if_pos rfl, (decide_eq_true (show u < u + 1 by omega))]
    · rw [if_neg h]
      by_cases h2 : u < k
      · rw [decide_eq_true h2, decide_eq_true (show u < k + 1 by omega)]
      · rw [decide_eq_false h2, decide_eq_false (show ¬ u < k + 1 by omega)]
  · rw [List.range_succ, List.reverse_append]
    rfl

/-- Updating the parent's low-link after the chain's child call changes
nothing. -/
theorem chain_low_id (n k : Nat) (hkn : k < n) (hk1 : k + 1 < n) :
    ({ chainPost n (k + 1) with low := fun u =>
        if u = k then
          (min ((chainPost n (k + 1)).low k)
            ((chainPost n (k + 1)).low (k + 1)))
        else (chainPost n (k + 1)).low u } : TS) = chainPost n (k + 1) := by
  have h : (fun u =>
      if u = k then
        min ((chainPost n (k + 1)).low k) ((chainPost n (k + 1)).low (k + 1))
      else (chainPost n (k + 1)).low u) = (chainPost n (k + 1)).low := by
    funext u
    by_cases hu : u = k
    · rw [if_pos hu, hu]
      show min (if k < n then k else 0) (if k + 1 < n then k + 1 else 0) =
        (if k < n then k else 0)
      rw [if_pos hkn, if_pos hk1]
      exact Nat.min_eq_left (by omega)
    · rw [if_neg hu]
  rw [h]

/-- The chain's edge loop: one fresh child, whose result is passed through. -/
theorem chain_visit (n f k d : Nat) (hkn : k < n) (hk1 : k + 1 < n)
    (hrec : scDepth (chainAdj n) f (k + 1) (chainTS (k + 1)) =
      some (chainPost n (k + 1), d)) :
    visitEdgesD (scDepth (chainAdj n) f) k [k + 1] (chainTS (k + 1)) =
      some (chainPost n (k + 1), d) := by
  have hidx : (chainTS (k + 1)).idx (k + 1) = none := by
    show (if k + 1 < k + 1 then some (k + 1) else none) = none
    rw [if_neg (by omega)]
  show (if (chainTS (k + 1)).idx (k + 1) = none then
      match scDepth (chainAdj n) f (k + 1) (chainTS (k + 1)) with
      | none => none
      | some (s', dd) =>
        match visitEdgesD (scDepth (chainAdj n) f) k []
            { s' with low := fun u =>
                if u = k then (min (s'.low k) (s'.low (k + 1)))
                else s'.low u } with
        | none => none
        | some (s'', dd') => some (s'', max dd dd')
    else if (chainTS (k + 1)).onSt (k + 1) = true then
      visitEdgesD (scDepth (chainAdj n) f) k []
        { chainTS (k + 1) with low := fun u =>
            if u = k then
              (min ((chainTS (k + 1)).low k)
                (((chainTS (k + 1)).idx (k + 1)).getD 0))
            else (chainTS (k + 1)).low u }
    else visitEdgesD (scDepth (chainAdj n) f) k [] (chainTS (k + 1))) =
    some (chainPost n (k + 1), d)
  rw [if_pos hidx, hrec]
  show (match visitEdgesD (scDepth (chainAdj n) f) k []
      { chainPost n (k + 1) with low := fun u =>
          if u = k then
            (min ((chainPost n (k + 1)).low k)
              ((chainPost n (k + 1)).low (k + 1)))
          else (chainPost n (k + 1)).low u } with
    | none => none
    | some (s'', dd') => some (s'', max d dd')) = some (chainPost n (k + 1), d)
  rw [chain_low_id n k hkn hk1]
  show some (chainPost n (k + 1), max d 0) = some (chainPost n (k + 1), d)
  rw [Nat.max_zero]

/-- The chain graph drives `strongconnect` to nesting depth `n - k` from
node `k`. -/
theorem chain_sc (n : Nat) : ∀ d fuel k, k + d = n → 1 ≤ d → d ≤ fuel →
    scDepth (chainAdj n) fuel k (chainTS k) = some (chainPost n k, d) := by
  intro d
  induction d with
  | zero =>
    intro fuel k _ h1 _
    omega
  | succ d ih =>
    intro fuel k hkd hd1 hdf
    cases fuel with
    | zero => omega
    | succ f =>
      have hkn : k < n := by omega
      show (match visitEdgesD (scDepth (chainAdj n) f) k (adjOf (chainAdj n) k)
          ({ counter := (chainTS k).counter + 1,
             idx := fun u =>
               if u = k then some (chainTS k).counter else (chainTS k).idx u,
             low := fun u =>
               if u = k then (chainTS k).counter else (chainTS k).low u,
             onSt := fun u => if u = k then true else (chainTS k).onSt u,
             sccId := (chainTS k).sccId,
             st := k :: (chainTS k).st,
             sccs := (chainTS k).sccs } : TS) with
        | none => none
        | some (s2, dd) =>
          if s2.idx k = some (s2.low k) then
            some ({ s2 with
              st := (popUntil k s2.st).2,
              onSt := fun u =>
                if (popUntil k s2.st).1.contains u then false else s2.onSt u,
              sccId := fun u =>
                if (popUntil k s2.st).1.contains u then some s2.sccs.length
                else s2.sccId u,
              sccs := s2.sccs ++ [(popUntil k s2.st).1] }, dd + 1)
          else some (s2, dd + 1)) = some (chainPost n k, d + 1)
      rw [chain_push k, chainAdj_adjOf hkn]
      by_cases hk1 : k + 1 < n
      · rw [if_pos hk1,
          chain_visit n f k d hkn hk1 (ih f (k + 1) (by omega) (by omega)
            (by omega))]
        show (if (chainPost n (k + 1)).idx k = some ((chainPost n (k + 1)).low k)
          then
            some ({ chainPost n (k + 1) with
              st := (popUntil k (chainPost n (k + 1)).st).2,
              onSt := fun u =>
                if (popUntil k (chainPost n (k + 1)).st).1.contains u then false
                else (chainPost n (k + 1)).onSt u,
              sccId := fun u =>
                if (popUntil k (chainPost n (k + 1)).st).1.contains u then
                  some (chainPost n (k + 1)).sccs.length
                else (chainPost n (k + 1)).sccId u,
              sccs := (chainPost n (k + 1)).sccs ++
                [(popUntil k (chainPost n (k + 1)).st).1] }, d + 1)
          else some (chainPost n (k + 1), d + 1)) = some (chainPost n k, d + 1)
        rw [if_pos (chain_pop_cond n k hkn), chain_pop_state n k hkn]
      · rw [if_neg hk1,
          show visitEdgesD (scDepth (chainAdj n) f) k [] (chainTS (k + 1)) =
            some (chainTS (k + 1), 0) from rfl]
        have hn : n = k + 1 := by omega
        subst hn
        have hd0 : d = 0 := by omega
        subst hd0
        rw [chainTS_eq_post (k + 1)]
        show (if (chainPost (k + 1) (k + 1)).idx k =
            some ((chainPost (k + 1) (k + 1)).low k) then
            some ({ chainPost (k + 1) (k + 1) with
              st := (popUntil k (chainPost (k + 1) (k + 1)).st).2,
              onSt := fun u =>
                if (popUntil k (chainPost (k + 1) (k + 1)).st).1.contains u
                then false
                else (chainPost (k + 1) (k + 1)).onSt u,
              sccId := fun u =>
                if (popUntil k (chainPost (k + 1) (k + 1)).st).1.contains u
                then some (chainPost (k + 1) (k + 1)).sccs.length
                else (chainPost (k + 1) (k + 1)).sccId u,
              sccs := (chainPost (k + 1) (k + 1)).sccs ++
                [(popUntil k (chainPost (k + 1) (k + 1)).st).1] }, 0 + 1)
          else some (chainPost (k + 1) (k + 1), 0 + 1)) =
          some (chainPost (k + 1) k, 0 + 1)
        rw [if_pos (chain_pop_cond (k + 1) k hkn),
          chain_pop_state (k + 1) k hkn]

/-- After the first root call, every other root is already visited. -/
theorem chain_loop_skip (n : Nat) : ∀ vs dm, (∀ v ∈ vs, v < n) →
    tarjanDepthLoop (chainAdj n) vs (chainPost n 0) dm = some dm := by
  intro vs
  induction vs with
  | nil =>
    intro dm _
    rfl
  | cons v vs ih =>
    intro dm hmem
    have hv : v < n := hmem v (List.mem_cons_self v vs)
    have hidx : (chainPost n 0).idx v = some v := by
      show (if v < n then some v else none) = some v
      rw [if_pos hv]
    show (if (chainPost n 0).idx v = none then
        match scDepth (chainAdj n) (chainAdj n).length v (chainPost n 0) with
        | none => none
        | some (s', d) => tarjanDepthLoop (chainAdj n) vs s' (max dm d)
      else tarjanDepthLoop (chainAdj n) vs (chainPost n 0) dm) = some dm
    rw [if_neg (by rw [hidx]; exact fun h => Option.noConfusion h)]
    exact ih dm (fun x hx => hmem x (List.mem_cons_of_mem v hx))

/-- **C9 (amended).**  The SCC pass recurses: on the length-`n` chain graph
its `strongconnect` call nesting reaches depth `n`, i.e. the recursion depth
grows linearly with the module count (refuting the claim that the recursion
is bounded by explicit heap stacks). -/
theorem claim_C9 (n : Nat) (hn : 1 ≤ n) :
    tarjanDepth (chainAdj n) = some n := by
  have hinit : initTS = chainTS 0 := by
    unfold initTS chainTS
    congr 1
  show tarjanDepthLoop (chainAdj n) (List.range (chainAdj n).length)
    initTS 0 = some n
  rw [chainAdj_length, hinit]
  cases n with
  | zero => omega
  | succ m =>
    rw [List.range_succ_eq_map]
    show (if (chainTS 0).idx 0 = none then
        match scDepth (chainAdj (m + 1)) (chainAdj (m + 1)).length 0
            (chainTS 0) with
        | none => none
        | some (s', d) =>
          tarjanDepthLoop (chainAdj (m + 1)) ((List.range m).map Nat.succ) s'
            (max 0 d)
      else
        tarjanDepthLoop (chainAdj (m + 1)) ((List.range m).map Nat.succ)
          (chainTS 0) 0) = some (m + 1)
    rw [if_pos (show (chainTS 0).idx 0 = none from rfl),
      show (chainAdj (m + 1)).length = m + 1 from chainAdj_length (m + 1),
      chain_sc (m + 1) (m + 1) (m + 1) 0 (by omega) (by omega) (by omega)]
    show tarjanDepthLoop (chainAdj (m + 1)) ((List.range m).map Nat.succ)
      (chainPost (m + 1) 0) (max 0 (m + 1)) = some (m + 1)
    rw [Nat.zero_max]
    refine chain_loop_skip (m + 1) _ _ ?_
    intro v hv
    rcases List.mem_map.mp hv with ⟨j, hj, rfl⟩
    have := List.mem_range.mp hj
    omega

/-! ## Concrete worlds -/

/-- Default options: no filters, warnings, no callback. -/
def oW : Options :=
  { excl := fun _ => false, incl := fun _ => true, failOnError := false,
    allowAsyncCycles := false, onDetected := none, rel := fun s => s }

/-- Two modules `1 ↔ 2` with resources `a`/`b`: one valid cycle. -/
def wA : World :=
  { modules := [some 1, some 2],
    resource := fun m =>
      if m = 1 then some "a" else if m = 2 then some "b" else none,
    rootResource := fun _ => none,
    origResource := fun _ => none,
    deps := fun m =>
      if m = 1 then [some { selfRef := false, weak := false, target := some 2 }]
      else if m = 2 then
        [some { selfRef := false, weak := false, target := some 1 }]
      else [] }

/-- The state the SCC pass ends in. -/
def tsOf (adj : List (List Nat)) : TS := (tarjanRun adj).getD initTS

def adjA : List (List Nat) := buildAdj wA false (modListOf wA)

/-- Module `1` depends on module `2` twice. -/
def wDup : World :=
  { modules := [some 1, some 2],
    resource := fun m =>
      if m = 1 then some "a" else if m = 2 then some "b" else none,
    rootResource := fun _ => none,
    origResource := fun _ => none,
    deps := fun m =>
      if m = 1 then
        [some { selfRef := false, weak := false, target := some 2 },
         some { selfRef := false, weak := false, target := some 2 }]
      else [] }

/-- Two modules with the same resource `r` (a sort tie). -/
def wTie : World :=
  { modules := [some 1, some 2],
    resource := fun m =>
      if m = 1 then some "r" else if m = 2 then some "r" else none,
    rootResource := fun _ => none,
    origResource := fun _ => none,
    deps := fun _ => [] }

/-- Three modules `a`, `b`, `c`: module `1` depends on both `2` and `3`, each
of which depends back on `1` — one component with two edges out of the same
node, so dependency order matters to the traversal. -/
def wB : World :=
  { modules := [some 1, some 2, some 3],
    resource := fun m =>
      if m = 1 then some "a" else if m = 2 then some "b"
      else if m = 3 then some "c" else none,
    rootResource := fun _ => none,
    origResource := fun _ => none,
    deps := fun m =>
      if m = 1 then
        [some { selfRef := false, weak := false, target := some 2 },
         some { selfRef := false, weak := false, target := some 3 }]
      else if m = 2 then
        [some { selfRef := false, weak := false, target := some 1 }]
      else if m = 3 then
        [some { selfRef := false, weak := false, target := some 1 }]
      else [] }

/-- `wB`'s dependency lists with module `1`'s two edges swapped. -/
def depsB' : Nat → List (Option Dep) := fun m =>
  if m = 1 then
    [some { selfRef := false, weak := false, target := some 3 },
     some { selfRef := false, weak := false, target := some 2 }]
  else wB.deps m

def adjB : List (List Nat) := buildAdj wB false (modListOf wB)

def adjB' : List (List Nat) :=
  buildAdj { wB with deps := depsB' } false (modListOf wB)

/-- Options excluding resource `b`. -/
def oExclB : Options :=
  { excl := fun s => s == "b", incl := fun _ => true, failOnError := false,
    allowAsyncCycles := false, onDetected := none, rel := fun s => s }

/-- A callback that throws on the module with handle `1`. -/
def cbThrow : Nat × List String → Option String :=
  fun args => if args.1 == 1 then some "boom" else none

/-- Options with the throwing callback installed. -/
def oCb : Options :=
  { excl := fun _ => false, incl := fun _ => true, failOnError := false,
    allowAsyncCycles := false, onDetected := some cbThrow, rel := fun s => s }

/-- Two disjoint cycles whose resources interleave: sorted order `a b c z`
puts the components' members at indices `{0, 3}` and `{1, 2}`. -/
def wC10 : World :=
  { modules := [some 1, some 2, some 3, some 4],
    resource := fun m =>
      if m = 1 then some "a" else if m = 2 then some "z"
      else if m = 3 then some "b" else if m = 4 then some "c" else none,
    rootResource := fun _ => none,
    origResource := fun _ => none,
    deps := fun m =>
      if m = 1 then [some { selfRef := false, weak := false, target := some 2 }]
      else if m = 2 then
        [some { selfRef := false, weak := false, target := some 1 }]
      else if m = 3 then
        [some { selfRef := false, weak := false, target := some 4 }]
      else if m = 4 then
        [some { selfRef := false, weak := false, target := some 3 }]
      else [] }

/-! ## Witnesses and counterexamples -/

theorem claim_C1_witness :
    (wA.modules.filterMap id).Nodup ∧
    ∃ rs mid, reportsJS wA oW = some rs ∧
      rs.filter (fun r => r.1 == 0) = [(0, 0 :: (mid ++ [0]))] ∧
      (0 :: mid).Nodup ∧
      ∀ x ∈ 0 :: (mid ++ [0]), x ∈ (tsOf adjA).sccs.get ⟨0, by decide⟩ := by
  refine ⟨by decide, ?_⟩
  exact @claim_C1 wA oW (by decide) (tsOf adjA) rfl 0 (by decide) (by decide)
    0 (by decide) (by decide) (by decide)

theorem claim_C2_witness : List.count 0 (tsOf adjA).sccs.flatten = 1 := by
  have h := @claim_C2 wA oW (tsOf adjA) rfl 0
  exact h.trans (by decide)

theorem claim_C3_witness :
    ((sccInvalidOf wA (modListOf wA) (tsOf adjA).sccs).getD 0 true = true ↔
      (((tsOf adjA).sccs.get ⟨0, by decide⟩).length ≤ 1 ∨
        ∃ i ∈ (tsOf adjA).sccs.get ⟨0, by decide⟩,
          truthy (getResource wA ((modListOf wA).getD i 0)) = false)) ∧
    0 ∉ adjOf (buildAdj wA false (modListOf wA)) 0 :=
  ⟨(claim_C3 wA (modListOf wA) (tsOf adjA).sccs false 0 (by decide)).1,
    (claim_C3 wA (modListOf wA) (tsOf adjA).sccs false 0 (by decide)).2 0⟩

theorem claim_C4_witness :
    0 < (modListOf wA).length ∧
    adjOf (buildAdj wA false (modListOf wA)) 0 =
      (getDeps wA false ((modListOf wA).getD 0 0)).filterMap
        (lastIdx (modListOf wA)) :=
  ⟨by decide, claim_C4 wA false (modListOf wA) 0 (by decide)⟩

theorem claim_C4_counterexample :
    adjOf (buildAdj wDup false (modListOf wDup)) 0 = [1, 1] ∧
    ¬ (adjOf (buildAdj wDup false (modListOf wDup)) 0).Nodup := by decide

theorem claim_C5_witness :
    (modListOf { wA with modules := [some 2, some 1] } = modListOf wA ∧
     reportsJS { wA with modules := [some 2, some 1] } oW = reportsJS wA oW) ∧
    modListOf { wB with deps := depsB' } = modListOf wB ∧
    (∀ x, x ∈ (tsOf adjB).sccs.get ⟨0, by decide⟩ ↔
      x ∈ (tsOf adjB').sccs.get ⟨0, by decide⟩) ∧
    (∃ rs, reportsJS wB oW = some rs ∧
      (rs.filter (fun r => r.1 == 0)).length = 1) ∧
    (∃ rs', reportsJS { wB with deps := depsB' } oW = some rs' ∧
      (rs'.filter (fun r => r.1 == 0)).length = 1) := by
  have hdpB : ∀ m, List.Perm (depsB' m) (wB.deps m) := by
    intro m
    show List.Perm (if m = 1 then
        [some { selfRef := false, weak := false, target := some 3 },
         some { selfRef := false, weak := false, target := some 2 }]
      else wB.deps m) (wB.deps m)
    by_cases h : m = 1
    · rw [if_pos h, h]
      show List.Perm
        ([some { selfRef := false, weak := false, target := some 3 },
          some { selfRef := false, weak := false, target := some 2 }] :
            List (Option Dep))
        ([some { selfRef := false, weak := false, target := some 2 },
          some { selfRef := false, weak := false, target := some 3 }] :
            List (Option Dep))
      exact List.Perm.swap _ _ _
    · rw [if_neg h]
  constructor
  · exact (claim_C5 wA oW).1 [some 2, some 1] (by decide) (by decide)
  · have h2 := (claim_C5 wB oW).2 depsB' hdpB
    refine ⟨h2.1, ?_⟩
    have h3 := h2.2 (tsOf adjB) (tsOf adjB') rfl rfl
    refine ⟨(h3.1 0 0 0 (by decide) (by decide) (by decide) (by decide)).1,
      ?_, ?_⟩
    · exact (h3.2 (by decide) 0 0 (by decide) (by decide) (by decide)
        (by decide) (by decide)).1
    · exact (h3.2 (by decide) 0 0 (by decide) (by decide) (by decide)
        (by decide) (by decide)).2

theorem claim_C5_counterexample :
    modListOf wTie = [1, 2] ∧
    modListOf { wTie with modules := [some 2, some 1] } = [2, 1] := by decide

theorem claim_C6_witness :
    oExclB.excl ((getResource wA 1).getD "") =
      oW.excl ((getResource wA 1).getD "") ∧
    jsModuleReport wA oExclB (modListOf wA) adjA (tsOf adjA)
        (sccInvalidOf wA (modListOf wA) (tsOf adjA).sccs) 1 =
      jsModuleReport wA oW (modListOf wA) adjA (tsOf adjA)
        (sccInvalidOf wA (modListOf wA) (tsOf adjA).sccs) 1 ∧
    jsModuleReport wA oExclB (modListOf wA) adjA (tsOf adjA)
        (sccInvalidOf wA (modListOf wA) (tsOf adjA).sccs) 1 =
      some (some (0, [0, 1, 0])) :=
  ⟨by decide,
    claim_C6 wA (modListOf wA) adjA (tsOf adjA)
      (sccInvalidOf wA (modListOf wA) (tsOf adjA).sccs) 1 oExclB oW
      (by decide) (by decide),
    by decide⟩

theorem claim_C7_witness :
    oCb.onDetected = some cbThrow ∧
    (emitReports wA oCb (modListOf wA)
        [(0, [0, 1, 0]), (1, [1, 0, 1])]).detected =
      [(0, [0, 1, 0]), (1, [1, 0, 1])].map (argsOf wA oCb (modListOf wA)) ∧
    (emitReports wA oCb (modListOf wA)
        [(0, [0, 1, 0]), (1, [1, 0, 1])]).errors = ["boom"] ∧
    (emitReports wA oCb (modListOf wA)
        [(0, [0, 1, 0]), (1, [1, 0, 1])]).warnings = [] := by
  have h := claim_C7 wA oCb (modListOf wA) [(0, [0, 1, 0]), (1, [1, 0, 1])]
    cbThrow rfl
  exact ⟨rfl, h.1, h.2.1.trans (by decide), h.2.2⟩

theorem claim_C8_witness :
    ([0, 1] : List Nat).Nodup ∧ 2 ≤ ([0, 1] : List Nat).length ∧
    0 ∈ ([0, 1] : List Nat) ∧
    ∃ mid, findCycleFrom adjA 0 [0, 1] = some (some (0 :: (mid ++ [0]))) ∧
      (0 :: mid).Nodup ∧ ∀ x ∈ 0 :: (mid ++ [0]), x ∈ ([0, 1] : List Nat) := by
  have h01 : ReachP adjA (fun z => z ∈ ([0, 1] : List Nat)) 0 1 :=
    ReachP.head 0 1 1 (by decide) (by decide) (ReachP.refl 1 (by decide))
  have h10 : ReachP adjA (fun z => z ∈ ([0, 1] : List Nat)) 1 0 :=
    ReachP.head 1 0 0 (by decide) (by decide) (ReachP.refl 0 (by decide))
  refine ⟨by decide, by decide, by decide, ?_⟩
  refine claim_C8 adjA [0, 1] 0 (by decide) (by decide) (by decide) ?_
  intro x hx y hy
  simp only [List.mem_cons, List.not_mem_nil, or_false] at hx hy
  rcases hx with rfl | rfl <;> rcases hy with rfl | rfl
  · exact ReachP.refl 0 (by decide)
  · exact h01
  · exact h10
  · exact ReachP.refl 1 (by decide)

theorem claim_C9_witness : 1 ≤ 32 ∧ tarjanDepth (chainAdj 32) = some 32 :=
  ⟨by decide, claim_C9 32 (by decide)⟩

set_option maxRecDepth 4000 in
theorem claim_C9_counterexample :
    (chainAdj 32).length = 32 ∧ tarjanDepth (chainAdj 32) = some 32 := by
  decide

theorem claim_C10_witness :
    (wA.modules.filterMap id).Nodup ∧
    ∃ rs rs', reportsJS wA oW = some rs ∧ reportsDTS wA oW = some rs' ∧
      List.Perm rs rs' ∧
      ∃ out out', runJS wA oW = some out ∧ runDTS wA oW = some out' ∧
        List.Perm out.detected out'.detected ∧
        List.Perm out.errors out'.errors ∧
        List.Perm out.warnings out'.warnings :=
  ⟨by decide, claim_C10 wA oW (by decide)⟩

theorem claim_C10_counterexample : runJS wC10 oW ≠ runDTS wC10 oW := by decide
